import Mathlib

/-!
# Distributed matrix transposition and symmetry check

A shallow embedding of the C/MPI sources under `projectRoot/src`
(`mpi_code.c`, `mpi_code2.c`, `mpi_code3.c`, `mpiblock_code1.c`,
`mpiblock_code3.c`, `serialblock_code.c`).

Conventions of the embedding.

* A C buffer (`float *`) is a function `Nat → α` from element index to value.
  The element type `α` is abstract; the C comparison `!=` is the negation of
  the decidable equality of `α`.
* C `int` values that occur (dimensions, ranks, loop counters, indices) are
  non-negative in every run and are natural numbers here; `/` and `%` on them
  are the truncating operations of C.
* `malloc` returns a buffer of arbitrary contents, passed in as `junk`;
  `calloc` returns the all-zero buffer.
* A run of `size` processes is described from the outside: the rank is an
  explicit argument of every rank-local computation and the MPI collectives
  are the data movements that the MPI standard prescribes for them.
-/

namespace MatT

/-! ## Buffers and loops -/

/-- A C array of elements of type `α`, addressed by element index. -/
abbrev Buf (α : Type) := Nat → α

/-- The assignment `b[i] = v`. -/
def Buf.set {α : Type} (b : Buf α) (i : Nat) (v : α) : Buf α :=
  fun k => if k = i then v else b k

/-- State after the first `k` iterations `i = lo, lo+1, ..., lo+k-1` of a
counting loop whose body is `body i`. -/
def iterate {σ : Type} (lo : Nat) (body : Nat → σ → σ) (s : σ) : Nat → σ
  | 0 => s
  | k + 1 => body (lo + k) (iterate lo body s k)

/-- The loop `for (int i = lo; i < hi; i++) body(i)`. -/
def forLoop {σ : Type} (lo hi : Nat) (body : Nat → σ → σ) (s : σ) : σ :=
  iterate lo body s (hi - lo)

/-- The loop `for (int i = lo; i < lo + count && cond(s); i++) body(i)` whose body
may leave through `break`: `body i s` is the state after the body together
with whether `break` was executed. -/
def forBreak {σ : Type} (cond : σ → Bool) (body : Nat → σ → σ × Bool) :
    (count i : Nat) → σ → σ
  | 0, _, s => s
  | count + 1, i, s =>
    if cond s then
      if (body i s).2 then (body i s).1 else forBreak cond body count (i + 1) (body i s).1
    else s

/-- The loop `for (int i = lo; i < hi && cond(s); i++) body(i)` with `break`. -/
def forLoopBreak {σ : Type} (lo hi : Nat) (cond : σ → Bool) (body : Nat → σ → σ × Bool)
    (s : σ) : σ :=
  forBreak cond body (hi - lo) lo s

/-- The value of `(int)sqrt((double)size)` for a process count `size`: the
largest `k` with `k*k ≤ size`. -/
def intSqrt (size : Nat) : Nat := Nat.findGreatest (fun k => k * k ≤ size) size

/-- The call `memcpy(&dst[dstOff], &src[srcOff], count * sizeof(float))`. -/
def memcpy {α : Type} (dst : Buf α) (dstOff : Nat) (src : Buf α) (srcOff count : Nat) : Buf α :=
  fun k => if dstOff ≤ k ∧ k < dstOff + count then src (srcOff + (k - dstOff)) else dst k

/-! ## MPI collectives (root is rank 0) -/

/-- The call `MPI_Bcast(buf, count, MPI_FLOAT, 0, MPI_COMM_WORLD)` seen from one
rank: the first `count` elements of the root's buffer replace those of the
caller's buffer `own`. -/
def MPI_Bcast {α : Type} (rootBuf own : Buf α) (count : Nat) : Buf α :=
  fun k => if k < count then rootBuf k else own k

/-- The call `MPI_Scatter(sendbuf, count, MPI_FLOAT, recvbuf, count, MPI_FLOAT, 0, ...)`
seen from rank `rank`: elements `[rank*count, (rank+1)*count)` of the root's
send buffer arrive in the first `count` elements of the receive buffer. -/
def MPI_Scatter {α : Type} (sendbuf : Buf α) (count rank : Nat) (recvbuf : Buf α) : Buf α :=
  fun k => if k < count then sendbuf (rank * count + k) else recvbuf k

/-- The call `MPI_Gather(sendbuf, count, MPI_FLOAT, recvbuf, count, MPI_FLOAT, 0, ...)`
seen from the root: the first `count` elements of the send buffer of rank `r`
are stored at `recvbuf[r*count ..]`, for `r = 0 .. size-1`; the rest of the
receive buffer keeps its contents. -/
def MPI_Gather {α : Type} (size count : Nat) (sendbuf : Nat → Buf α) (recvbuf : Buf α) : Buf α :=
  fun k => if k < size * count then sendbuf (k / count) (k % count) else recvbuf k

/-- The call `MPI_Allreduce(&local, &global, 1, MPI_INT, MPI_MIN, ...)` for
`size ≥ 1` processes: every rank obtains the minimum of the values
contributed by ranks `0 .. size-1`. -/
def MPI_Allreduce_min (size : Nat) (vals : Nat → Nat) : Nat :=
  forLoop 1 size (fun r acc => min acc (vals r)) (vals 0)

/-! ## `mpi_code.c`: symmetry check -/

/-- The matrix as rank `rank` sees it after the broadcast in `matTransposeMPI`
and `checkSymMPI`: the root keeps its own buffer, every other rank has
allocated `n*n` elements and received the root's. -/
def bcastMatrix {α : Type} (n rank : Nat) (matrix junk : Buf α) : Buf α :=
  MPI_Bcast matrix (if rank = 0 then matrix else junk) (n * n)

/-- The row range `(localStart, localEnd)` that `checkSymMPI` assigns to rank
`rank`. -/
def rowRange (n size rank : Nat) : Nat × Nat :=
  let rowsPerProc := n / size
  let remainder := n % size
  if rank < remainder then
    let localStart := rank * (rowsPerProc + 1)
    (localStart, localStart + (rowsPerProc + 1))
  else
    let localStart := remainder * (rowsPerProc + 1) + (rank - remainder) * rowsPerProc
    (localStart, localStart + rowsPerProc)

/-- First row of rank `rank`. -/
def localStart (n size rank : Nat) : Nat := (rowRange n size rank).1

/-- One past the last row of rank `rank`. -/
def localEnd (n size rank : Nat) : Nat := (rowRange n size rank).2

/-- The inner loop of the local check, over the columns `j > i` of row `i`:
the first mismatch sets `localSym` to 0 and breaks. -/
def scanRow {α : Type} [DecidableEq α] (matrix : Buf α) (n i : Nat) (localSym : Nat) : Nat :=
  forLoopBreak (i + 1) n (fun _ => true) (fun j localSym =>
    if matrix (i * n + j) ≠ matrix (j * n + i) then (0, true) else (localSym, false)) localSym

/-- Step 2 of `checkSymMPI`: the value of `localSym` after the loop over the
rows `[localStart, localEnd)`, which stops as soon as `localSym` is 0. -/
def localSymScan {α : Type} [DecidableEq α] (matrix : Buf α) (n localStart localEnd : Nat) :
    Nat :=
  forLoopBreak localStart localEnd (fun localSym => localSym ≠ 0)
    (fun i localSym => (scanRow matrix n i localSym, false)) 1

/-- The value of `localSym` on rank `rank` in a run of `checkSymMPI` by `size`
processes. -/
def checkSymMPI_local {α : Type} [DecidableEq α] (size n rank : Nat) (matrix junk : Buf α) :
    Nat :=
  localSymScan (bcastMatrix n rank matrix junk) n (localStart n size rank) (localEnd n size rank)

/-- The function `checkSymMPI(matrix, n)` run by `size` processes: the value
`globalSym` returned on rank `rank`, which the all-reduce makes the same on
every rank. -/
def checkSymMPI {α : Type} [DecidableEq α] (size n : Nat) (_rank : Nat) (matrix junk : Buf α) :
    Nat :=
  MPI_Allreduce_min size (fun r => checkSymMPI_local size n r matrix junk)

/-! ## `mpi_code.c`: broadcast strategy -/

/-- Steps 2 to 4 of `matTransposeMPI` on rank `rank`: the buffer
`localTransposed` after the two loops. -/
def matTransposeMPI_local {α : Type} (size n rank : Nat) (matrix junk : Buf α) : Buf α :=
  let localRows := n / size
  let localStart := rank * localRows
  let localEnd := localStart + localRows
  forLoop localStart localEnd (fun i localTransposed =>
    forLoop 0 n (fun j localTransposed =>
      localTransposed.set ((i - localStart) * n + j) (matrix (j * n + i))) localTransposed) junk

/-- The function `matTransposeMPI(matrix, transposed, n)` run by `size`
processes: the contents of the root's `transposed` after the gather. -/
def matTransposeMPI {α : Type} (size n : Nat) (matrix transposed junk : Buf α) : Buf α :=
  let localRows := n / size
  let localCount := localRows * n
  MPI_Gather size localCount
    (fun rank => matTransposeMPI_local size n rank (bcastMatrix n rank matrix junk) junk)
    transposed

/-! ## `mpi_code2.c`: row scatter, column gather -/

/-- The buffers that `matTransposeMPI2` carries through its column loop:
`sendCol` of every rank, and `recvCol` and `transposed` of the root. -/
structure ColState (α : Type) where
  sendCol : Nat → Buf α
  recvCol : Buf α
  transposed : Buf α

/-- Step (a) of the column loop on one rank: copy column `c` of `localM` into
`sendCol`. -/
def extractColumn {α : Type} (n localRows c : Nat) (localM sendCol : Buf α) : Buf α :=
  forLoop 0 localRows (fun r sendCol => sendCol.set r (localM (r * n + c))) sendCol

/-- Step (c) of the column loop on the root: copy `recvCol` into row `c` of
`transposed`. -/
def placeColumn {α : Type} (n c : Nat) (recvCol transposed : Buf α) : Buf α :=
  forLoop 0 n (fun rowGlobal transposed =>
    transposed.set (c * n + rowGlobal) (recvCol rowGlobal)) transposed

/-- One iteration `c` of the column loop of `matTransposeMPI2`, for all ranks. -/
def columnStep {α : Type} (size n : Nat) (localM : Nat → Buf α) (c : Nat)
    (st : ColState α) : ColState α :=
  let localRows := n / size
  let sendCol := fun rank => extractColumn n localRows c (localM rank) (st.sendCol rank)
  let recvCol := MPI_Gather size localRows sendCol st.recvCol
  { sendCol := sendCol, recvCol := recvCol, transposed := placeColumn n c recvCol st.transposed }

/-- The state of `matTransposeMPI2(matrix, transposed, n)` run by `size`
processes when the column loop has finished. -/
def matTransposeMPI2_run {α : Type} (size n : Nat) (matrix transposed junk : Buf α) :
    ColState α :=
  let localRows := n / size
  let localM := fun rank => MPI_Scatter matrix (localRows * n) rank junk
  forLoop 0 n (columnStep size n localM)
    { sendCol := fun _ => junk, recvCol := junk, transposed := transposed }

/-- The function `matTransposeMPI2(matrix, transposed, n)` run by `size`
processes: the contents of the root's `transposed` on return. -/
def matTransposeMPI2 {α : Type} (size n : Nat) (matrix transposed junk : Buf α) : Buf α :=
  (matTransposeMPI2_run size n matrix transposed junk).transposed

/-! ## `mpi_code3.c`: pairwise block exchange -/

/-- The packing loop of the `else` branch of `matTransposeMPI3`: the block of
`localM` aligned on the columns of peer `k` is copied into `sendBuf`. -/
def packBlock {α : Type} (n localRows k : Nat) (localM sendBuf : Buf α) : Buf α :=
  let colStart := k * localRows
  forLoop 0 localRows (fun r sendBuf =>
    forLoop 0 localRows (fun c sendBuf =>
      let globalCol := colStart + c
      sendBuf.set (r * localRows + c) (localM (r * n + globalCol))) sendBuf) sendBuf

/-- The `k == rank` branch of `matTransposeMPI3`: the diagonal block is
transposed from `localM` into `localT`. -/
def diagBlock {α : Type} (n localRows rank : Nat) (localM localT : Buf α) : Buf α :=
  forLoop 0 localRows (fun r localT =>
    forLoop 0 localRows (fun c localT =>
      let globalCol := rank * localRows + c
      let transVal := localM (c * n + (rank * localRows + r))
      localT.set (r * n + globalCol) transVal) localT) localT

/-- The loop after `MPI_Waitall` in `matTransposeMPI3`: the block received from
peer `k` is written into `localT`. -/
def placeBlock {α : Type} (n localRows k : Nat) (recvBuf localT : Buf α) : Buf α :=
  forLoop 0 localRows (fun r localT =>
    forLoop 0 localRows (fun c localT =>
      let val := recvBuf (r * localRows + c)
      let globalCol := k * localRows + r
      let localRow := c
      localT.set (localRow * n + globalCol) val) localT) localT

/-- The buffer `sendBuf` of rank `rank` after its iterations `0 .. k-1` of the
exchange loop: every iteration other than `rank` packs one block into it. -/
def sendBufAfter {α : Type} (n localRows rank : Nat) (localM junk : Buf α) (k : Nat) : Buf α :=
  forLoop 0 k (fun k' sendBuf =>
    if k' = rank then sendBuf else packBlock n localRows k' localM sendBuf) junk

/-- Completion of `MPI_Irecv(recvBuf, count, ...)` matched with the peer's
`MPI_Isend(sendBuf, count, ...)`: the first `count` elements of the peer's
buffer arrive in `recvBuf`. -/
def MPI_Recv {α : Type} (sent : Buf α) (count : Nat) (recvBuf : Buf α) : Buf α :=
  fun i => if i < count then sent i else recvBuf i

/-- The buffers one rank carries through the exchange loop of
`matTransposeMPI3`. -/
structure ExState (α : Type) where
  localT : Buf α
  sendBuf : Buf α
  recvBuf : Buf α

/-- One iteration `k` of the exchange loop of `matTransposeMPI3` on rank
`rank`. `localM` gives the scattered rows of every rank; the message that
arrives from peer `k` is the send buffer of `k` as it stands when `k` posts its
send to `rank`, that is after iteration `rank` of the loop of `k`. -/
def exchangeStep {α : Type} (n localRows rank : Nat) (localM : Nat → Buf α) (junk : Buf α)
    (k : Nat) (st : ExState α) : ExState α :=
  if k = rank then
    { st with localT := diagBlock n localRows rank (localM rank) st.localT }
  else
    let sendBuf := packBlock n localRows k (localM rank) st.sendBuf
    let recvBuf := MPI_Recv (sendBufAfter n localRows k (localM k) junk (rank + 1))
      (localRows * localRows) st.recvBuf
    { localT := placeBlock n localRows k recvBuf st.localT, sendBuf := sendBuf,
      recvBuf := recvBuf }

/-- The buffer `localT` of rank `rank` when the exchange loop of
`matTransposeMPI3` has finished, started from the contents `localT0`. -/
def matTransposeMPI3_localT {α : Type} (size n rank : Nat) (matrix localT0 junk : Buf α) :
    Buf α :=
  let localRows := n / size
  let localM := fun r => MPI_Scatter matrix (localRows * n) r junk
  (forLoop 0 size (exchangeStep n localRows rank localM junk)
    { localT := localT0, sendBuf := junk, recvBuf := junk }).localT

/-- The function `matTransposeMPI3(matrix, transposed, n)` run by `size`
processes: the contents of the root's `transposed` after the gather. `localT`
comes from `calloc`. -/
def matTransposeMPI3 {α : Type} [Zero α] (size n : Nat) (matrix transposed junk : Buf α) :
    Buf α :=
  let localRows := n / size
  MPI_Gather size (localRows * n)
    (fun rank => matTransposeMPI3_localT size n rank matrix (fun _ => 0) junk) transposed

/-! ## `mpiblock_code1.c` and `mpiblock_code3.c`: block grid -/

/-- The ways a run of a grid strategy can fail to return: the two
`MPI_Abort` calls that follow the precondition tests, and a receive for which
no message was ever sent. -/
inductive RunError where
  | notPerfectSquare
  | notDivisible
  | blocked
  deriving DecidableEq

/-- The call `MPI_Send(buf, count, MPI_FLOAT, dest, tag, ...)` acting on the
queues of messages under way with that tag, one queue per peer, oldest message
first. -/
def MPI_Send {α : Type} (queue : Nat → List (Buf α)) (dest : Nat) (buf : Buf α) :
    Nat → List (Buf α) :=
  fun d => if d = dest then queue d ++ [buf] else queue d

/-- What the root has produced during the distribution loop: its own
`localBlock` and the messages with tag 0 sent to each rank. -/
structure DistState (α : Type) where
  localBlock : Buf α
  mail : Nat → List (Buf α)

/-- The element-by-element packing of block `(i, j)` into `tempBuf` in
`matTransposeBlockMPI1`. -/
def extractBlock1 {α : Type} (n blockSize i j : Nat) (matrix tempBuf : Buf α) : Buf α :=
  forLoop 0 blockSize (fun r tempBuf =>
    forLoop 0 blockSize (fun c tempBuf =>
      let globalRow := i * blockSize + r
      let globalCol := j * blockSize + c
      tempBuf.set (r * blockSize + c) (matrix (globalRow * n + globalCol))) tempBuf) tempBuf

/-- The row-wise `memcpy` packing of block `(i, j)` into `tempBuf` in
`matTransposeBlockMPI3`. -/
def extractBlock3 {α : Type} (n blockSize i j : Nat) (matrix tempBuf : Buf α) : Buf α :=
  forLoop 0 blockSize (fun r tempBuf =>
    let globalRow := i * blockSize + r
    memcpy tempBuf (r * blockSize) matrix (globalRow * n + j * blockSize) blockSize) tempBuf

/-- One cell `(i, j)` of the distribution loop on the root, given the packed
block `tempBuf`: self-copy when the destination is the root, a send otherwise. -/
def distributeCell {α : Type} (sqrtP blockSize i j : Nat) (tempBuf : Buf α)
    (st : DistState α) : DistState α :=
  let destRank := i * sqrtP + j
  if destRank = 0 then
    { st with localBlock := memcpy st.localBlock 0 tempBuf 0 (blockSize * blockSize) }
  else
    { st with mail := MPI_Send st.mail destRank tempBuf }

/-- Step 6 of `matTransposeBlockMPI1` on the root. -/
def distribute1 {α : Type} (n sqrtP blockSize : Nat) (matrix junk : Buf α) : DistState α :=
  forLoop 0 sqrtP (fun i st =>
    forLoop 0 sqrtP (fun j st =>
      distributeCell sqrtP blockSize i j (extractBlock1 n blockSize i j matrix junk) st) st)
    { localBlock := junk, mail := fun _ => [] }

/-- The distribution step of `matTransposeBlockMPI3` on the root. -/
def distribute3 {α : Type} (n sqrtP blockSize : Nat) (matrix junk : Buf α) : DistState α :=
  forLoop 0 sqrtP (fun i st =>
    forLoop 0 sqrtP (fun j st =>
      distributeCell sqrtP blockSize i j (extractBlock3 n blockSize i j matrix junk) st) st)
    { localBlock := junk, mail := fun _ => [] }

/-- The buffer `localBlock` of rank `rank` after the distribution: the root has
copied its own block, every other rank receives the oldest message sent to it,
and has nothing (`none`) when no message was sent. -/
def receiveBlock {α : Type} (blockSize rank : Nat) (dist : DistState α) (junk : Buf α) :
    Option (Buf α) :=
  if rank = 0 then some dist.localBlock
  else
    match dist.mail rank with
    | [] => none
    | msg :: _ => some (MPI_Recv msg (blockSize * blockSize) junk)

/-- The local transposition of `localBlock`, out of place into a temporary
buffer and copied back; the same code in both variants. -/
def transposeLocalBlock {α : Type} (blockSize : Nat) (localBlock junk : Buf α) : Buf α :=
  let tempTranspose :=
    forLoop 0 blockSize (fun r tempTranspose =>
      forLoop 0 blockSize (fun c tempTranspose =>
        tempTranspose.set (c * blockSize + r) (localBlock (r * blockSize + c))) tempTranspose)
      junk
  memcpy localBlock 0 tempTranspose 0 (blockSize * blockSize)

/-- The messages with tag 1 on their way to the root after the local
transpositions: one from every rank `1 .. size-1` that received its block. -/
def returnedBlocks {α : Type} (size blockSize : Nat) (dist : DistState α) (junk : Buf α) :
    Nat → List (Buf α) :=
  fun rank =>
    if 0 < rank ∧ rank < size then
      match receiveBlock blockSize rank dist junk with
      | none => []
      | some localBlock => [transposeLocalBlock blockSize localBlock junk]
    else []

/-- Index of `transposed` that the root writes for element `(r, c)` of the
block coming from grid cell `(i, j)`. -/
def storeIndex (n blockSize i j r c : Nat) : Nat :=
  let transposeBlockRow := j
  let transposeBlockCol := i
  let globalRow := transposeBlockRow * blockSize + r
  let globalCol := transposeBlockCol * blockSize + c
  globalRow * n + globalCol

/-- The element-by-element placement of a transposed block in
`matTransposeBlockMPI1`. -/
def storeBlock1 {α : Type} (n blockSize i j : Nat) (block transposed : Buf α) : Buf α :=
  forLoop 0 blockSize (fun r transposed =>
    forLoop 0 blockSize (fun c transposed =>
      transposed.set (storeIndex n blockSize i j r c) (block (r * blockSize + c))) transposed)
    transposed

/-- The row-wise `memcpy` placement of a transposed block in
`matTransposeBlockMPI3`. -/
def storeBlock3 {α : Type} (n blockSize i j : Nat) (block transposed : Buf α) : Buf α :=
  forLoop 0 blockSize (fun r transposed =>
    let globalRow := j * blockSize + r
    memcpy transposed (globalRow * n + i * blockSize) block (r * blockSize) blockSize)
    transposed

/-- What the root holds during the collection loop: `transposed` and the
messages with tag 1 not yet received. -/
structure CollectState (α : Type) where
  transposed : Buf α
  inbox : Nat → List (Buf α)

/-- One cell `(i, j)` of the collection loop on the root, with `store` the
placement routine of the variant: the root's own block is placed directly, any
other is first received from `sourceRank`; the root stays blocked when that
rank has sent nothing. -/
def collectCell {α : Type} (store : Nat → Nat → Buf α → Buf α → Buf α)
    (sqrtP blockSize i j : Nat) (localBlock junk : Buf α) (st : CollectState α) :
    Except RunError (CollectState α) :=
  let sourceRank := i * sqrtP + j
  if sourceRank = 0 then
    .ok { st with transposed := store i j localBlock st.transposed }
  else
    match st.inbox sourceRank with
    | [] => .error .blocked
    | msg :: rest =>
      let tempBuf := MPI_Recv msg (blockSize * blockSize) junk
      .ok { transposed := store i j tempBuf st.transposed,
            inbox := fun s => if s = sourceRank then rest else st.inbox s }

/-- The collection loop on the root. -/
def collect {α : Type} (store : Nat → Nat → Buf α → Buf α → Buf α)
    (sqrtP blockSize : Nat) (localBlock junk : Buf α) (st : CollectState α) :
    Except RunError (CollectState α) :=
  forLoop 0 sqrtP (fun i st =>
    forLoop 0 sqrtP (fun j st =>
      st.bind (collectCell store sqrtP blockSize i j localBlock junk)) st) (.ok st)

/-- The function `matTransposeBlockMPI1(matrix, transposed, n)` run by `size`
processes: the abort, or the contents of the root's `transposed` on return. -/
def matTransposeBlockMPI1 {α : Type} (size n : Nat) (matrix transposed junk : Buf α) :
    Except RunError (Buf α) :=
  let sqrtP := intSqrt size
  if sqrtP * sqrtP ≠ size then .error .notPerfectSquare
  else if n % sqrtP ≠ 0 then .error .notDivisible
  else
    let blockSize := n / sqrtP
    let dist := distribute1 n sqrtP blockSize matrix junk
    let localBlock := transposeLocalBlock blockSize dist.localBlock junk
    (collect (storeBlock1 n blockSize) sqrtP blockSize localBlock junk
      { transposed := transposed, inbox := returnedBlocks size blockSize dist junk }).map
      (fun st => st.transposed)

/-- The function `matTransposeBlockMPI3(matrix, transposed, n)` run by `size`
processes: the abort, or the contents of the root's `transposed` on return. -/
def matTransposeBlockMPI3 {α : Type} (size n : Nat) (matrix transposed junk : Buf α) :
    Except RunError (Buf α) :=
  let sqrtP := intSqrt size
  if sqrtP * sqrtP ≠ size then .error .notPerfectSquare
  else if n % sqrtP ≠ 0 then .error .notDivisible
  else
    let blockSize := n / sqrtP
    let dist := distribute3 n sqrtP blockSize matrix junk
    let localBlock := transposeLocalBlock blockSize dist.localBlock junk
    (collect (storeBlock3 n blockSize) sqrtP blockSize localBlock junk
      { transposed := transposed, inbox := returnedBlocks size blockSize dist junk }).map
      (fun st => st.transposed)

/-- What a call of a grid variant leaves behind on the root: the error it
ended with, if any, the contents of `transposed`, and the messages with tag 0
that were sent. -/
structure GridEffects (α : Type) where
  error : Option RunError
  transposed : Buf α
  mail : Nat → List (Buf α)

/-- One cell of the collection loop, keeping the buffers of the root as they
are from the moment it is blocked. -/
def collectCellE {α : Type} (store : Nat → Nat → Buf α → Buf α → Buf α)
    (sqrtP blockSize i j : Nat) (localBlock junk : Buf α)
    (st : CollectState α × Option RunError) : CollectState α × Option RunError :=
  match st.2 with
  | some _ => st
  | none =>
    match collectCell store sqrtP blockSize i j localBlock junk st.1 with
    | .ok st' => (st', none)
    | .error e => (st.1, some e)

/-- The collection loop on the root, keeping the buffers. -/
def collectE {α : Type} (store : Nat → Nat → Buf α → Buf α → Buf α)
    (sqrtP blockSize : Nat) (localBlock junk : Buf α) (st : CollectState α) :
    CollectState α × Option RunError :=
  forLoop 0 sqrtP (fun i st =>
    forLoop 0 sqrtP (fun j st =>
      collectCellE store sqrtP blockSize i j localBlock junk st) st) (st, none)

/-- The function `matTransposeBlockMPI1` with its effects on the root: the two
precondition tests and their `MPI_Abort` come before the distribution loop,
the only place that sends, and before the collection loop, the only place that
writes `transposed`. -/
def matTransposeBlockMPI1_effects {α : Type} (size n : Nat) (matrix transposed junk : Buf α) :
    GridEffects α :=
  let sqrtP := intSqrt size
  if sqrtP * sqrtP ≠ size then
    { error := some .notPerfectSquare, transposed := transposed, mail := fun _ => [] }
  else if n % sqrtP ≠ 0 then
    { error := some .notDivisible, transposed := transposed, mail := fun _ => [] }
  else
    let blockSize := n / sqrtP
    let dist := distribute1 n sqrtP blockSize matrix junk
    let localBlock := transposeLocalBlock blockSize dist.localBlock junk
    let fin := collectE (storeBlock1 n blockSize) sqrtP blockSize localBlock junk
      { transposed := transposed, inbox := returnedBlocks size blockSize dist junk }
    { error := fin.2, transposed := fin.1.transposed, mail := dist.mail }

/-- The function `matTransposeBlockMPI3` with its effects on the root. -/
def matTransposeBlockMPI3_effects {α : Type} (size n : Nat) (matrix transposed junk : Buf α) :
    GridEffects α :=
  let sqrtP := intSqrt size
  if sqrtP * sqrtP ≠ size then
    { error := some .notPerfectSquare, transposed := transposed, mail := fun _ => [] }
  else if n % sqrtP ≠ 0 then
    { error := some .notDivisible, transposed := transposed, mail := fun _ => [] }
  else
    let blockSize := n / sqrtP
    let dist := distribute3 n sqrtP blockSize matrix junk
    let localBlock := transposeLocalBlock blockSize dist.localBlock junk
    let fin := collectE (storeBlock3 n blockSize) sqrtP blockSize localBlock junk
      { transposed := transposed, inbox := returnedBlocks size blockSize dist junk }
    { error := fin.2, transposed := fin.1.transposed, mail := dist.mail }

/-- The outcome of a call as the caller sees it, read off its effects. -/
def GridEffects.outcome {α : Type} (e : GridEffects α) : Except RunError (Buf α) :=
  match e.error with
  | none => .ok e.transposed
  | some err => .error err

/-! ## The symmetry checks of the other strategies

`checkSymMPI2`, `checkSymMPI3`, `checkSymBlockMPI1` and `checkSymBlockMPI3` have
the body of `checkSymMPI`, statement for statement. -/

/-- The function `checkSymMPI2(matrix, n)` of `mpi_code2.c`. -/
def checkSymMPI2 {α : Type} [DecidableEq α] (size n : Nat) (_rank : Nat) (matrix junk : Buf α) :
    Nat :=
  MPI_Allreduce_min size (fun r =>
    localSymScan (bcastMatrix n r matrix junk) n (localStart n size r) (localEnd n size r))

/-- The function `checkSymMPI3(matrix, n)` of `mpi_code3.c`. -/
def checkSymMPI3 {α : Type} [DecidableEq α] (size n : Nat) (_rank : Nat) (matrix junk : Buf α) :
    Nat :=
  MPI_Allreduce_min size (fun r =>
    localSymScan (bcastMatrix n r matrix junk) n (localStart n size r) (localEnd n size r))

/-- The function `checkSymBlockMPI1(matrix, n)` of `mpiblock_code1.c`. -/
def checkSymBlockMPI1 {α : Type} [DecidableEq α] (size n : Nat) (_rank : Nat)
    (matrix junk : Buf α) : Nat :=
  MPI_Allreduce_min size (fun r =>
    localSymScan (bcastMatrix n r matrix junk) n (localStart n size r) (localEnd n size r))

/-- The function `checkSymBlockMPI3(matrix, n)` of `mpiblock_code3.c`. -/
def checkSymBlockMPI3 {α : Type} [DecidableEq α] (size n : Nat) (_rank : Nat)
    (matrix junk : Buf α) : Nat :=
  MPI_Allreduce_min size (fun r =>
    localSymScan (bcastMatrix n r matrix junk) n (localStart n size r) (localEnd n size r))

/-! ## `serialblock_code.c`: the blocked baseline -/

/-- How control leaves a piece of code inside a function that may `return`
from within its loops: it falls through to the next statement, it has returned
the value `v`, or the iterations allowed to it did not suffice. -/
inductive Flow (ρ : Type) where
  | fallthrough
  | returned (v : ρ)
  | outOfFuel
  deriving DecidableEq

/-- The loop `for (int i = lo; i < lo + count; i++) body(i)` whose body may
`return`. -/
def forReturn {ρ : Type} (body : Nat → Flow ρ) : (count i : Nat) → Flow ρ
  | 0, _ => .fallthrough
  | count + 1, i =>
    match body i with
    | .fallthrough => forReturn body count (i + 1)
    | r => r

/-- The loop `for (int i = i0; i < n; i += step) body(i)` whose body may
`return`, run for at most `fuel` iterations. -/
def forStepReturn {ρ : Type} (n step : Nat) (body : Nat → Flow ρ) : (fuel i : Nat) → Flow ρ
  | 0, i => if i < n then .outOfFuel else .fallthrough
  | fuel + 1, i =>
    if i < n then
      match body i with
      | .fallthrough => forStepReturn n step body fuel (i + step)
      | r => r
    else .fallthrough

/-- The two inner loops of `checkSymBlock` on the tile that starts at
`(ii, jj)`. -/
def checkSymTile {α : Type} [DecidableEq α] (matrix : Buf α) (n blockSize ii jj : Nat) :
    Flow Nat :=
  let imax := if ii + blockSize > n then n else ii + blockSize
  let jmax := if jj + blockSize > n then n else jj + blockSize
  forReturn (fun i =>
    let jStart := if i = ii then i + 1 else jj
    forReturn (fun j =>
      if matrix (i * n + j) ≠ matrix (j * n + i) then .returned 0 else .fallthrough)
      (jmax - jStart) jStart) (imax - ii) ii

/-- The function `checkSymBlock(matrix, n, blockSize)`, each tile loop run for
at most `fuel` iterations: `none` when that did not suffice. -/
def checkSymBlock {α : Type} [DecidableEq α] (fuel : Nat) (matrix : Buf α) (n blockSize : Nat) :
    Option Nat :=
  match forStepReturn n blockSize (fun ii =>
      forStepReturn n blockSize (fun jj => checkSymTile matrix n blockSize ii jj) fuel ii)
      fuel 0 with
  | .fallthrough => some 1
  | .returned v => some v
  | .outOfFuel => none

/-- The loop `for (int i = i0; i < n; i += step) body(i)` on a state, run for at
most `fuel` iterations: `none` when that did not suffice. -/
def forStep {σ : Type} (n step : Nat) (body : Nat → σ → Option σ) : (fuel i : Nat) → σ → Option σ
  | 0, i, s => if i < n then none else some s
  | fuel + 1, i, s =>
    if i < n then (body i s).bind (forStep n step body fuel (i + step)) else some s

/-- The two inner loops of `matTransposeBlock` on the tile that starts at
`(ii, jj)`. -/
def transposeTile {α : Type} (matrix : Buf α) (n blockSize ii jj : Nat) (transposed : Buf α) :
    Buf α :=
  let imax := if ii + blockSize > n then n else ii + blockSize
  let jmax := if jj + blockSize > n then n else jj + blockSize
  forLoop ii imax (fun i transposed =>
    forLoop jj jmax (fun j transposed =>
      transposed.set (j * n + i) (matrix (i * n + j))) transposed) transposed

/-- The function `matTransposeBlock(matrix, transposed, n, blockSize)`, each
tile loop run for at most `fuel` iterations: the contents of `transposed` on
return, `none` when the iterations did not suffice. -/
def matTransposeBlock {α : Type} (fuel : Nat) (matrix transposed : Buf α) (n blockSize : Nat) :
    Option (Buf α) :=
  forStep n blockSize (fun ii transposed =>
    forStep n blockSize (fun jj transposed =>
      some (transposeTile matrix n blockSize ii jj transposed)) fuel 0 transposed)
    fuel 0 transposed

/-! ## `openmp_code.c`: the shared-memory counterpart -/

/-- The loop `for (int i = i0; i < hi; i += step) body(i)` on a state, run for
at most `fuel` iterations. -/
def strideFrom {σ : Type} (hi step : Nat) (body : Nat → σ → σ) : (fuel i : Nat) → σ → σ
  | 0, _, s => s
  | fuel + 1, i, s => if i < hi then strideFrom hi step body fuel (i + step) (body i s) else s

/-- The loop `for (int i = lo; i < hi; i += step) body(i)` with a constant step
of at least 1; it ends within `hi - lo` iterations. -/
def forStride {σ : Type} (lo hi step : Nat) (body : Nat → σ → σ) (s : σ) : σ :=
  strideFrom hi step body (hi - lo) lo s

/-- The two column loops of a tile row in `openmp_code.c`: with
`limit = jmax - ((jmax - jStart) % 4)`, the loop
`for (j = jStart; j < limit; j += 4)` with the 4-way unrolled body, then the
leftover loop `for (j = limit; j < jmax; j++)`. The subtraction is the one of
`int` as long as `jStart ≤ jmax`. -/
def unrolledLoop {σ : Type} (jStart jmax : Nat) (unrolled leftover : Nat → σ → σ) (s : σ) : σ :=
  let limit := jmax - ((jmax - jStart) % 4)
  let s := forStride jStart limit 4 unrolled s
  forLoop limit jmax leftover s

/-- One iteration `ii` of the outer loop of `checkSymOMP`, the loop to which the
`parallel for` applies: the tiles `jj = ii, ii + blockSize, ...` and the rows
`i` of each tile. `skip` is the test of `if (!symmetric) continue;` and
`row i jStart jmax` stands for the two column loops of row `i`. -/
def checkSymOMP_tiles {σ : Type} (n blockSize ii : Nat) (skip : σ → Bool)
    (row : Nat → Nat → Nat → σ → σ) (s : σ) : σ :=
  forStride ii n blockSize (fun jj s =>
    let imax := if ii + blockSize > n then n else ii + blockSize
    let jmax := if jj + blockSize > n then n else jj + blockSize
    forLoop ii imax (fun i s =>
      if skip s then s
      else
        let jStart := if i = ii then i + 1 else jj
        row i jStart jmax s) s) s

/-- The column loops of row `i` in `checkSymOMP`, on the variable `symmetric`. -/
def checkSymOMP_row {α : Type} [DecidableEq α] (matrix : Buf α) (n i jStart jmax : Nat)
    (symmetric : Nat) : Nat :=
  unrolledLoop jStart jmax
    (fun j symmetric =>
      if matrix (i * n + j) ≠ matrix (j * n + i) ∨
          matrix (i * n + (j + 1)) ≠ matrix ((j + 1) * n + i) ∨
          matrix (i * n + (j + 2)) ≠ matrix ((j + 2) * n + i) ∨
          matrix (i * n + (j + 3)) ≠ matrix ((j + 3) * n + i) then 0
      else symmetric)
    (fun j symmetric => if matrix (i * n + j) ≠ matrix (j * n + i) then 0 else symmetric)
    symmetric

/-- One iteration `ii` of the outer loop of `checkSymOMP` on the variable
`symmetric`, with `blockSize = 64`. -/
def checkSymOMP_iteration {α : Type} [DecidableEq α] (matrix : Buf α) (n ii : Nat)
    (symmetric : Nat) : Nat :=
  checkSymOMP_tiles n 64 ii (fun symmetric => symmetric == 0) (checkSymOMP_row matrix n)
    symmetric

/-- The function `checkSymOMP(matrix, n)` with the iterations of its outer loop
run one after the other by a single thread. -/
def checkSymOMP {α : Type} [DecidableEq α] (matrix : Buf α) (n : Nat) : Nat :=
  forStride 0 n 64 (fun ii symmetric => checkSymOMP_iteration matrix n ii symmetric) 1

/-- The operator `&&` of C on `int`. -/
def logicalAnd (a b : Nat) : Nat := if a ≠ 0 ∧ b ≠ 0 then 1 else 0

/-- One thread of the `parallel for` of `checkSymOMP`: it runs the logical
iterations `t` of `chunk`, iteration `t` being the one with `ii = t * 64`, on its
private copy of `symmetric`, which the `reduction(&& : symmetric)` clause
initialises to 1. -/
def checkSymOMP_thread {α : Type} [DecidableEq α] (matrix : Buf α) (n : Nat)
    (chunk : List Nat) : Nat :=
  chunk.foldl (fun symmetric t => checkSymOMP_iteration matrix n (t * 64) symmetric) 1

/-- The function `checkSymOMP(matrix, n)` with the logical iterations of its
outer loop handed to threads as `schedule` says, one list of iterations per
thread: the original value 1 of `symmetric` combined by `&&` with the private
copy of every thread. -/
def checkSymOMP_parallel {α : Type} [DecidableEq α] (matrix : Buf α) (n : Nat)
    (schedule : List (List Nat)) : Nat :=
  schedule.foldl (fun symmetric chunk =>
    logicalAnd symmetric (checkSymOMP_thread matrix n chunk)) 1

/-- The rows that `checkSymOMP` scans when no row is skipped, as triples
`(i, jStart, jmax)`, in program order. -/
def checkSymOMP_rows (n : Nat) : List (Nat × Nat × Nat) :=
  forStride 0 n 64 (fun ii rows =>
    checkSymOMP_tiles n 64 ii (fun _ => false)
      (fun i jStart jmax rows => rows ++ [(i, jStart, jmax)]) rows) []

/-- The indices of `matrix` that `checkSymOMP` reads when no row is skipped and
every comparison of the unrolled condition is evaluated, in program order; an
actual run reads a part of them. -/
def checkSymOMP_reads (n : Nat) : List Nat :=
  forStride 0 n 64 (fun ii reads =>
    checkSymOMP_tiles n 64 ii (fun _ => false)
      (fun i jStart jmax reads =>
        unrolledLoop jStart jmax
          (fun j reads => reads ++ [i * n + j, j * n + i, i * n + (j + 1), (j + 1) * n + i,
            i * n + (j + 2), (j + 2) * n + i, i * n + (j + 3), (j + 3) * n + i])
          (fun j reads => reads ++ [i * n + j, j * n + i]) reads) reads) []

/-- One iteration `ii` of the outer loop of `matTransposeOMP`: the tiles
`jj = 0, blockSize, ...` and the rows `i` of each tile; `row i jj jmax` stands
for the two column loops of row `i`. -/
def matTransposeOMP_tiles {σ : Type} (n blockSize ii : Nat)
    (row : Nat → Nat → Nat → σ → σ) (s : σ) : σ :=
  forStride 0 n blockSize (fun jj s =>
    let imax := if ii + blockSize > n then n else ii + blockSize
    let jmax := if jj + blockSize > n then n else jj + blockSize
    forLoop ii imax (fun i s => row i jj jmax s) s) s

/-- The column loops of row `i` in `matTransposeOMP`, on the buffer
`transposed`. -/
def matTransposeOMP_row {α : Type} (matrix : Buf α) (n i jj jmax : Nat) (transposed : Buf α) :
    Buf α :=
  unrolledLoop jj jmax
    (fun j transposed =>
      let transposed := transposed.set (j * n + i) (matrix (i * n + j))
      let transposed := transposed.set ((j + 1) * n + i) (matrix (i * n + (j + 1)))
      let transposed := transposed.set ((j + 2) * n + i) (matrix (i * n + (j + 2)))
      transposed.set ((j + 3) * n + i) (matrix (i * n + (j + 3))))
    (fun j transposed => transposed.set (j * n + i) (matrix (i * n + j)))
    transposed

/-- The function `matTransposeOMP(matrix, transposed, n)` with the iterations of
its outer loop run one after the other: the contents of `transposed` on
return. -/
def matTransposeOMP {α : Type} (matrix transposed : Buf α) (n : Nat) : Buf α :=
  forStride 0 n 64 (fun ii transposed =>
    matTransposeOMP_tiles n 64 ii (matTransposeOMP_row matrix n) transposed) transposed

/-- The function `matTransposeOMP` with the logical iterations of its outer loop
run in the order `order`, iteration `t` being the one with `ii = t * 64`. -/
def matTransposeOMP_ordered {α : Type} (matrix transposed : Buf α) (n : Nat)
    (order : List Nat) : Buf α :=
  order.foldl (fun transposed t =>
    matTransposeOMP_tiles n 64 (t * 64) (matTransposeOMP_row matrix n) transposed) transposed

/-- The rows that `matTransposeOMP` copies, as triples `(i, jj, jmax)`, in
program order. -/
def matTransposeOMP_rows (n : Nat) : List (Nat × Nat × Nat) :=
  forStride 0 n 64 (fun ii rows =>
    matTransposeOMP_tiles n 64 ii (fun i jj jmax rows => rows ++ [(i, jj, jmax)]) rows) []

/-- The indices of `transposed` that `matTransposeOMP` writes, in program
order. -/
def matTransposeOMP_writes (n : Nat) : List Nat :=
  forStride 0 n 64 (fun ii writes =>
    matTransposeOMP_tiles n 64 ii (fun i jj jmax writes =>
      unrolledLoop jj jmax
        (fun j writes => writes ++ [j * n + i, (j + 1) * n + i, (j + 2) * n + i, (j + 3) * n + i])
        (fun j writes => writes ++ [j * n + i]) writes) writes) []

/-- The indices of `matrix` that `matTransposeOMP` reads, in program order. -/
def matTransposeOMP_reads (n : Nat) : List Nat :=
  forStride 0 n 64 (fun ii reads =>
    matTransposeOMP_tiles n 64 ii (fun i jj jmax reads =>
      unrolledLoop jj jmax
        (fun j reads => reads ++ [i * n + j, i * n + (j + 1), i * n + (j + 2), i * n + (j + 3)])
        (fun j reads => reads ++ [i * n + j]) reads) reads) []

/-- The column indices that the two column loops of a tile row visit, in
order. -/
def visitedColumns (jStart jmax : Nat) : List Nat :=
  unrolledLoop jStart jmax (fun j cols => cols ++ [j, j + 1, j + 2, j + 3])
    (fun j cols => cols ++ [j]) []

/-! ## Communication calls of the pairwise exchange -/

/-- A non-blocking point-to-point call as the exchange loop posts it. -/
inductive CommOp where
  | isend (dest count tag : Nat)
  | irecv (source count tag : Nat)
  deriving DecidableEq

/-- The calls that rank `rank` posts in the exchange loop of `matTransposeMPI3`,
in program order: for every `k` other than `rank`, `MPI_Isend` to `k` and then
`MPI_Irecv` from `k`, each of `localRows*localRows` elements with tag 999. -/
def exchangeOps (size n rank : Nat) : List CommOp :=
  let localRows := n / size
  forLoop 0 size (fun k ops =>
    if k = rank then ops
    else
      let tag := 999
      ops ++ [CommOp.isend k (localRows * localRows) tag,
        CommOp.irecv k (localRows * localRows) tag]) []

/-! ## The pairwise exchange as a system of processes -/

/-- Where a rank stands within the iteration of the exchange loop of
`matTransposeMPI3` for a peer `k ≠ rank`: before `MPI_Isend`, between `MPI_Isend`
and `MPI_Irecv`, or in `MPI_Waitall`. -/
inductive Phase where
  | start
  | sent
  | waiting
  deriving DecidableEq

/-- The control state of one rank in the exchange loop: the loop variable `k`
and the place within the iteration. -/
structure RankState where
  k : Nat
  phase : Phase
  deriving DecidableEq

/-- The control states of all ranks. -/
abbrev Config := Nat → RankState

/-- Every rank at the head of the loop, `k = 0`. -/
def Config.initial : Config := fun _ => { k := 0, phase := .start }

/-- Whether the `MPI_Waitall` of rank `p`, waiting in its iteration for a peer,
can return, `peer` being the state of that peer. Without eager sends both
requests complete once the peer has posted its `MPI_Isend` to `p` and its
`MPI_Irecv` from `p`: it is in `MPI_Waitall` of its iteration `k = p`, or past
that iteration. With eager sends the `MPI_Isend` of the peer suffices. -/
def matched (eager : Bool) (peer : RankState) (p : Nat) : Bool :=
  decide (p < peer.k) ||
    (peer.k == p && (peer.phase == .waiting || (eager && peer.phase == .sent)))

/-- One step of rank `p` in the exchange loop `for (k = 0; k < size; k++)`, if it
can take one: the copy of the diagonal block when `k == rank`, and otherwise
`MPI_Isend`, then `MPI_Irecv`, then the return of `MPI_Waitall` followed by the
placement of the received block. `none` when the rank has left the loop or is
blocked in `MPI_Waitall`. -/
def stepRank (size : Nat) (eager : Bool) (cfg : Config) (p : Nat) : Option Config :=
  let st := cfg p
  if st.k < size then
    if st.k = p then some (Function.update cfg p { k := st.k + 1, phase := .start })
    else
      match st.phase with
      | .start => some (Function.update cfg p { k := st.k, phase := .sent })
      | .sent => some (Function.update cfg p { k := st.k, phase := .waiting })
      | .waiting =>
        if matched eager (cfg st.k) p then
          some (Function.update cfg p { k := st.k + 1, phase := .start })
        else none
  else none

/-- An execution: the ranks of `schedule` take one step each, in that order;
`none` when a rank of the schedule is not below `size` or cannot take its
step. -/
def runSchedule (size : Nat) (eager : Bool) : List Nat → Config → Option Config
  | [], cfg => some cfg
  | p :: rest, cfg =>
    if p < size then (stepRank size eager cfg p).bind (runSchedule size eager rest) else none

/-! ## `utils.c`: the partial checksum -/

/-- The function `partialChecksum(matrix, n)`, in exact arithmetic: the
elements and the running sum live in a semiring `α` in place of `float`, and
the weight `(float)(i + 1)` is the number `i + 1` in `α`. -/
def partialChecksum {α : Type} [Semiring α] (matrix : Buf α) (n : Nat) : α :=
  let sum : α := 0
  if n ≤ 0 then sum
  else
    let mid := n / 2
    let selectedRows : Nat → Nat := fun r => [0, mid, n - 1].getD r 0
    let selectedCols : Nat → Nat := fun c => [0, mid, n - 1].getD c 0
    let sum := forLoop 0 3 (fun r sum =>
      let i := selectedRows r
      if 0 ≤ i ∧ i < n then
        let rowWeight : α := ((i + 1 : Nat) : α)
        forLoop 0 n (fun j sum => sum + rowWeight * matrix (i * n + j)) sum
      else sum) sum
    let sum := forLoop 0 3 (fun c sum =>
      let j := selectedCols c
      if 0 ≤ j ∧ j < n then
        let colWeight : α := ((j + 1 : Nat) : α)
        forLoop 0 n (fun i sum => sum + colWeight * matrix (i * n + j)) sum
      else sum) sum
    sum

/-! ## The distributed strategies side by side -/

/-- The five distributed transposition strategies: broadcast
(`matTransposeMPI`), scatter and column gather (`matTransposeMPI2`), pairwise
block exchange (`matTransposeMPI3`) and the two block-grid variants. -/
inductive Strategy where
  | broadcast
  | columnGather
  | pairwise
  | grid1
  | grid3
  deriving DecidableEq

/-- The outcome on the root of a strategy run by `size` processes. -/
def Strategy.run {α : Type} [Zero α] :
    Strategy → (size n : Nat) → (matrix transposed junk : Buf α) → Except RunError (Buf α)
  | .broadcast, size, n, matrix, transposed, junk =>
    .ok (matTransposeMPI size n matrix transposed junk)
  | .columnGather, size, n, matrix, transposed, junk =>
    .ok (matTransposeMPI2 size n matrix transposed junk)
  | .pairwise, size, n, matrix, transposed, junk =>
    .ok (matTransposeMPI3 size n matrix transposed junk)
  | .grid1, size, n, matrix, transposed, junk =>
    matTransposeBlockMPI1 size n matrix transposed junk
  | .grid3, size, n, matrix, transposed, junk =>
    matTransposeBlockMPI3 size n matrix transposed junk

/-- The precondition of each strategy: the process count divides `n`, or it is
a perfect square `q*q` with `q` dividing `n`. -/
def Strategy.Pre : Strategy → (size n : Nat) → Prop
  | .broadcast, size, n => 1 ≤ size ∧ n % size = 0
  | .columnGather, size, n => 1 ≤ size ∧ n % size = 0
  | .pairwise, size, n => 1 ≤ size ∧ n % size = 0
  | .grid1, size, n => ∃ q, 1 ≤ q ∧ size = q * q ∧ n % q = 0
  | .grid3, size, n => ∃ q, 1 ≤ q ∧ size = q * q ∧ n % q = 0

/-! ## Reference forms used in comparisons -/

/-- The local check of `checkSymMPI` with the early exits taken out: the rows
`[localStart, localEnd)` are scanned in full, every column `j > i` of every
row, and `localSym` drops to 0 at each mismatch. -/
def localSymFullScan {α : Type} [DecidableEq α] (matrix : Buf α) (n localStart localEnd : Nat) :
    Nat :=
  forLoop localStart localEnd (fun i localSym =>
    forLoop (i + 1) n (fun j localSym =>
      if matrix (i * n + j) ≠ matrix (j * n + i) then 0 else localSym) localSym) 1

/-- The 4×4 matrix `[[1,2,3,4],[5,6,7,8],[9,10,11,12],[13,14,15,16]]` of the
concrete scenarios, row-major. -/
def scenarioMatrix : Buf Nat :=
  fun k => [1, 2, 3, 4, 5, 6, 7, 8, 9, 10, 11, 12, 13, 14, 15, 16].getD k 0

/-- The matrix `[[1,5,9,13],[2,6,10,14],[3,7,11,15],[4,8,12,16]]` expected in
the concrete scenarios, row-major. -/
def scenarioTranspose : List Nat :=
  [1, 5, 9, 13, 2, 6, 10, 14, 3, 7, 11, 15, 4, 8, 12, 16]

/-! ## `main.c`: the orchestrating layer -/

/-- The transposition routines that `main` calls. -/
inductive Routine where
  | matTransposeBlock
  | matTransposeOMP
  | matTransposeMPI
  | matTransposeMPI2
  | matTransposeMPI3
  | matTransposeBlockMPI1
  | matTransposeBlockMPI3
  deriving DecidableEq

/-- The two messages of the dispatch in `main`: the diagnostic
`Unknown method` with the method name, written to `stderr`, and the line
`Matrix is already symmetric, skipping transpose.`, written to `stdout`. -/
inductive Message where
  | unknownMethod (method : String)
  | alreadySymmetric
  deriving DecidableEq

/-- What the symmetry check and the dispatch of `main` leave behind on one
rank: the variable `isSymBefore`, the transposition routines this rank has
called, the contents of the root's buffer `transposed`, the `MPI_Abort` of a
grid variant if there was one, whether control reached the last `else` of the
dispatch, and what this rank wrote to `stderr` and `stdout`. -/
structure MainState (α : Type) where
  isSymBefore : Int
  called : List Routine
  transposed : Buf α
  aborted : Option RunError
  unknownBranch : Bool
  stderr : List Message
  stdout : List Message

/-- The value of `isSymBefore` after the first chain of tests in `main`, on one
rank of `size`; `method` is the content of the array `method`. The blocked
check is run for at most `fuel` iterations of each tile loop: `none` when that
did not suffice. -/
def main_isSymBefore {α : Type} [DecidableEq α] (size rank : Nat) (method : String)
    (n blockSize fuel : Nat) (matrix junk : Buf α) : Option Int :=
  let isSymBefore : Int := -1
  if method = "serialblock" ∧ rank = 0 then
    Option.map Int.ofNat (checkSymBlock fuel matrix n blockSize)
  else if method = "omp" ∧ rank = 0 then some (checkSymOMP matrix n : Int)
  else if method = "mpi" then some (checkSymMPI size n rank matrix junk : Int)
  else if method = "mpi2" then some (checkSymMPI2 size n rank matrix junk : Int)
  else if method = "mpi3" then some (checkSymMPI3 size n rank matrix junk : Int)
  else if method = "mpi_blocks1" then some (checkSymBlockMPI1 size n rank matrix junk : Int)
  else if method = "mpi_blocks3" then some (checkSymBlockMPI3 size n rank matrix junk : Int)
  else some isSymBefore

/-- The symmetry check and the dispatch of `main`, from the declaration of
`isSymBefore` to the end of the test `if (isSymBefore == 0) ... else ...`, on
one rank of `size`. `matrix` and `transposed` are the buffers of the root. -/
def main {α : Type} [DecidableEq α] [Zero α] (size rank : Nat) (method : String)
    (n blockSize fuel : Nat) (matrix transposed junk : Buf α) : Option (MainState α) :=
  (main_isSymBefore size rank method n blockSize fuel matrix junk).bind (fun isSymBefore =>
    let st : MainState α :=
      { isSymBefore := isSymBefore, called := [], transposed := transposed, aborted := none,
        unknownBranch := false, stderr := [], stdout := [] }
    if isSymBefore = 0 then
      if method = "serialblock" then
        if rank = 0 then
          (matTransposeBlock fuel matrix transposed n blockSize).map (fun t =>
            { st with called := [.matTransposeBlock], transposed := t })
        else some st
      else if method = "omp" then
        if rank = 0 then
          some { st with called := [.matTransposeOMP],
                         transposed := matTransposeOMP matrix transposed n }
        else some st
      else if method = "mpi" then
        some { st with called := [.matTransposeMPI],
                       transposed := matTransposeMPI size n matrix transposed junk }
      else if method = "mpi2" then
        some { st with called := [.matTransposeMPI2],
                       transposed := matTransposeMPI2 size n matrix transposed junk }
      else if method = "mpi3" then
        some { st with called := [.matTransposeMPI3],
                       transposed := matTransposeMPI3 size n matrix transposed junk }
      else if method = "mpi_blocks1" then
        let run := matTransposeBlockMPI1_effects size n matrix transposed junk
        some { st with called := [.matTransposeBlockMPI1], transposed := run.transposed,
                       aborted := run.error }
      else if method = "mpi_blocks3" then
        let run := matTransposeBlockMPI3_effects size n matrix transposed junk
        some { st with called := [.matTransposeBlockMPI3], transposed := run.transposed,
                       aborted := run.error }
      else
        some { st with unknownBranch := true,
                       stderr := if rank = 0 then [.unknownMethod method] else [] }
    else
      some { st with stdout := if rank = 0 then [.alreadySymmetric] else [] })

/-! ## `mpi_code3.c`: the accesses of the pairwise exchange -/

/-- The four heap buffers of `matTransposeMPI3`: `localM` and `localT` of
`localRows * n` elements, `sendBuf` and `recvBuf` of `localRows * localRows`
elements. -/
inductive BufName where
  | localM
  | localT
  | sendBuf
  | recvBuf
  deriving DecidableEq

/-- The elements `0 .. count-1` of a buffer, which a communication call with
that buffer and that count reads or writes. -/
def wholeBuffer (buf : BufName) (count : Nat) : List (BufName × Nat) :=
  (List.range count).map (fun e => (buf, e))

/-- The accesses of rank `rank` in iteration `k` of the exchange loop of
`matTransposeMPI3`, in program order, appended to `acc`: in the `k == rank`
branch the two reads of `localM` and the write of `localT`; in the other branch
the packing loop, `MPI_Isend` and `MPI_Irecv` with `localRows * localRows`
elements, and the placement loop. -/
def exchangeStepAccesses (n localRows rank k : Nat) (acc : List (BufName × Nat)) :
    List (BufName × Nat) :=
  if k = rank then
    forLoop 0 localRows (fun r acc =>
      forLoop 0 localRows (fun c acc =>
        let globalCol := rank * localRows + c
        acc ++ [(.localM, r * n + globalCol), (.localM, c * n + (rank * localRows + r)),
          (.localT, r * n + globalCol)]) acc) acc
  else
    let colStart := k * localRows
    let acc := forLoop 0 localRows (fun r acc =>
      forLoop 0 localRows (fun c acc =>
        let globalCol := colStart + c
        acc ++ [(.localM, r * n + globalCol), (.sendBuf, r * localRows + c)]) acc) acc
    let acc := acc ++ wholeBuffer .sendBuf (localRows * localRows)
    let acc := acc ++ wholeBuffer .recvBuf (localRows * localRows)
    forLoop 0 localRows (fun r acc =>
      forLoop 0 localRows (fun c acc =>
        let globalCol := k * localRows + r
        let localRow := c
        acc ++ [(.recvBuf, r * localRows + c), (.localT, localRow * n + globalCol)]) acc) acc

/-- The accesses of rank `rank` to its four heap buffers in
`matTransposeMPI3(matrix, transposed, n)` run by `size` processes, in program
order: `MPI_Scatter` into `localM`, `calloc` of `localT`, the exchange loop, and
`MPI_Gather` from `localT`. -/
def matTransposeMPI3_accesses (size n rank : Nat) : List (BufName × Nat) :=
  let localRows := n / size
  let acc := wholeBuffer .localM (localRows * n)
  let acc := acc ++ wholeBuffer .localT (localRows * n)
  let acc := forLoop 0 size (fun k acc => exchangeStepAccesses n localRows rank k acc) acc
  acc ++ wholeBuffer .localT (localRows * n)

/-- The number of elements of a heap buffer of `matTransposeMPI3`, as given to
`malloc` and `calloc`. -/
def BufName.length (n localRows : Nat) : BufName → Nat
  | .localM => localRows * n
  | .localT => localRows * n
  | .sendBuf => localRows * localRows
  | .recvBuf => localRows * localRows

/-! ## `utils.c`: the symmetric initialiser -/

/-- The function `initializeSymmetricMatrix(matrix, n, seed)`: the contents of
`matrix` on return. `rand seed c` is what the call number `c` of `rand()` returns
after `srand(seed)`, and `scale v` is `(float)v / (float)(RAND_MAX / 100.0f)`. The
state of the loops is the buffer with the number of calls of `rand()` so
far. -/
def initializeSymmetricMatrix {α : Type} (rand : Int → Nat → Nat) (scale : Nat → α)
    (matrix : Buf α) (n : Nat) (seed : Int) : Buf α :=
  (forLoop 0 n (fun i st =>
    forLoop 0 (i + 1) (fun j (st : Buf α × Nat) =>
      let value := scale (rand seed st.2)
      let matrix := st.1.set (i * n + j) value
      let matrix := matrix.set (j * n + i) value
      (matrix, st.2 + 1)) st) (matrix, 0)).1

/-! ## Specification predicates -/

/-- The collection loop `x` and the collection loop that keeps the buffers `y`
have ended alike. -/
def EndsAs {α : Type} (x : Except RunError (CollectState α))
    (y : CollectState α × Option RunError) : Prop :=
  x = match y.2 with
    | none => .ok y.1
    | some err => .error err

/-- The buffer transformer `f` writes exactly the cells selected by `hit`, and
every cell it writes ends up holding the value `E` prescribes for it. -/
def Writes {α : Type} (E : Buf α) (hit : Nat → Prop) (f : Buf α → Buf α) : Prop :=
  ∀ buf p, (hit p → f buf p = E p) ∧ (¬ hit p → f buf p = buf p)

/-- Row `i` of the matrix agrees with column `i` above the diagonal. -/
def RowSym {α : Type} (matrix : Buf α) (n i : Nat) : Prop :=
  ∀ j, i < j → j < n → matrix (i * n + j) = matrix (j * n + i)

/-- The `n × n` matrix is symmetric: `M[i*n+j] = M[j*n+i]` for all `i, j < n`. -/
def Symmetric {α : Type} (matrix : Buf α) (n : Nat) : Prop :=
  ∀ i j, i < n → j < n → matrix (i * n + j) = matrix (j * n + i)

/-- Weighted sum of row `i`, the contribution of a selected row to the
checksum. -/
def rowPart {α : Type} [Semiring α] (matrix : Buf α) (n i : Nat) : α :=
  if i < n then (Finset.range n).sum (fun j => ((i + 1 : Nat) : α) * matrix (i * n + j)) else 0

/-- Weighted sum of column `j`, the contribution of a selected column to the
checksum. -/
def colPart {α : Type} [Semiring α] (matrix : Buf α) (n j : Nat) : α :=
  if j < n then (Finset.range n).sum (fun i => ((j + 1 : Nat) : α) * matrix (i * n + j)) else 0

/-- The call is a send to rank `k`. -/
def CommOp.isSendTo (k : Nat) : CommOp → Bool
  | .isend dest _ _ => dest == k
  | .irecv _ _ _ => false

/-- The call is a receive from rank `k`. -/
def CommOp.isRecvFrom (k : Nat) : CommOp → Bool
  | .isend _ _ _ => false
  | .irecv source _ _ => source == k

/-- The function `f` on the variable `symmetric` is a check of the condition
`C`: it keeps 0, and it turns 1 into 1 when `C` holds and into 0 when it does
not. -/
def Checks (C : Prop) (f : Nat → Nat) : Prop :=
  f 0 = 0 ∧ (C → f 1 = 1) ∧ (¬ C → f 1 = 0)

/-- The function `f` on a list of indices appends each index of `S` exactly
once and no other index. -/
def Appends (S : Nat → Prop) (f : List Nat → List Nat) : Prop :=
  ∀ l p, (S p → (f l).count p = l.count p + 1) ∧ (¬ S p → (f l).count p = l.count p)

/-- The transposition routine that corresponds to a method name. -/
def Routine.ofMethod (method : String) : Option Routine :=
  if method = "serialblock" then some .matTransposeBlock
  else if method = "omp" then some .matTransposeOMP
  else if method = "mpi" then some .matTransposeMPI
  else if method = "mpi2" then some .matTransposeMPI2
  else if method = "mpi3" then some .matTransposeMPI3
  else if method = "mpi_blocks1" then some .matTransposeBlockMPI1
  else if method = "mpi_blocks3" then some .matTransposeBlockMPI3
  else none

/-- The steps one rank has left in the exchange loop, at most. -/
def remaining (size : Nat) (st : RankState) : Nat :=
  3 * (size - st.k) + (match st.phase with | .start => 2 | .sent => 1 | .waiting => 0)

/-- The steps all ranks have left in the exchange loop, at most. -/
def workLeft (size : Nat) (cfg : Config) : Nat :=
  ∑ p in Finset.range size, remaining size (cfg p)

/-! ## Loop and index lemmas -/

theorem Buf.set_eq {α : Type} (b : Buf α) (i : Nat) (v : α) : b.set i v i = v := by
  simp [Buf.set]

theorem Buf.set_ne {α : Type} (b : Buf α) {i k : Nat} (v : α) (h : k ≠ i) :
    b.set i v k = b k := by
  simp [Buf.set, h]

theorem forLoop_succ {σ : Type} (lo k : Nat) (body : Nat → σ → σ) (s : σ) :
    forLoop lo (lo + (k + 1)) body s = body (lo + k) (forLoop lo (lo + k) body s) := by
  simp [forLoop, iterate]

/-- Loop invariant rule for `forLoop`. -/
theorem forLoop_inv {σ : Type} (P : Nat → σ → Prop) (lo hi : Nat) (body : Nat → σ → σ) (s : σ)
    (hle : lo ≤ hi) (h0 : P lo s)
    (hstep : ∀ i t, lo ≤ i → i < hi → P i t → P (i + 1) (body i t)) :
    P hi (forLoop lo hi body s) := by
  obtain ⟨k, rfl⟩ := Nat.exists_eq_add_of_le hle
  unfold forLoop
  rw [Nat.add_sub_cancel_left]
  induction k with
  | zero => simpa using h0
  | succ k ih =>
    have h1 : P (lo + k) (iterate lo body s k) :=
      ih (by omega) (fun i t h1 h2 h3 => hstep i t h1 (by omega) h3)
    exact hstep (lo + k) _ (by omega) (by omega) h1

/-- Row-major indices with in-range columns determine row and column. -/
theorem rowmajor_inj {n r c r' c' : Nat} (hc : c < n) (hc' : c' < n)
    (h : r * n + c = r' * n + c') : r = r' ∧ c = c' := by
  have h1 : (r * n + c) / n = r := by
    rw [Nat.add_comm, Nat.add_mul_div_right _ _ (by omega), Nat.div_eq_of_lt hc]; simp
  have h2 : (r' * n + c') / n = r' := by
    rw [Nat.add_comm, Nat.add_mul_div_right _ _ (by omega), Nat.div_eq_of_lt hc']; simp
  have h3 : r = r' := by rw [← h1, ← h2, h]
  subst h3
  exact ⟨rfl, by omega⟩

theorem forLoop_ge {σ : Type} {lo hi : Nat} (body : Nat → σ → σ) (s : σ) (h : hi ≤ lo) :
    forLoop lo hi body s = s := by
  simp [forLoop, Nat.sub_eq_zero_of_le h, iterate]

theorem rm_div {n a j : Nat} (hj : j < n) : (a * n + j) / n = a := by
  rw [Nat.add_comm, Nat.add_mul_div_right _ _ (by omega), Nat.div_eq_of_lt hj]; simp

theorem rm_mod {n a j : Nat} (hj : j < n) : (a * n + j) % n = j := by
  rw [Nat.add_comm, Nat.add_mul_mod_self_right, Nat.mod_eq_of_lt hj]

theorem block_lt {s L k r : Nat} (hk : k < s) (hr : r < L) : k * L + r < s * L := by
  have h : (k + 1) * L ≤ s * L := Nat.mul_le_mul_right L hk
  rw [Nat.add_mul] at h
  omega

theorem Writes.set {α : Type} (E : Buf α) (idx : Nat) (v : α) (h : v = E idx) :
    Writes E (fun p => p = idx) (fun b => b.set idx v) := by
  intro buf p
  constructor
  · intro hp; subst hp; simp [Buf.set, h]
  · intro hp; simp [Buf.set, hp]

theorem Writes.congr {α : Type} {E : Buf α} {hit hit' : Nat → Prop} {f : Buf α → Buf α}
    (h : Writes E hit f) (hh : ∀ p, hit p ↔ hit' p) : Writes E hit' f := by
  intro buf p
  rw [← hh p]
  exact h buf p

theorem Writes.forLoop {α : Type} {E : Buf α} {hit : Nat → Nat → Prop} (lo hi : Nat)
    {body : Nat → Buf α → Buf α}
    (h : ∀ i, lo ≤ i → i < hi → Writes E (hit i) (body i)) :
    Writes E (fun p => ∃ i, lo ≤ i ∧ i < hi ∧ hit i p) (forLoop lo hi body) := by
  intro buf p
  rcases Nat.lt_or_ge hi lo with hlt | hle
  · rw [forLoop_ge body buf (Nat.le_of_lt hlt)]
    constructor
    · rintro ⟨i, h1, h2, _⟩; omega
    · intro _; rfl
  · have key := forLoop_inv
      (fun k t => ((∃ i, lo ≤ i ∧ i < k ∧ hit i p) → t p = E p) ∧
        ((¬ ∃ i, lo ≤ i ∧ i < k ∧ hit i p) → t p = buf p))
      lo hi body buf hle
      ⟨by rintro ⟨i, h1, h2, _⟩; omega, fun _ => rfl⟩
      (by
        intro i t h1 h2 ⟨ih1, ih2⟩
        have hb := h i h1 h2 t p
        by_cases hi' : hit i p
        · refine ⟨fun _ => hb.1 hi', fun hn => absurd ⟨i, h1, Nat.lt_succ_self i, hi'⟩ hn⟩
        · rw [hb.2 hi']
          constructor
          · rintro ⟨i', h3, h4, h5⟩
            have hne : i' ≠ i := fun e => hi' (e ▸ h5)
            exact ih1 ⟨i', h3, by omega, h5⟩
          · intro hn
            exact ih2 (fun ⟨i', h3, h4, h5⟩ => hn ⟨i', h3, by omega, h5⟩))
    exact key

theorem MPI_Gather_at {α : Type} (size count : Nat) (sendbuf : Nat → Buf α) (recvbuf : Buf α)
    {r p : Nat} (hr : r < size) (hp : p < count) :
    MPI_Gather size count sendbuf recvbuf (r * count + p) = sendbuf r p := by
  unfold MPI_Gather
  rw [if_pos (block_lt hr hp), rm_div hp, rm_mod hp]

/-! ## Broadcast strategy -/

theorem bcastMatrix_at {α : Type} (n rank : Nat) (matrix junk : Buf α) {i j : Nat}
    (hi : i < n) (hj : j < n) :
    bcastMatrix n rank matrix junk (i * n + j) = matrix (i * n + j) := by
  unfold bcastMatrix MPI_Bcast
  rw [if_pos (block_lt hi hj)]

theorem matTransposeMPI_local_writes {α : Type} (size n rank : Nat) (matrix : Buf α) :
    Writes (fun p => matrix ((p % n) * n + (rank * (n / size) + p / n)))
      (fun p => ∃ i, rank * (n / size) ≤ i ∧ i < rank * (n / size) + n / size ∧
        ∃ j, 0 ≤ j ∧ j < n ∧ p = (i - rank * (n / size)) * n + j)
      (fun junk => matTransposeMPI_local size n rank matrix junk) := by
  unfold matTransposeMPI_local
  apply Writes.forLoop
  intro i hi1 hi2
  apply Writes.forLoop
  intro j _ hj
  apply Writes.set
  simp only [rm_div hj, rm_mod hj]
  congr 2
  omega

theorem matTransposeMPI_local_at {α : Type} (size n rank : Nat) (matrix junk : Buf α)
    {a j : Nat} (ha : a < n / size) (hj : j < n) :
    matTransposeMPI_local size n rank matrix junk (a * n + j)
      = matrix (j * n + (rank * (n / size) + a)) := by
  have h := (matTransposeMPI_local_writes size n rank matrix junk (a * n + j)).1
    ⟨rank * (n / size) + a, by omega, by omega, j, by omega, hj, by simp⟩
  simpa [rm_div hj, rm_mod hj] using h

/-- Every in-range row index splits into the owning rank and the row within
that rank's slice. -/
theorem row_split {n size i : Nat} (hdiv : n % size = 0) (hi : i < n) :
    ∃ r a, r < size ∧ a < n / size ∧ i = r * (n / size) + a := by
  have hn : size * (n / size) = n := by
    have := Nat.div_add_mod n size
    omega
  have hL : 0 < n / size := by
    rcases Nat.eq_zero_or_pos (n / size) with h | h
    · rw [h] at hn; omega
    · exact h
  refine ⟨i / (n / size), i % (n / size), ?_, Nat.mod_lt _ hL, ?_⟩
  · have hn' : n / size * size = n := by rw [Nat.mul_comm]; exact hn
    rw [Nat.div_lt_iff_lt_mul hL]; omega
  · have := Nat.div_add_mod i (n / size)
    rw [Nat.mul_comm] at this
    omega

theorem matTransposeMPI_spec {α : Type} (size n : Nat) (matrix transposed junk : Buf α)
    (hdiv : n % size = 0) {i j : Nat} (hi : i < n) (hj : j < n) :
    matTransposeMPI size n matrix transposed junk (i * n + j) = matrix (j * n + i) := by
  obtain ⟨r, a, hr, ha, rfl⟩ := row_split hdiv hi
  unfold matTransposeMPI
  have e : (r * (n / size) + a) * n + j = r * (n / size * n) + (a * n + j) := by ring
  rw [e, MPI_Gather_at _ _ _ _ hr (block_lt ha hj), matTransposeMPI_local_at _ _ _ _ _ ha hj,
    bcastMatrix_at _ _ _ _ hj (by rw [← e] at *; exact hi)]

/-! ## Scatter and column gather -/

theorem MPI_Scatter_at {α : Type} (sendbuf recvbuf : Buf α) (count rank : Nat) {k : Nat}
    (hk : k < count) : MPI_Scatter sendbuf count rank recvbuf k = sendbuf (rank * count + k) := by
  unfold MPI_Scatter
  rw [if_pos hk]

theorem extractColumn_at {α : Type} (n localRows c : Nat) (localM sendCol : Buf α) {a : Nat}
    (ha : a < localRows) : extractColumn n localRows c localM sendCol a = localM (a * n + c) := by
  have h : Writes (fun p => localM (p * n + c)) (fun p => ∃ r, 0 ≤ r ∧ r < localRows ∧ p = r)
      (fun sendCol => extractColumn n localRows c localM sendCol) := by
    unfold extractColumn
    apply Writes.forLoop
    intro r _ _
    exact Writes.set _ _ _ rfl
  exact (h sendCol a).1 ⟨a, by omega, ha, rfl⟩

theorem placeColumn_writes {α : Type} (n c : Nat) (recvCol : Buf α) :
    Writes (fun p => recvCol (p % n)) (fun p => ∃ k, 0 ≤ k ∧ k < n ∧ p = c * n + k)
      (fun transposed => placeColumn n c recvCol transposed) := by
  unfold placeColumn
  apply Writes.forLoop
  intro k _ hk
  apply Writes.set
  rw [rm_mod hk]

/-- The column gathered in iteration `c` is column `c` of the matrix, in row
order, whatever the buffers held before. -/
theorem columnStep_recvCol {α : Type} (size n : Nat) (matrix junk : Buf α) (c : Nat)
    (st : ColState α) (hdiv : n % size = 0) {k : Nat} (hk : k < n) (hc : c < n) :
    (columnStep size n (fun rank => MPI_Scatter matrix (n / size * n) rank junk) c st).recvCol k
      = matrix (k * n + c) := by
  obtain ⟨r, a, hr, ha, rfl⟩ := row_split hdiv hk
  unfold columnStep
  simp only []
  rw [MPI_Gather_at _ _ _ _ hr ha, extractColumn_at _ _ _ _ _ ha,
    MPI_Scatter_at _ _ _ _ (block_lt ha hc)]
  congr 1
  ring

theorem columnStep_transposed {α : Type} (size n : Nat) (localM : Nat → Buf α) (c : Nat)
    (st : ColState α) (p : Nat) :
    ((∃ k, 0 ≤ k ∧ k < n ∧ p = c * n + k) →
      (columnStep size n localM c st).transposed p
        = (columnStep size n localM c st).recvCol (p % n)) ∧
    ((¬ ∃ k, 0 ≤ k ∧ k < n ∧ p = c * n + k) →
      (columnStep size n localM c st).transposed p = st.transposed p) :=
  placeColumn_writes n c _ st.transposed p

theorem matTransposeMPI2_spec {α : Type} (size n : Nat) (matrix transposed junk : Buf α)
    (hdiv : n % size = 0) {c k : Nat} (hc : c < n) (hk : k < n) :
    matTransposeMPI2 size n matrix transposed junk (c * n + k) = matrix (k * n + c) := by
  unfold matTransposeMPI2 matTransposeMPI2_run
  have key := forLoop_inv
    (fun m (st : ColState α) => ∀ c' k', c' < m → k' < n →
      st.transposed (c' * n + k') = matrix (k' * n + c'))
    0 n (columnStep size n (fun rank => MPI_Scatter matrix (n / size * n) rank junk))
    { sendCol := fun _ => junk, recvCol := junk, transposed := transposed }
    (Nat.zero_le n) (fun c' k' h _ => absurd h (Nat.not_lt_zero c'))
    (by
      intro i st _ hi ih c' k' hc' hk'
      have hw := columnStep_transposed size n
        (fun rank => MPI_Scatter matrix (n / size * n) rank junk) i st (c' * n + k')
      by_cases e : c' = i
      · subst e
        rw [hw.1 ⟨k', by omega, hk', rfl⟩, rm_mod hk',
          columnStep_recvCol size n matrix junk c' st hdiv hk' hi]
      · rw [hw.2 (by
          rintro ⟨k2, _, hk2, h2⟩
          exact e (rowmajor_inj hk' hk2 h2).1)]
        exact ih c' k' (by omega) hk')
  exact key c k hc hk

/-! ## Pairwise block exchange -/

theorem packBlock_at {α : Type} (n localRows k : Nat) (localM sendBuf : Buf α) {r c : Nat}
    (hr : r < localRows) (hc : c < localRows) :
    packBlock n localRows k localM sendBuf (r * localRows + c)
      = localM (r * n + (k * localRows + c)) := by
  have h : Writes (fun p => localM ((p / localRows) * n + (k * localRows + p % localRows)))
      (fun p => ∃ r, 0 ≤ r ∧ r < localRows ∧ ∃ c, 0 ≤ c ∧ c < localRows ∧ p = r * localRows + c)
      (fun sendBuf => packBlock n localRows k localM sendBuf) := by
    unfold packBlock
    apply Writes.forLoop
    intro r _ _
    apply Writes.forLoop
    intro c _ hc
    apply Writes.set
    simp only [rm_div hc, rm_mod hc]
  have h2 := (h sendBuf (r * localRows + c)).1 ⟨r, by omega, hr, c, by omega, hc, rfl⟩
  simpa [rm_div hc, rm_mod hc] using h2

theorem sendBufAfter_at {α : Type} (n localRows src dst : Nat) (localM junk : Buf α)
    (hne : dst ≠ src) {r c : Nat} (hr : r < localRows) (hc : c < localRows) :
    sendBufAfter n localRows src localM junk (dst + 1) (r * localRows + c)
      = localM (r * n + (dst * localRows + c)) := by
  unfold sendBufAfter
  have e := forLoop_succ 0 dst
    (fun k' sendBuf => if k' = src then sendBuf else packBlock n localRows k' localM sendBuf) junk
  simp only [Nat.zero_add] at e
  rw [e, if_neg hne, packBlock_at _ _ _ _ _ hr hc]

/-- The cells of `localT` that iteration `k` of the exchange loop writes. -/
theorem diagBlock_writes {α : Type} (n localRows rank : Nat) (localM : Buf α) (E : Buf α)
    (hE : ∀ r c, r < localRows → c < localRows →
      localM (c * n + (rank * localRows + r)) = E (r * n + (rank * localRows + c))) :
    Writes E
      (fun p => ∃ a, 0 ≤ a ∧ a < localRows ∧ ∃ b, 0 ≤ b ∧ b < localRows ∧
        p = a * n + (rank * localRows + b))
      (fun localT => diagBlock n localRows rank localM localT) := by
  unfold diagBlock
  apply Writes.forLoop
  intro r _ hr
  apply Writes.forLoop
  intro c _ hc
  apply Writes.set
  exact hE r c hr hc

theorem placeBlock_writes {α : Type} (n localRows k : Nat) (recvBuf : Buf α) (E : Buf α)
    (hE : ∀ r c, r < localRows → c < localRows →
      recvBuf (r * localRows + c) = E (c * n + (k * localRows + r))) :
    Writes E
      (fun p => ∃ a, 0 ≤ a ∧ a < localRows ∧ ∃ b, 0 ≤ b ∧ b < localRows ∧
        p = a * n + (k * localRows + b))
      (fun localT => placeBlock n localRows k recvBuf localT) := by
  have h : Writes E
      (fun p => ∃ r, 0 ≤ r ∧ r < localRows ∧ ∃ c, 0 ≤ c ∧ c < localRows ∧
        p = c * n + (k * localRows + r))
      (fun localT => placeBlock n localRows k recvBuf localT) := by
    unfold placeBlock
    apply Writes.forLoop
    intro r _ hr
    apply Writes.forLoop
    intro c _ hc
    apply Writes.set
    exact hE r c hr hc
  apply h.congr
  intro p
  constructor
  · rintro ⟨r, h1, h2, c, h3, h4, h5⟩
    exact ⟨c, h3, h4, r, h1, h2, h5⟩
  · rintro ⟨c, h3, h4, r, h1, h2, h5⟩
    exact ⟨r, h1, h2, c, h3, h4, h5⟩

theorem forLoop_zero_succ {σ : Type} (k : Nat) (body : Nat → σ → σ) (s : σ) :
    forLoop 0 (k + 1) body s = body k (forLoop 0 k body s) := by
  have e := forLoop_succ 0 k body s
  simpa using e

/-- The send buffer a rank carries through its exchange loop is the one the
peers' receives are matched with. -/
theorem exchange_sendBuf {α : Type} (n localRows rank : Nat) (localM : Nat → Buf α)
    (junk localT0 : Buf α) (m : Nat) :
    (forLoop 0 m (exchangeStep n localRows rank localM junk)
      { localT := localT0, sendBuf := junk, recvBuf := junk }).sendBuf
      = sendBufAfter n localRows rank (localM rank) junk m := by
  induction m with
  | zero => rfl
  | succ k ih =>
    unfold sendBufAfter at ih ⊢
    rw [forLoop_zero_succ, forLoop_zero_succ, ← ih]
    unfold exchangeStep
    by_cases e : k = rank
    · simp only [e, if_true]
    · simp only [e, if_false]

theorem div_mul_of_mod_zero {n size : Nat} (hdiv : n % size = 0) : size * (n / size) = n := by
  have := Nat.div_add_mod n size
  omega

theorem slice_lt {n size q x : Nat} (hdiv : n % size = 0) (hq : q < size)
    (hx : x < n / size) : q * (n / size) + x < n := by
  have h1 := block_lt hq hx
  have h2 := div_mul_of_mod_zero hdiv
  omega

/-- Iteration `k` of the exchange loop on rank `rank` writes into `localT` the
cells of the block of columns `[k*L, (k+1)*L)`, each with the entry of the
transposed matrix that belongs there. -/
theorem exchangeStep_localT {α : Type} (size n L rank k : Nat) (matrix junk : Buf α)
    (hn : size * L ≤ n) (hrank : rank < size) (hk : k < size) (st : ExState α) (p : Nat) :
    ((∃ a, 0 ≤ a ∧ a < L ∧ ∃ b, 0 ≤ b ∧ b < L ∧ p = a * n + (k * L + b)) →
      (exchangeStep n L rank (fun r => MPI_Scatter matrix (L * n) r junk) junk k st).localT p
        = matrix ((p % n) * n + (rank * L + p / n))) ∧
    ((¬ ∃ a, 0 ≤ a ∧ a < L ∧ ∃ b, 0 ≤ b ∧ b < L ∧ p = a * n + (k * L + b)) →
      (exchangeStep n L rank (fun r => MPI_Scatter matrix (L * n) r junk) junk k st).localT p
        = st.localT p) := by
  have hcol : ∀ q x, q < size → x < L → q * L + x < n :=
    fun q x hq hx => Nat.lt_of_lt_of_le (block_lt hq hx) hn
  unfold exchangeStep
  by_cases e : k = rank
  · subst e
    rw [if_pos rfl]
    apply diagBlock_writes n L k _ (fun p => matrix ((p % n) * n + (k * L + p / n)))
    intro r c hr hc
    show MPI_Scatter matrix (L * n) k junk (c * n + (k * L + r))
      = matrix (((r * n + (k * L + c)) % n) * n + (k * L + (r * n + (k * L + c)) / n))
    rw [MPI_Scatter_at _ _ _ _ (block_lt hc (hcol k r hk hr)), rm_mod (hcol k c hk hc),
      rm_div (hcol k c hk hc)]
    congr 1
    ring
  · rw [if_neg e]
    apply placeBlock_writes n L k _ (fun p => matrix ((p % n) * n + (rank * L + p / n)))
    intro r c hr hc
    simp only [MPI_Recv]
    rw [if_pos (block_lt hr hc), sendBufAfter_at _ _ _ _ _ _ (Ne.symm e) hr hc,
      MPI_Scatter_at _ _ _ _ (block_lt hr (hcol rank c hrank hc)), rm_mod (hcol k r hk hr),
      rm_div (hcol k r hk hr)]
    congr 1
    ring

/-- The exchange loop on rank `rank` writes the cells of `localT` in rows
below `L = n/size` and columns below `size*L`, each with the entry of the
transposed matrix that belongs there, and leaves every other cell as it was.
No divisibility is needed. -/
theorem matTransposeMPI3_localT_writes {α : Type} (size n rank : Nat) (matrix junk : Buf α)
    (hrank : rank < size) :
    Writes (fun p => matrix ((p % n) * n + (rank * (n / size) + p / n)))
      (fun p => ∃ k, k < size ∧ ∃ a, 0 ≤ a ∧ a < n / size ∧
        ∃ b, 0 ≤ b ∧ b < n / size ∧ p = a * n + (k * (n / size) + b))
      (fun localT0 => matTransposeMPI3_localT size n rank matrix localT0 junk) := by
  have hn : size * (n / size) ≤ n := Nat.mul_div_le n size
  intro localT0 p
  unfold matTransposeMPI3_localT
  have key := forLoop_inv
    (fun m (st : ExState α) =>
      ((∃ k, k < m ∧ ∃ a, 0 ≤ a ∧ a < n / size ∧
        ∃ b, 0 ≤ b ∧ b < n / size ∧ p = a * n + (k * (n / size) + b)) →
        st.localT p = matrix ((p % n) * n + (rank * (n / size) + p / n))) ∧
      ((¬ ∃ k, k < m ∧ ∃ a, 0 ≤ a ∧ a < n / size ∧
        ∃ b, 0 ≤ b ∧ b < n / size ∧ p = a * n + (k * (n / size) + b)) →
        st.localT p = localT0 p))
    0 size
    (exchangeStep n (n / size) rank (fun r => MPI_Scatter matrix (n / size * n) r junk) junk)
    { localT := localT0, sendBuf := junk, recvBuf := junk }
    (Nat.zero_le size) ⟨by rintro ⟨k, hk, _⟩; omega, fun _ => rfl⟩
    (by
      intro k st _ hk ⟨ih1, ih2⟩
      have hw := exchangeStep_localT size n (n / size) rank k matrix junk hn hrank hk st p
      by_cases hit : ∃ a, 0 ≤ a ∧ a < n / size ∧ ∃ b, 0 ≤ b ∧ b < n / size ∧
          p = a * n + (k * (n / size) + b)
      · exact ⟨fun _ => hw.1 hit, fun hnot => absurd ⟨k, Nat.lt_succ_self k, hit⟩ hnot⟩
      · rw [hw.2 hit]
        constructor
        · rintro ⟨k', hk', hrest⟩
          have hne : k' ≠ k := fun e => hit (e ▸ hrest)
          exact ih1 ⟨k', by omega, hrest⟩
        · intro hnot
          exact ih2 (fun ⟨k', hk', hrest⟩ => hnot ⟨k', by omega, hrest⟩))
  exact key

/-- Every index below `size * L` splits into a block number and an offset. -/
theorem block_split {size L i : Nat} (hi : i < size * L) :
    ∃ r a, r < size ∧ a < L ∧ i = r * L + a := by
  have hL : 0 < L := by
    rcases Nat.eq_zero_or_pos L with h | h
    · subst h; simp at hi
    · exact h
  refine ⟨i / L, i % L, ?_, Nat.mod_lt _ hL, ?_⟩
  · rw [Nat.div_lt_iff_lt_mul hL]; exact hi
  · have := Nat.div_add_mod i L
    rw [Nat.mul_comm] at this
    omega

/-- After the exchange loop, row `a` and every column `col < size*L` of `localT`
on rank `rank` hold entry `(col, rank*L + a)` of the matrix, whatever `localT`
held before. -/
theorem matTransposeMPI3_localT_block {α : Type} (size n rank : Nat)
    (matrix localT0 junk : Buf α) (hrank : rank < size) {a col : Nat} (ha : a < n / size)
    (hcol : col < size * (n / size)) :
    matTransposeMPI3_localT size n rank matrix localT0 junk (a * n + col)
      = matrix (col * n + (rank * (n / size) + a)) := by
  have hn : size * (n / size) ≤ n := Nat.mul_div_le n size
  have hcn : col < n := by omega
  obtain ⟨k, b, hk, hb, rfl⟩ := block_split hcol
  have h := (matTransposeMPI3_localT_writes size n rank matrix junk hrank localT0
    (a * n + (k * (n / size) + b))).1 ⟨k, hk, a, by omega, ha, b, by omega, hb, rfl⟩
  simp only [rm_mod hcn, rm_div hcn] at h
  exact h

/-- After the exchange loop, row `a` and column `col` of `localT` on rank `rank`
hold entry `(col, rank*L + a)` of the matrix, whatever `localT` held before. -/
theorem matTransposeMPI3_localT_at {α : Type} (size n rank : Nat) (matrix localT0 junk : Buf α)
    (hdiv : n % size = 0) (hrank : rank < size) {a col : Nat} (ha : a < n / size)
    (hcol : col < n) :
    matTransposeMPI3_localT size n rank matrix localT0 junk (a * n + col)
      = matrix (col * n + (rank * (n / size) + a)) :=
  matTransposeMPI3_localT_block size n rank matrix localT0 junk hrank ha
    (by rw [div_mul_of_mod_zero hdiv]; exact hcol)

theorem matTransposeMPI3_spec {α : Type} [Zero α] (size n : Nat)
    (matrix transposed junk : Buf α) (hdiv : n % size = 0) {i j : Nat} (hi : i < n)
    (hj : j < n) :
    matTransposeMPI3 size n matrix transposed junk (i * n + j) = matrix (j * n + i) := by
  obtain ⟨r, a, hr, ha, rfl⟩ := row_split hdiv hi
  unfold matTransposeMPI3
  have e : (r * (n / size) + a) * n + j = r * (n / size * n) + (a * n + j) := by ring
  rw [e, MPI_Gather_at _ _ _ _ hr (block_lt ha hj),
    matTransposeMPI3_localT_at _ _ _ _ _ _ hdiv hr ha hj]

/-! ## Block grid -/

/-- The truncated floating-point square root of the source is the integer
square root. -/
theorem intSqrt_eq_sqrt (n : Nat) : intSqrt n = Nat.sqrt n := by
  unfold intSqrt
  rw [Nat.findGreatest_eq_iff]
  refine ⟨Nat.sqrt_le_self n, fun _ => Nat.sqrt_le n, ?_⟩
  intro k hk _ hle
  have := Nat.sqrt_lt.mp hk
  omega

theorem intSqrt_sq (q : Nat) : intSqrt (q * q) = q := by
  rw [intSqrt_eq_sqrt, Nat.sqrt_eq]

theorem extractBlock1_at {α : Type} (n blockSize i j : Nat) (matrix tempBuf : Buf α) {r c : Nat}
    (hr : r < blockSize) (hc : c < blockSize) :
    extractBlock1 n blockSize i j matrix tempBuf (r * blockSize + c)
      = matrix ((i * blockSize + r) * n + (j * blockSize + c)) := by
  have h : Writes
      (fun p => matrix ((i * blockSize + p / blockSize) * n + (j * blockSize + p % blockSize)))
      (fun p => ∃ r, 0 ≤ r ∧ r < blockSize ∧ ∃ c, 0 ≤ c ∧ c < blockSize ∧ p = r * blockSize + c)
      (fun tempBuf => extractBlock1 n blockSize i j matrix tempBuf) := by
    unfold extractBlock1
    apply Writes.forLoop
    intro r _ _
    apply Writes.forLoop
    intro c _ hc
    apply Writes.set
    simp only [rm_div hc, rm_mod hc]
  have h2 := (h tempBuf (r * blockSize + c)).1 ⟨r, by omega, hr, c, by omega, hc, rfl⟩
  simpa [rm_div hc, rm_mod hc] using h2

theorem memcpy_at {α : Type} (dst src : Buf α) (dstOff srcOff count : Nat) {k : Nat}
    (hk : k < count) : memcpy dst dstOff src srcOff count (dstOff + k) = src (srcOff + k) := by
  unfold memcpy
  rw [if_pos ⟨by omega, by omega⟩, Nat.add_sub_cancel_left]

theorem transposeLocalBlock_at {α : Type} (blockSize : Nat) (localBlock junk : Buf α)
    {r c : Nat} (hr : r < blockSize) (hc : c < blockSize) :
    transposeLocalBlock blockSize localBlock junk (c * blockSize + r)
      = localBlock (r * blockSize + c) := by
  have h : Writes (fun p => localBlock ((p % blockSize) * blockSize + p / blockSize))
      (fun p => ∃ r, 0 ≤ r ∧ r < blockSize ∧ ∃ c, 0 ≤ c ∧ c < blockSize ∧ p = c * blockSize + r)
      (fun t => forLoop 0 blockSize (fun r tempTranspose =>
        forLoop 0 blockSize (fun c tempTranspose =>
          tempTranspose.set (c * blockSize + r) (localBlock (r * blockSize + c)))
          tempTranspose) t) := by
    apply Writes.forLoop
    intro r _ hr
    apply Writes.forLoop
    intro c _ _
    apply Writes.set
    simp only [rm_div hr, rm_mod hr]
  have h2 := (h junk (c * blockSize + r)).1 ⟨r, by omega, hr, c, by omega, hc, rfl⟩
  unfold transposeLocalBlock
  have h3 := memcpy_at localBlock
    (forLoop 0 blockSize (fun r tempTranspose =>
        forLoop 0 blockSize (fun c tempTranspose =>
          tempTranspose.set (c * blockSize + r) (localBlock (r * blockSize + c)))
          tempTranspose) junk) 0 0 (blockSize * blockSize) (block_lt hc hr)
  simp only [Nat.zero_add] at h3
  simp only [rm_div hr, rm_mod hr] at h2
  rw [h3]
  exact h2

theorem storeBlock1_writes {α : Type} (n blockSize i j : Nat) (block E : Buf α)
    (hE : ∀ r c, r < blockSize → c < blockSize →
      block (r * blockSize + c) = E (storeIndex n blockSize i j r c)) :
    Writes E
      (fun p => ∃ r, 0 ≤ r ∧ r < blockSize ∧ ∃ c, 0 ≤ c ∧ c < blockSize ∧
        p = storeIndex n blockSize i j r c)
      (fun transposed => storeBlock1 n blockSize i j block transposed) := by
  unfold storeBlock1
  apply Writes.forLoop
  intro r _ hr
  apply Writes.forLoop
  intro c _ hc
  apply Writes.set
  exact hE r c hr hc

/-- Nested counting loops over a `q × q` grid visit the cells in the order of
the linear index `i*q + j`; an invariant in that index carries through. -/
theorem gridLoop_inv {σ : Type} (P : Nat → σ → Prop) (q : Nat) (body : Nat → Nat → σ → σ)
    (s : σ) (h0 : P 0 s)
    (hstep : ∀ i j t, i < q → j < q → P (i * q + j) t → P (i * q + j + 1) (body i j t)) :
    P (q * q) (forLoop 0 q (fun i st => forLoop 0 q (fun j st => body i j st) st) s) := by
  have key := forLoop_inv (fun i t => P (i * q) t) 0 q
    (fun i st => forLoop 0 q (fun j st => body i j st) st) s (Nat.zero_le q)
    (by simpa using h0)
    (by
      intro i t _ hi ih
      have inner := forLoop_inv (fun j t => P (i * q + j) t) 0 q (fun j st => body i j st) t
        (Nat.zero_le q) (by simpa using ih)
        (fun j t' _ hj h => hstep i j t' hi hj h)
      have e : (i + 1) * q = i * q + q := by ring
      rw [e]
      exact inner)
  exact key

/-- The distribution loop, for any packing routine `tb`: rank `s` other than
the root is sent exactly one message, the packed block of cell `(s/q, s%q)`,
and the root's own block is the packed block of cell `(0, 0)`. -/
theorem distribute_spec {α : Type} (q B : Nat) (tb : Nat → Nat → Buf α) (junk : Buf α)
    (hq : 0 < q) :
    (∀ s, (forLoop 0 q (fun i st => forLoop 0 q (fun j st =>
        distributeCell q B i j (tb i j) st) st)
          ({ localBlock := junk, mail := fun _ => [] } : DistState α)).mail s
        = if 0 < s ∧ s < q * q then [tb (s / q) (s % q)] else []) ∧
    (∀ k, k < B * B → (forLoop 0 q (fun i st => forLoop 0 q (fun j st =>
        distributeCell q B i j (tb i j) st) st)
          ({ localBlock := junk, mail := fun _ => [] } : DistState α)).localBlock k
        = tb 0 0 k) := by
  have key := gridLoop_inv
    (fun m (st : DistState α) =>
      (∀ s, st.mail s = if 0 < s ∧ s < m then [tb (s / q) (s % q)] else []) ∧
      (0 < m → ∀ k, k < B * B → st.localBlock k = tb 0 0 k))
    q (fun i j st => distributeCell q B i j (tb i j) st)
    ({ localBlock := junk, mail := fun _ => [] } : DistState α)
    ⟨fun s => by simp, fun h => absurd h (Nat.lt_irrefl 0)⟩
    (by
      intro i j st hi hj ⟨ih1, ih2⟩
      unfold distributeCell
      by_cases h0 : i * q + j = 0
      · have hj0 : j = 0 := by omega
        have hi0 : i = 0 := by
          have : i * q = 0 := by omega
          rcases Nat.mul_eq_zero.mp this with h | h
          · exact h
          · omega
        subst hj0 hi0
        simp only [h0, if_true]
        refine ⟨fun s => ?_, fun _ k hk => ?_⟩
        · rw [ih1 s]
          have e1 : ¬ (0 < s ∧ s < 0) := by omega
          have e2 : ¬ (0 < s ∧ s < 0 + 1) := by omega
          simp only [Nat.zero_mul, Nat.add_zero] at *
          rw [if_neg e1, if_neg e2]
        · have := memcpy_at st.localBlock (tb 0 0) 0 0 (B * B) hk
          simpa using this
      · simp only [h0, if_false]
        refine ⟨fun s => ?_, fun _ k hk => ih2 (by omega) k hk⟩
        unfold MPI_Send
        by_cases hs : s = i * q + j
        · subst hs
          have e1 : ¬ (0 < i * q + j ∧ i * q + j < i * q + j) := by omega
          have e2 : 0 < i * q + j ∧ i * q + j < i * q + j + 1 := by omega
          simp only [if_true]
          rw [ih1, if_neg e1, if_pos e2, rm_div hj, rm_mod hj]
          rfl
        · rw [if_neg hs, ih1 s]
          by_cases hc : 0 < s ∧ s < i * q + j
          · rw [if_pos hc, if_pos ⟨hc.1, by omega⟩]
          · rw [if_neg hc, if_neg (by omega)])
  exact ⟨key.1, key.2 (Nat.mul_pos hq hq)⟩

/-- The collection loop, for any placement routine `store` that writes the
cells `storeIndex` names: when every rank other than the root has exactly one
message under way and all blocks hold the values `E` prescribes, the root is
never blocked and `transposed` ends up with `E` on every cell of every block
and its old contents elsewhere. -/
theorem collect_spec {α : Type} (n q B : Nat) (store : Nat → Nat → Buf α → Buf α → Buf α)
    (E localBlock junk t0 : Buf α) (inbox0 : Nat → List (Buf α)) (blk : Nat → Buf α)
    (hstore : ∀ i j b, i < q → j < q →
      (∀ r c, r < B → c < B → b (r * B + c) = E (storeIndex n B i j r c)) →
      Writes E (fun p => ∃ r, 0 ≤ r ∧ r < B ∧ ∃ c, 0 ≤ c ∧ c < B ∧ p = storeIndex n B i j r c)
        (fun t => store i j b t))
    (hroot : ∀ r c, r < B → c < B → localBlock (r * B + c) = E (storeIndex n B 0 0 r c))
    (hinbox : ∀ s, 0 < s → s < q * q → inbox0 s = [blk s])
    (hblk : ∀ s, 0 < s → s < q * q → ∀ r c, r < B → c < B →
      blk s (r * B + c) = E (storeIndex n B (s / q) (s % q) r c)) :
    ∃ st, collect store q B localBlock junk { transposed := t0, inbox := inbox0 } = .ok st ∧
      ∀ p, ((∃ i j, i < q ∧ j < q ∧
              ∃ r, 0 ≤ r ∧ r < B ∧ ∃ c, 0 ≤ c ∧ c < B ∧ p = storeIndex n B i j r c) →
            st.transposed p = E p) ∧
          ((¬ ∃ i j, i < q ∧ j < q ∧
              ∃ r, 0 ≤ r ∧ r < B ∧ ∃ c, 0 ≤ c ∧ c < B ∧ p = storeIndex n B i j r c) →
            st.transposed p = t0 p) := by
  have key := gridLoop_inv
    (fun m (state : Except RunError (CollectState α)) =>
      ∃ st, state = .ok st ∧ (∀ s, m ≤ s → st.inbox s = inbox0 s) ∧
        ∀ p, ((∃ s, s < m ∧ ∃ r, 0 ≤ r ∧ r < B ∧ ∃ c, 0 ≤ c ∧ c < B ∧
                p = storeIndex n B (s / q) (s % q) r c) → st.transposed p = E p) ∧
             ((¬ ∃ s, s < m ∧ ∃ r, 0 ≤ r ∧ r < B ∧ ∃ c, 0 ≤ c ∧ c < B ∧
                p = storeIndex n B (s / q) (s % q) r c) → st.transposed p = t0 p))
    q (fun i j state => state.bind (collectCell store q B i j localBlock junk))
    (.ok { transposed := t0, inbox := inbox0 })
    ⟨_, rfl, fun _ _ => rfl, fun p => ⟨by rintro ⟨s, hs, _⟩; omega, fun _ => rfl⟩⟩
    (by
      rintro i j state hi hj ⟨st, rfl, hin, htr⟩
      have hlt : i * q + j < q * q := block_lt hi hj
      -- the block placed in this cell and the state after it
      have step : ∀ (b : Buf α) (inbox' : Nat → List (Buf α)),
          (∀ r c, r < B → c < B → b (r * B + c) = E (storeIndex n B i j r c)) →
          (∀ s, i * q + j + 1 ≤ s → inbox' s = inbox0 s) →
          ∃ st', (Except.ok { transposed := store i j b st.transposed, inbox := inbox' } :
              Except RunError (CollectState α)) = .ok st' ∧
            (∀ s, i * q + j + 1 ≤ s → st'.inbox s = inbox0 s) ∧
            ∀ p, ((∃ s, s < i * q + j + 1 ∧ ∃ r, 0 ≤ r ∧ r < B ∧ ∃ c, 0 ≤ c ∧ c < B ∧
                    p = storeIndex n B (s / q) (s % q) r c) → st'.transposed p = E p) ∧
                 ((¬ ∃ s, s < i * q + j + 1 ∧ ∃ r, 0 ≤ r ∧ r < B ∧ ∃ c, 0 ≤ c ∧ c < B ∧
                    p = storeIndex n B (s / q) (s % q) r c) → st'.transposed p = t0 p) := by
        intro b inbox' hb hin'
        refine ⟨_, rfl, hin', fun p => ?_⟩
        have hw := hstore i j b hi hj hb st.transposed p
        by_cases hit : ∃ r, 0 ≤ r ∧ r < B ∧ ∃ c, 0 ≤ c ∧ c < B ∧ p = storeIndex n B i j r c
        · refine ⟨fun _ => hw.1 hit, fun hn => absurd ?_ hn⟩
          exact ⟨i * q + j, Nat.lt_succ_self _, by rw [rm_div hj, rm_mod hj]; exact hit⟩
        · have hw2 : store i j b st.transposed p = st.transposed p := hw.2 hit
          constructor
          · rintro ⟨s, hs, hrest⟩
            have hne : s ≠ i * q + j := by
              rintro rfl
              rw [rm_div hj, rm_mod hj] at hrest
              exact hit hrest
            show store i j b st.transposed p = E p
            rw [hw2]
            exact (htr p).1 ⟨s, by omega, hrest⟩
          · intro hn
            show store i j b st.transposed p = t0 p
            rw [hw2]
            exact (htr p).2 (fun ⟨s, hs, hrest⟩ => hn ⟨s, by omega, hrest⟩)
      show ∃ st', collectCell store q B i j localBlock junk st = .ok st' ∧ _
      unfold collectCell
      by_cases h0 : i * q + j = 0
      · have hj0 : j = 0 := by omega
        have hi0 : i = 0 := by
          have : i * q = 0 := by omega
          rcases Nat.mul_eq_zero.mp this with h | h
          · exact h
          · omega
        dsimp only
        rw [if_pos h0]
        apply step
        · subst hj0 hi0; exact hroot
        · intro s hs; exact hin s (by omega)
      · dsimp only
        rw [if_neg h0]
        have hm : st.inbox (i * q + j) = [blk (i * q + j)] := by
          rw [hin _ (Nat.le_refl _), hinbox _ (by omega) hlt]
        rw [hm]
        apply step
        · intro r c hr hc
          have := hblk (i * q + j) (by omega) hlt r c hr hc
          rw [rm_div hj, rm_mod hj] at this
          simp only [MPI_Recv]
          rw [if_pos (block_lt hr hc)]
          exact this
        · intro s hs
          have hne : s ≠ i * q + j := by omega
          simp only [hne, if_false]
          exact hin s (by omega))
  obtain ⟨st, hst, _, htr⟩ := key
  refine ⟨st, hst, fun p => ?_⟩
  have conv : (∃ i j, i < q ∧ j < q ∧
      ∃ r, 0 ≤ r ∧ r < B ∧ ∃ c, 0 ≤ c ∧ c < B ∧ p = storeIndex n B i j r c) ↔
      (∃ s, s < q * q ∧ ∃ r, 0 ≤ r ∧ r < B ∧ ∃ c, 0 ≤ c ∧ c < B ∧
        p = storeIndex n B (s / q) (s % q) r c) := by
    constructor
    · rintro ⟨i, j, hi, hj, hrest⟩
      exact ⟨i * q + j, block_lt hi hj, by rw [rm_div hj, rm_mod hj]; exact hrest⟩
    · rintro ⟨s, hs, hrest⟩
      have hq : 0 < q := by
        rcases Nat.eq_zero_or_pos q with h | h
        · subst h; omega
        · exact h
      exact ⟨s / q, s % q, (Nat.div_lt_iff_lt_mul hq).mpr hs, Nat.mod_lt _ hq, hrest⟩
  rw [conv]
  exact htr p

/-- Value the transposed matrix has at linear index `p`. -/
theorem transposeAt_storeIndex {α : Type} (matrix : Buf α) {n q B i j r c : Nat}
    (hn : q * B = n) (hi : i < q) (hc : c < B) :
    (fun p => matrix ((p % n) * n + p / n)) (storeIndex n B i j r c)
      = matrix ((i * B + c) * n + (j * B + r)) := by
  have h : i * B + c < n := hn ▸ block_lt hi hc
  simp only [storeIndex, rm_div h, rm_mod h]

/-- Distribution, local transposition and collection together, for any packing
routine `tb` that copies the block of cell `(i, j)` and any placement routine
`store` that writes the cells `storeIndex` names: the root is never blocked and
`transposed` ends up holding the transposed matrix. -/
theorem grid_run_spec {α : Type} (n q : Nat) (tb : Nat → Nat → Buf α)
    (store : Nat → Nat → Buf α → Buf α → Buf α) (matrix transposed junk : Buf α)
    (hq : 0 < q) (hdiv : n % q = 0)
    (htb : ∀ i j r c, r < n / q → c < n / q →
      tb i j (r * (n / q) + c) = matrix ((i * (n / q) + r) * n + (j * (n / q) + c)))
    (hstore : ∀ i j b (E : Buf α),
      (∀ r c, r < n / q → c < n / q → b (r * (n / q) + c) = E (storeIndex n (n / q) i j r c)) →
      Writes E (fun p => ∃ r, 0 ≤ r ∧ r < n / q ∧ ∃ c, 0 ≤ c ∧ c < n / q ∧
          p = storeIndex n (n / q) i j r c)
        (fun t => store i j b t)) :
    ∃ st, collect store q (n / q)
        (transposeLocalBlock (n / q)
          (forLoop 0 q (fun i st => forLoop 0 q (fun j st =>
            distributeCell q (n / q) i j (tb i j) st) st)
            ({ localBlock := junk, mail := fun _ => [] } : DistState α)).localBlock junk) junk
        { transposed := transposed,
          inbox := returnedBlocks (q * q) (n / q)
            (forLoop 0 q (fun i st => forLoop 0 q (fun j st =>
              distributeCell q (n / q) i j (tb i j) st) st)
              ({ localBlock := junk, mail := fun _ => [] } : DistState α)) junk } = .ok st ∧
      ∀ i j, i < n → j < n → st.transposed (i * n + j) = matrix (j * n + i) := by
  have hn := div_mul_of_mod_zero hdiv
  obtain ⟨hmail, hlb⟩ := distribute_spec q (n / q) tb junk hq
  generalize forLoop 0 q (fun i st => forLoop 0 q (fun j st =>
      distributeCell q (n / q) i j (tb i j) st) st)
      ({ localBlock := junk, mail := fun _ => [] } : DistState α) = dist at hmail hlb ⊢
  have hdivlt : ∀ s, s < q * q → s / q < q := fun s hs => (Nat.div_lt_iff_lt_mul hq).mpr hs
  obtain ⟨st, hst, htr⟩ := collect_spec n q (n / q) store
    (fun p => matrix ((p % n) * n + p / n))
    (transposeLocalBlock (n / q) dist.localBlock junk) junk transposed
    (returnedBlocks (q * q) (n / q) dist junk)
    (fun s => transposeLocalBlock (n / q)
      (MPI_Recv (tb (s / q) (s % q)) (n / q * (n / q)) junk) junk)
    (fun i j b _ _ hb => hstore i j b _ hb)
    (by
      intro r c hr hc
      rw [transposeLocalBlock_at _ _ _ hc hr, hlb _ (block_lt hc hr), htb 0 0 c r hc hr,
        transposeAt_storeIndex matrix hn hq hc])
    (by
      intro s hs0 hs
      unfold returnedBlocks receiveBlock
      rw [if_pos ⟨hs0, hs⟩, if_neg (by omega), hmail s, if_pos ⟨hs0, hs⟩])
    (by
      intro s _ hs r c hr hc
      show transposeLocalBlock (n / q) (MPI_Recv (tb (s / q) (s % q)) (n / q * (n / q)) junk)
        junk (r * (n / q) + c) = _
      rw [transposeLocalBlock_at _ _ _ hc hr, transposeAt_storeIndex matrix hn (hdivlt s hs) hc]
      simp only [MPI_Recv]
      rw [if_pos (block_lt hc hr), htb _ _ c r hc hr])
  refine ⟨st, hst, fun i j hi hj => ?_⟩
  obtain ⟨bj, r, hbj, hr, rfl⟩ := row_split hdiv hi
  obtain ⟨bi, c, hbi, hc, rfl⟩ := row_split hdiv hj
  have h := (htr ((bj * (n / q) + r) * n + (bi * (n / q) + c))).1
    ⟨bi, bj, hbi, hbj, r, by omega, hr, c, by omega, hc, rfl⟩
  rw [h]
  simp only [rm_div hj, rm_mod hj]

theorem matTransposeBlockMPI1_spec {α : Type} (q n : Nat) (matrix transposed junk : Buf α)
    (hq : 0 < q) (hdiv : n % q = 0) :
    ∃ out, matTransposeBlockMPI1 (q * q) n matrix transposed junk = .ok out ∧
      ∀ i j, i < n → j < n → out (i * n + j) = matrix (j * n + i) := by
  obtain ⟨st, hst, htr⟩ := grid_run_spec n q
    (fun i j => extractBlock1 n (n / q) i j matrix junk) (storeBlock1 n (n / q))
    matrix transposed junk hq hdiv
    (fun i j r c hr hc => extractBlock1_at n (n / q) i j matrix junk hr hc)
    (fun i j b E hb => storeBlock1_writes n (n / q) i j b E hb)
  refine ⟨st.transposed, ?_, htr⟩
  unfold matTransposeBlockMPI1
  simp only [intSqrt_sq, ne_eq, not_true_eq_false, if_false, hdiv]
  unfold distribute1
  rw [hst]
  rfl

/-! ## The two packing styles agree -/

/-- A counting loop that copies `count` consecutive elements is `memcpy`. -/
theorem forLoop_set_eq_memcpy {α : Type} (count off soff : Nat) (src t : Buf α)
    (idx : Nat → Nat) (val : Nat → α) (hidx : ∀ c, c < count → idx c = off + c)
    (hval : ∀ c, c < count → val c = src (soff + c)) :
    forLoop 0 count (fun c t => t.set (idx c) (val c)) t = memcpy t off src soff count := by
  have h : Writes (fun p => src (soff + (p - off)))
      (fun p => ∃ c, 0 ≤ c ∧ c < count ∧ p = idx c)
      (fun t => forLoop 0 count (fun c t => t.set (idx c) (val c)) t) := by
    apply Writes.forLoop
    intro c _ hc
    apply Writes.set
    rw [hval c hc, hidx c hc, Nat.add_sub_cancel_left]
  funext p
  unfold memcpy
  by_cases hp : off ≤ p ∧ p < off + count
  · rw [if_pos hp]
    exact (h t p).1 ⟨p - off, by omega, by omega, by rw [hidx _ (by omega)]; omega⟩
  · rw [if_neg hp]
    refine (h t p).2 ?_
    rintro ⟨c, _, hc, rfl⟩
    rw [hidx c hc] at hp
    omega

theorem extractBlock1_eq_extractBlock3 {α : Type} (n blockSize i j : Nat)
    (matrix tempBuf : Buf α) :
    extractBlock1 n blockSize i j matrix tempBuf = extractBlock3 n blockSize i j matrix tempBuf := by
  unfold extractBlock1 extractBlock3
  congr 1
  funext r t
  exact forLoop_set_eq_memcpy blockSize (r * blockSize) ((i * blockSize + r) * n + j * blockSize)
    matrix t _ _ (fun _ _ => rfl) (fun c _ => by rw [Nat.add_assoc])

theorem storeBlock1_eq_storeBlock3 {α : Type} (n blockSize i j : Nat)
    (block transposed : Buf α) :
    storeBlock1 n blockSize i j block transposed = storeBlock3 n blockSize i j block transposed := by
  unfold storeBlock1 storeBlock3
  congr 1
  funext r t
  exact forLoop_set_eq_memcpy blockSize ((j * blockSize + r) * n + i * blockSize) (r * blockSize)
    block t _ _ (fun c _ => by simp only [storeIndex]; rw [Nat.add_assoc]) (fun _ _ => rfl)

theorem matTransposeBlockMPI1_eq_MPI3 {α : Type} (size n : Nat)
    (matrix transposed junk : Buf α) :
    matTransposeBlockMPI1 size n matrix transposed junk
      = matTransposeBlockMPI3 size n matrix transposed junk := by
  have e1 : distribute1 n (intSqrt size) (n / intSqrt size) matrix junk
      = distribute3 n (intSqrt size) (n / intSqrt size) matrix junk := by
    unfold distribute1 distribute3
    simp only [extractBlock1_eq_extractBlock3]
  have e2 : (storeBlock1 n (n / intSqrt size) : Nat → Nat → Buf α → Buf α → Buf α)
      = storeBlock3 n (n / intSqrt size) := by
    funext i j b t
    exact storeBlock1_eq_storeBlock3 n _ i j b t
  unfold matTransposeBlockMPI1 matTransposeBlockMPI3
  simp only [e1, e2]

/-- Every cell of the output belongs to exactly one element of one block. -/
theorem storeIndex_cover (n q : Nat) (hdiv : n % q = 0) {i j : Nat} (hi : i < n) (hj : j < n) :
    ∃! t : Nat × Nat × Nat × Nat, t.1 < q ∧ t.2.1 < q ∧ t.2.2.1 < n / q ∧ t.2.2.2 < n / q ∧
      storeIndex n (n / q) t.1 t.2.1 t.2.2.1 t.2.2.2 = i * n + j := by
  have hn := div_mul_of_mod_zero hdiv
  obtain ⟨bj, r, hbj, hr, hie⟩ := row_split hdiv hi
  obtain ⟨bi, c, hbi, hc, hje⟩ := row_split hdiv hj
  refine ⟨(bi, bj, r, c), ⟨hbi, hbj, hr, hc, by simp only [storeIndex]; rw [hie, hje]⟩, ?_⟩
  rintro ⟨bi', bj', r', c'⟩ ⟨h1, h2, h3, h4, h5⟩
  simp only [storeIndex] at h5
  have hlt : bi' * (n / q) + c' < n := slice_lt hdiv h1 h4
  obtain ⟨e1, e2⟩ := rowmajor_inj hlt hj h5
  rw [hie] at e1
  rw [hje] at e2
  obtain ⟨e3, e4⟩ := rowmajor_inj h3 hr e1
  obtain ⟨e5, e6⟩ := rowmajor_inj h4 hc e2
  simp only [Prod.mk.injEq]
  exact ⟨e5, e3, e4, e6⟩

/-! ## Row partition -/

theorem localStart_eq (n size r : Nat) :
    localStart n size r = r * (n / size) + min r (n % size) := by
  unfold localStart rowRange
  by_cases h : r < n % size
  · simp only [h, if_true]
    rw [Nat.min_eq_left (Nat.le_of_lt h)]
    ring
  · simp only [h, if_false]
    obtain ⟨d, hd⟩ := Nat.exists_eq_add_of_le (Nat.le_of_not_lt h)
    rw [hd, Nat.add_sub_cancel_left, Nat.min_eq_right (Nat.le_add_right _ _)]
    ring

theorem localEnd_eq (n size r : Nat) : localEnd n size r = localStart n size (r + 1) := by
  rw [localStart_eq]
  unfold localEnd rowRange
  by_cases h : r < n % size
  · simp only [h, if_true]
    rw [Nat.min_eq_left (by omega : r + 1 ≤ n % size)]
    ring
  · simp only [h, if_false]
    obtain ⟨d, hd⟩ := Nat.exists_eq_add_of_le (Nat.le_of_not_lt h)
    rw [hd, Nat.add_sub_cancel_left, Nat.min_eq_right (by omega : n % size ≤ n % size + d + 1)]
    ring

theorem localStart_mono (n size : Nat) {r r' : Nat} (h : r ≤ r') :
    localStart n size r ≤ localStart n size r' := by
  rw [localStart_eq, localStart_eq]
  have h1 : r * (n / size) ≤ r' * (n / size) := Nat.mul_le_mul_right _ h
  have h2 : min r (n % size) ≤ min r' (n % size) := by
    simp only [Nat.min_def]
    split <;> split <;> omega
  omega

theorem localStart_zero (n size : Nat) : localStart n size 0 = 0 := by
  rw [localStart_eq]; simp

theorem localStart_size (n size : Nat) (hsize : 1 ≤ size) : localStart n size size = n := by
  rw [localStart_eq, Nat.min_eq_right (Nat.le_of_lt (Nat.mod_lt _ hsize))]
  exact Nat.div_add_mod n size

/-- Below `localStart k` every row lies in the range of a rank below `k`. -/
theorem row_owner_below (n size k i : Nat) (h : i < localStart n size k) :
    ∃ r, r < k ∧ localStart n size r ≤ i ∧ i < localEnd n size r := by
  induction k with
  | zero => rw [localStart_zero] at h; omega
  | succ k ih =>
    by_cases hk : i < localStart n size k
    · obtain ⟨r, hr, h1, h2⟩ := ih hk
      exact ⟨r, by omega, h1, h2⟩
    · exact ⟨k, Nat.lt_succ_self k, by omega, by rw [localEnd_eq]; exact h⟩

theorem row_owner (n size i : Nat) (hsize : 1 ≤ size) (hi : i < n) :
    ∃ r, r < size ∧ localStart n size r ≤ i ∧ i < localEnd n size r :=
  row_owner_below n size size i (by rw [localStart_size n size hsize]; exact hi)

theorem row_owner_unique (n size i r r' : Nat)
    (h1 : localStart n size r ≤ i) (h2 : i < localEnd n size r)
    (h1' : localStart n size r' ≤ i) (h2' : i < localEnd n size r') : r = r' := by
  rw [localEnd_eq] at h2 h2'
  rcases Nat.lt_trichotomy r r' with h | h | h
  · have := localStart_mono n size (show r + 1 ≤ r' from h)
    omega
  · exact h
  · have := localStart_mono n size (show r' + 1 ≤ r from h)
    omega

theorem localEnd_le (n size r : Nat) (hsize : 1 ≤ size) (hr : r < size) :
    localEnd n size r ≤ n := by
  have h := localStart_mono n size (show r + 1 ≤ size from hr)
  rw [localStart_size n size hsize] at h
  rw [localEnd_eq]
  exact h

/-! ## Symmetry check -/

theorem symmetric_iff_rows {α : Type} (matrix : Buf α) (n : Nat) :
    Symmetric matrix n ↔ ∀ i, i < n → RowSym matrix n i := by
  constructor
  · intro h i hi j _ hj
    exact h i j hi hj
  · intro h i j hi hj
    rcases Nat.lt_trichotomy i j with hlt | heq | hgt
    · exact h i hi j hlt hj
    · subst heq; rfl
    · exact (h j hj i hgt hi).symm

theorem scanRow_loop {α : Type} [DecidableEq α] (m : Buf α) (n i : Nat) :
    ∀ count j ls,
      ((∀ j', j ≤ j' → j' < j + count → m (i * n + j') = m (j' * n + i)) →
        forBreak (fun _ => true) (fun j (localSym : Nat) =>
          if m (i * n + j) ≠ m (j * n + i) then (0, true) else (localSym, false)) count j ls
          = ls) ∧
      ((∃ j', j ≤ j' ∧ j' < j + count ∧ m (i * n + j') ≠ m (j' * n + i)) →
        forBreak (fun _ => true) (fun j (localSym : Nat) =>
          if m (i * n + j) ≠ m (j * n + i) then (0, true) else (localSym, false)) count j ls
          = 0) := by
  intro count
  induction count with
  | zero =>
    intro j ls
    exact ⟨fun _ => rfl, by rintro ⟨j', h1, h2, _⟩; omega⟩
  | succ k ih =>
    intro j ls
    by_cases hne : m (i * n + j) ≠ m (j * n + i)
    · constructor
      · intro h
        exact absurd (h j (Nat.le_refl j) (by omega)) hne
      · intro _
        simp [forBreak, hne]
    · have heq : m (i * n + j) = m (j * n + i) := not_not.mp hne
      have hstep : forBreak (fun _ => true) (fun j (localSym : Nat) =>
            if m (i * n + j) ≠ m (j * n + i) then (0, true) else (localSym, false)) (k + 1) j ls
          = forBreak (fun _ => true) (fun j (localSym : Nat) =>
            if m (i * n + j) ≠ m (j * n + i) then (0, true) else (localSym, false)) k (j + 1) ls := by
        simp only [forBreak, hne, if_true, if_false]
        simp
      rw [hstep]
      constructor
      · intro h
        exact (ih (j + 1) ls).1 (fun j' h1 h2 => h j' (by omega) (by omega))
      · rintro ⟨j', h1, h2, h3⟩
        have hj' : j' ≠ j := fun e => h3 (e ▸ heq)
        exact (ih (j + 1) ls).2 ⟨j', by omega, by omega, h3⟩

theorem scanRow_spec {α : Type} [DecidableEq α] (m : Buf α) (n i ls : Nat) :
    (RowSym m n i → scanRow m n i ls = ls) ∧ (¬ RowSym m n i → scanRow m n i ls = 0) := by
  unfold scanRow forLoopBreak
  have h := scanRow_loop m n i (n - (i + 1)) (i + 1) ls
  constructor
  · intro hr
    exact h.1 (fun j' h1 h2 => hr j' (by omega) (by omega))
  · intro hr
    unfold RowSym at hr
    push_neg at hr
    obtain ⟨j, h1, h2, h3⟩ := hr
    exact h.2 ⟨j, by omega, by omega, h3⟩

theorem localSymScan_loop {α : Type} [DecidableEq α] (m : Buf α) (n : Nat) :
    ∀ count i ls,
      (ls = 0 → forBreak (fun localSym => localSym ≠ 0)
          (fun i localSym => (scanRow m n i localSym, false)) count i ls = 0) ∧
      (ls ≠ 0 → (∀ i', i ≤ i' → i' < i + count → RowSym m n i') →
        forBreak (fun localSym => localSym ≠ 0)
          (fun i localSym => (scanRow m n i localSym, false)) count i ls = ls) ∧
      (ls ≠ 0 → (∃ i', i ≤ i' ∧ i' < i + count ∧ ¬ RowSym m n i') →
        forBreak (fun localSym => localSym ≠ 0)
          (fun i localSym => (scanRow m n i localSym, false)) count i ls = 0) := by
  intro count
  induction count with
  | zero =>
    intro i ls
    exact ⟨fun h => h, fun _ _ => rfl, by rintro _ ⟨i', h1, h2, _⟩; omega⟩
  | succ k ih =>
    intro i ls
    refine ⟨fun h => ?_, fun hls hall => ?_, fun hls hex => ?_⟩
    · subst h
      simp [forBreak]
    · have hrow := (scanRow_spec m n i ls).1 (hall i (Nat.le_refl i) (by omega))
      simp only [forBreak, ne_eq, hls, not_false_eq_true, decide_True, if_true, hrow]
      simp only [Bool.false_eq_true, if_false]
      exact (ih (i + 1) ls).2.1 hls (fun i' h1 h2 => hall i' (by omega) (by omega))
    · by_cases hrow : RowSym m n i
      · have hrow' := (scanRow_spec m n i ls).1 hrow
        simp only [forBreak, ne_eq, hls, not_false_eq_true, decide_True, if_true, hrow']
        simp only [Bool.false_eq_true, if_false]
        obtain ⟨i', h1, h2, h3⟩ := hex
        have hne : i' ≠ i := fun e => h3 (e ▸ hrow)
        exact (ih (i + 1) ls).2.2 hls ⟨i', by omega, by omega, h3⟩
      · have hrow' := (scanRow_spec m n i ls).2 hrow
        simp only [forBreak, ne_eq, hls, not_false_eq_true, decide_True, if_true, hrow']
        simp only [Bool.false_eq_true, if_false]
        exact (ih (i + 1) 0).1 rfl

theorem localSymScan_spec {α : Type} [DecidableEq α] (m : Buf α) (n lo hi : Nat) :
    ((∀ i, lo ≤ i → i < hi → RowSym m n i) → localSymScan m n lo hi = 1) ∧
    ((∃ i, lo ≤ i ∧ i < hi ∧ ¬ RowSym m n i) → localSymScan m n lo hi = 0) := by
  unfold localSymScan forLoopBreak
  have h := localSymScan_loop m n (hi - lo) lo 1
  constructor
  · intro hall
    exact h.2.1 (by decide) (fun i' h1 h2 => hall i' h1 (by omega))
  · rintro ⟨i, h1, h2, h3⟩
    exact h.2.2 (by decide) ⟨i, h1, by omega, h3⟩

theorem MPI_Allreduce_min_spec (size : Nat) (vals : Nat → Nat) (hsize : 1 ≤ size) :
    ((∀ r, r < size → vals r = 1) → MPI_Allreduce_min size vals = 1) ∧
    ((∃ r, r < size ∧ vals r = 0) → MPI_Allreduce_min size vals = 0) := by
  unfold MPI_Allreduce_min
  have key := forLoop_inv
    (fun k acc => ((∀ r, r < k → vals r = 1) → acc = 1) ∧ ((∃ r, r < k ∧ vals r = 0) → acc = 0))
    1 size (fun r acc => min acc (vals r)) (vals 0) hsize
    ⟨fun h => h 0 (by decide), by
      rintro ⟨r, hr, h⟩
      have : r = 0 := by omega
      subst this
      exact h⟩
    (by
      intro i t _ _ ⟨ih1, ih2⟩
      constructor
      · intro h
        show min t (vals i) = 1
        rw [ih1 (fun r hr => h r (by omega)), h i (by omega)]
        rfl
      · rintro ⟨r, hr, h⟩
        show min t (vals i) = 0
        by_cases e : r = i
        · subst e
          rw [h]
          exact Nat.min_zero t
        · rw [ih2 ⟨r, by omega, h⟩]
          exact Nat.zero_min _)
  exact key

theorem rowSym_bcastMatrix {α : Type} (n rank : Nat) (matrix junk : Buf α) {i : Nat}
    (hi : i < n) : RowSym (bcastMatrix n rank matrix junk) n i ↔ RowSym matrix n i := by
  unfold RowSym
  constructor
  · intro h j h1 h2
    have := h j h1 h2
    rwa [bcastMatrix_at _ _ _ _ hi h2, bcastMatrix_at _ _ _ _ h2 hi] at this
  · intro h j h1 h2
    rw [bcastMatrix_at _ _ _ _ hi h2, bcastMatrix_at _ _ _ _ h2 hi]
    exact h j h1 h2

theorem checkSymMPI_local_spec {α : Type} [DecidableEq α] (size n rank : Nat)
    (matrix junk : Buf α) (hsize : 1 ≤ size) (hrank : rank < size) :
    ((∀ i, localStart n size rank ≤ i → i < localEnd n size rank → RowSym matrix n i) →
      checkSymMPI_local size n rank matrix junk = 1) ∧
    ((∃ i, localStart n size rank ≤ i ∧ i < localEnd n size rank ∧ ¬ RowSym matrix n i) →
      checkSymMPI_local size n rank matrix junk = 0) := by
  have hle := localEnd_le n size rank hsize hrank
  have h := localSymScan_spec (bcastMatrix n rank matrix junk) n (localStart n size rank)
    (localEnd n size rank)
  unfold checkSymMPI_local
  constructor
  · intro hall
    exact h.1 (fun i h1 h2 => (rowSym_bcastMatrix n rank matrix junk (by omega)).mpr (hall i h1 h2))
  · rintro ⟨i, h1, h2, h3⟩
    exact h.2 ⟨i, h1, h2, fun hr => h3 ((rowSym_bcastMatrix n rank matrix junk (by omega)).mp hr)⟩

theorem checkSymMPI_spec {α : Type} [DecidableEq α] (size n rank : Nat) (matrix junk : Buf α)
    (hsize : 1 ≤ size) :
    (Symmetric matrix n → checkSymMPI size n rank matrix junk = 1) ∧
    (¬ Symmetric matrix n → checkSymMPI size n rank matrix junk = 0) := by
  have hred := MPI_Allreduce_min_spec size
    (fun r => checkSymMPI_local size n r matrix junk) hsize
  unfold checkSymMPI
  constructor
  · intro hsym
    apply hred.1
    intro r hr
    apply (checkSymMPI_local_spec size n r matrix junk hsize hr).1
    intro i _ h2
    have hle := localEnd_le n size r hsize hr
    exact (symmetric_iff_rows matrix n).mp hsym i (by omega)
  · intro hns
    rw [symmetric_iff_rows] at hns
    push_neg at hns
    obtain ⟨i, hi, hrow⟩ := hns
    obtain ⟨r, hr, h1, h2⟩ := row_owner n size i hsize hi
    exact hred.2 ⟨r, hr, (checkSymMPI_local_spec size n r matrix junk hsize hr).2 ⟨i, h1, h2, hrow⟩⟩

/-! ## The blocked symmetry check -/

/-- A counting loop whose bodies either fall through or return `v` returns `v`
when some body does, and falls through when none does. -/
theorem forReturn_spec {ρ : Type} (body : Nat → Flow ρ) (v : ρ) :
    ∀ count i, (∀ k, i ≤ k → k < i + count → body k = .fallthrough ∨ body k = .returned v) →
      (forReturn body count i = .returned v ∧ ∃ k, i ≤ k ∧ k < i + count ∧ body k = .returned v) ∨
      (forReturn body count i = .fallthrough ∧ ∀ k, i ≤ k → k < i + count → body k = .fallthrough) := by
  intro count
  induction count with
  | zero =>
    intro i _
    exact Or.inr ⟨rfl, fun k h1 h2 => by omega⟩
  | succ c ih =>
    intro i hb
    rcases hb i (Nat.le_refl i) (by omega) with h | h
    · have e : forReturn body (c + 1) i = forReturn body c (i + 1) := by
        simp only [forReturn, h]
      rw [e]
      rcases ih (i + 1) (fun k h1 h2 => hb k (by omega) (by omega)) with ⟨h1, k, h2, h3, h4⟩ | ⟨h1, h2⟩
      · exact Or.inl ⟨h1, k, by omega, by omega, h4⟩
      · refine Or.inr ⟨h1, fun k h3 h4 => ?_⟩
        by_cases e : k = i
        · subst e; exact h
        · exact h2 k (by omega) (by omega)
    · have e : forReturn body (c + 1) i = .returned v := by
        simp only [forReturn, h]
      exact Or.inl ⟨e, i, Nat.le_refl i, by omega, h⟩

/-- The same for a stepping loop with a positive step and enough fuel: the
bodies run are those at `i + m*step` below `n`. -/
theorem forStepReturn_spec {ρ : Type} (n step : Nat) (hstep : 0 < step) (body : Nat → Flow ρ)
    (v : ρ) :
    ∀ fuel i, n ≤ i + fuel →
      (∀ m, i + m * step < n →
        body (i + m * step) = .fallthrough ∨ body (i + m * step) = .returned v) →
      (forStepReturn n step body fuel i = .returned v ∧
        ∃ m, i + m * step < n ∧ body (i + m * step) = .returned v) ∨
      (forStepReturn n step body fuel i = .fallthrough ∧
        ∀ m, i + m * step < n → body (i + m * step) = .fallthrough) := by
  intro fuel
  induction fuel with
  | zero =>
    intro i hf _
    refine Or.inr ⟨by simp only [forStepReturn]; rw [if_neg (by omega)], fun m hm => ?_⟩
    have : i ≤ i + m * step := Nat.le_add_right _ _
    omega
  | succ f ih =>
    intro i hf hb
    by_cases hi : i < n
    · have hb0 := hb 0 (by simpa using hi)
      simp only [Nat.zero_mul, Nat.add_zero] at hb0
      have shift : ∀ m, i + step + m * step = i + (m + 1) * step := fun m => by ring
      rcases hb0 with h | h
      · have e : forStepReturn n step body (f + 1) i = forStepReturn n step body f (i + step) := by
          simp only [forStepReturn, hi, if_true, h]
        rw [e]
        rcases ih (i + step) (by omega)
            (fun m hm => by rw [shift] at hm ⊢; exact hb (m + 1) hm) with
          ⟨h1, m, h2, h3⟩ | ⟨h1, h2⟩
        · rw [shift] at h2 h3
          exact Or.inl ⟨h1, m + 1, h2, h3⟩
        · refine Or.inr ⟨h1, fun m hm => ?_⟩
          cases m with
          | zero => simpa using h
          | succ m =>
            have := h2 m (by rw [shift]; exact hm)
            rwa [shift] at this
      · have e : forStepReturn n step body (f + 1) i = .returned v := by
          simp only [forStepReturn, hi, if_true, h]
        exact Or.inl ⟨e, 0, by simpa using hi, by simpa using h⟩
    · refine Or.inr ⟨by simp only [forStepReturn]; rw [if_neg hi], fun m hm => ?_⟩
      have : i ≤ i + m * step := Nat.le_add_right _ _
      omega

theorem checkSymTile_spec {α : Type} [DecidableEq α] (m : Buf α) (n blockSize ii jj : Nat) :
    (checkSymTile m n blockSize ii jj = .returned 0 ∧
      ∃ i j, i < n ∧ j < n ∧ m (i * n + j) ≠ m (j * n + i)) ∨
    (checkSymTile m n blockSize ii jj = .fallthrough ∧
      ∀ i j, ii ≤ i → i < ii + blockSize → i < n → (if i = ii then i + 1 else jj) ≤ j →
        j < jj + blockSize → j < n → m (i * n + j) = m (j * n + i)) := by
  have hcmp : ∀ i j, (if m (i * n + j) ≠ m (j * n + i) then Flow.returned 0 else Flow.fallthrough)
      = Flow.fallthrough ∨
      (if m (i * n + j) ≠ m (j * n + i) then Flow.returned 0 else Flow.fallthrough)
      = Flow.returned 0 := by
    intro i j
    by_cases h : m (i * n + j) ≠ m (j * n + i)
    · exact Or.inr (if_pos h)
    · exact Or.inl (if_neg h)
  have himax : (if ii + blockSize > n then n else ii + blockSize) ≤ n := by split <;> omega
  have hjmax : (if jj + blockSize > n then n else jj + blockSize) ≤ n := by split <;> omega
  have himax' : ∀ i, i < ii + blockSize → i < n →
      i < (if ii + blockSize > n then n else ii + blockSize) := by
    intro i h1 h2; split <;> omega
  have hjmax' : ∀ j, j < jj + blockSize → j < n →
      j < (if jj + blockSize > n then n else jj + blockSize) := by
    intro j h1 h2; split <;> omega
  unfold checkSymTile
  rcases forReturn_spec (fun i =>
      forReturn (fun j =>
        if m (i * n + j) ≠ m (j * n + i) then Flow.returned 0 else Flow.fallthrough)
        ((if jj + blockSize > n then n else jj + blockSize) - (if i = ii then i + 1 else jj))
        (if i = ii then i + 1 else jj)) 0
      ((if ii + blockSize > n then n else ii + blockSize) - ii) ii
      (by
        intro i _ _
        rcases forReturn_spec (fun j =>
          if m (i * n + j) ≠ m (j * n + i) then Flow.returned 0 else Flow.fallthrough) 0
          ((if jj + blockSize > n then n else jj + blockSize) - (if i = ii then i + 1 else jj))
          (if i = ii then i + 1 else jj) (fun j _ _ => hcmp i j) with h | h
        · exact Or.inr h.1
        · exact Or.inl h.1) with ⟨h1, i, hi1, hi2, hi3⟩ | ⟨h1, h2⟩
  · left
    refine ⟨h1, ?_⟩
    rcases forReturn_spec (fun j =>
        if m (i * n + j) ≠ m (j * n + i) then Flow.returned 0 else Flow.fallthrough) 0
        ((if jj + blockSize > n then n else jj + blockSize) - (if i = ii then i + 1 else jj))
        (if i = ii then i + 1 else jj) (fun j _ _ => hcmp i j) with ⟨_, j, hj1, hj2, hj3⟩ | ⟨h, _⟩
    · refine ⟨i, j, by omega, by omega, ?_⟩
      by_cases hne : m (i * n + j) ≠ m (j * n + i)
      · exact hne
      · rw [if_neg hne] at hj3
        exact absurd hj3 (by simp)
    · rw [h] at hi3
      exact absurd hi3 (by simp)
  · right
    refine ⟨h1, ?_⟩
    intro i j hi1 hi2 hi3 hj1 hj2 hj3
    have hrow := h2 i hi1 (by have := himax' i hi2 hi3; omega)
    rcases forReturn_spec (fun j =>
        if m (i * n + j) ≠ m (j * n + i) then Flow.returned 0 else Flow.fallthrough) 0
        ((if jj + blockSize > n then n else jj + blockSize) - (if i = ii then i + 1 else jj))
        (if i = ii then i + 1 else jj) (fun j _ _ => hcmp i j) with ⟨h, _⟩ | ⟨_, hall⟩
    · rw [h] at hrow
      exact absurd hrow (by simp)
    · have hj := hall j hj1 (by have := hjmax' j hj2 hj3; omega)
      by_cases hne : m (i * n + j) ≠ m (j * n + i)
      · rw [if_pos hne] at hj
        exact absurd hj (by simp)
      · exact not_not.mp hne

/-- The tile that starts at `(i / bs) * bs` contains `i`. -/
theorem tile_bounds (i : Nat) {bs : Nat} (hbs : 1 ≤ bs) :
    i / bs * bs ≤ i ∧ i < i / bs * bs + bs := by
  have h1 := Nat.div_add_mod i bs
  have h2 := Nat.mod_lt i hbs
  have h3 : i / bs * bs = bs * (i / bs) := Nat.mul_comm _ _
  omega

theorem checkSymBlock_spec {α : Type} [DecidableEq α] (fuel : Nat) (m : Buf α)
    (n blockSize : Nat) (hbs : 1 ≤ blockSize) (hfuel : n ≤ fuel) :
    (Symmetric m n → checkSymBlock fuel m n blockSize = some 1) ∧
    (¬ Symmetric m n → checkSymBlock fuel m n blockSize = some 0) := by
  have hinner : ∀ ii,
      (forStepReturn n blockSize (fun jj => checkSymTile m n blockSize ii jj) fuel ii
          = .returned 0 ∧ ∃ i j, i < n ∧ j < n ∧ m (i * n + j) ≠ m (j * n + i)) ∨
      (forStepReturn n blockSize (fun jj => checkSymTile m n blockSize ii jj) fuel ii
          = .fallthrough ∧
        ∀ k, ii + k * blockSize < n →
          checkSymTile m n blockSize ii (ii + k * blockSize) = .fallthrough) := by
    intro ii
    rcases forStepReturn_spec n blockSize hbs
        (fun jj => checkSymTile m n blockSize ii jj) 0 fuel ii (by omega)
        (fun k _ => by
          rcases checkSymTile_spec m n blockSize ii (ii + k * blockSize) with h | h
          · exact Or.inr h.1
          · exact Or.inl h.1) with ⟨h1, k, _, h3⟩ | ⟨h1, h2⟩
    · left
      refine ⟨h1, ?_⟩
      rcases checkSymTile_spec m n blockSize ii (ii + k * blockSize) with h | h
      · exact h.2
      · rw [h.1] at h3
        exact absurd h3 (by simp)
    · exact Or.inr ⟨h1, h2⟩
  have houter :
      (checkSymBlock fuel m n blockSize = some 0 ∧
        ∃ i j, i < n ∧ j < n ∧ m (i * n + j) ≠ m (j * n + i)) ∨
      (checkSymBlock fuel m n blockSize = some 1 ∧
        ∀ a k, 0 + a * blockSize < n → 0 + a * blockSize + k * blockSize < n →
          checkSymTile m n blockSize (0 + a * blockSize) (0 + a * blockSize + k * blockSize)
            = .fallthrough) := by
    unfold checkSymBlock
    rcases forStepReturn_spec n blockSize hbs
        (fun ii => forStepReturn n blockSize
          (fun jj => checkSymTile m n blockSize ii jj) fuel ii) 0 fuel 0 (by omega)
        (fun a _ => by
          rcases hinner (0 + a * blockSize) with h | h
          · exact Or.inr h.1
          · exact Or.inl h.1) with ⟨h1, a, _, h3⟩ | ⟨h1, h2⟩
    · left
      rw [h1]
      refine ⟨rfl, ?_⟩
      rcases hinner (0 + a * blockSize) with h | h
      · exact h.2
      · rw [h.1] at h3
        exact absurd h3 (by simp)
    · right
      rw [h1]
      refine ⟨rfl, fun a k ha hk => ?_⟩
      rcases hinner (0 + a * blockSize) with h | h
      · have h3 := h2 a ha
        rw [h.1] at h3
        exact absurd h3 (by simp)
      · exact h.2 k hk
  rcases houter with ⟨h1, i, j, hi, hj, hne⟩ | ⟨h1, h2⟩
  · exact ⟨fun hs => absurd (hs i j hi hj) hne, fun _ => h1⟩
  · have hsym : Symmetric m n := by
      rw [symmetric_iff_rows]
      intro i hi j hij hj
      have hii : i / blockSize * blockSize ≤ i := Nat.div_mul_le_self i blockSize
      have hjj : j / blockSize * blockSize ≤ j := Nat.div_mul_le_self j blockSize
      have hii2 : i < i / blockSize * blockSize + blockSize := (tile_bounds i hbs).2
      have hjj2 : j < j / blockSize * blockSize + blockSize := (tile_bounds j hbs).2
      have hle : i / blockSize * blockSize ≤ j / blockSize * blockSize :=
        Nat.mul_le_mul_right _ (Nat.div_le_div_right (Nat.le_of_lt hij))
      have ejj : 0 + i / blockSize * blockSize + (j / blockSize - i / blockSize) * blockSize
          = j / blockSize * blockSize := by
        rw [Nat.sub_mul]
        omega
      have htile := h2 (i / blockSize) (j / blockSize - i / blockSize) (by omega)
        (by rw [ejj]; omega)
      rw [ejj] at htile
      rcases checkSymTile_spec m n blockSize (0 + i / blockSize * blockSize)
          (j / blockSize * blockSize) with h | h
      · rw [h.1] at htile
        exact absurd htile (by simp)
      · apply h.2 i j (by omega) (by omega) hi _ (by omega) hj
        split <;> omega
    exact ⟨fun _ => h1, fun hn => absurd hsym hn⟩

/-! ## The blocked transposition -/

theorem Writes.comp {α : Type} {E : Buf α} {h1 h2 : Nat → Prop} {g f : Buf α → Buf α}
    (hg : Writes E h1 g) (hf : Writes E h2 f) :
    Writes E (fun p => h1 p ∨ h2 p) (fun t => f (g t)) := by
  intro t p
  by_cases e2 : h2 p
  · exact ⟨fun _ => (hf (g t) p).1 e2, fun hn => absurd (Or.inr e2) hn⟩
  · have e : f (g t) p = g t p := (hf (g t) p).2 e2
    constructor
    · rintro (h | h)
      · show f (g t) p = E p
        rw [e]; exact (hg t p).1 h
      · exact absurd h e2
    · intro hn
      show f (g t) p = t p
      rw [e]; exact (hg t p).2 (fun h => hn (Or.inl h))

/-- A stepping loop with a positive step and enough fuel whose bodies write
values of `E` returns, and writes what its bodies at `i + m*step` below `n`
write. -/
theorem Writes.stepLoop {α : Type} {E : Buf α} {hit : Nat → Nat → Prop} (n step : Nat)
    (hstep : 0 < step) (body : Nat → Buf α → Option (Buf α))
    (hbody : ∀ i, i < n → ∃ g, (∀ t, body i t = some (g t)) ∧ Writes E (hit i) g) :
    ∀ fuel i, n ≤ i + fuel →
      ∃ f, (∀ t, forStep n step body fuel i t = some (f t)) ∧
        Writes E (fun p => ∃ m, i + m * step < n ∧ hit (i + m * step) p) f := by
  have hdone : ∀ fuel i, n ≤ i →
      ∃ f, (∀ t, forStep n step body fuel i t = some (f t)) ∧
        Writes E (fun p => ∃ m, i + m * step < n ∧ hit (i + m * step) p) f := by
    intro fuel i hi
    refine ⟨fun t => t, fun t => ?_, fun t p => ⟨?_, fun _ => rfl⟩⟩
    · cases fuel <;> simp only [forStep] <;> rw [if_neg (by omega)]
    · rintro ⟨m, hm, _⟩
      have : i ≤ i + m * step := Nat.le_add_right _ _
      omega
  intro fuel
  induction fuel with
  | zero => intro i hf; exact hdone 0 i (by omega)
  | succ k ih =>
    intro i hf
    by_cases hi : i < n
    · obtain ⟨g, hg1, hg2⟩ := hbody i hi
      obtain ⟨f, hf1, hf2⟩ := ih (i + step) (by omega)
      refine ⟨fun t => f (g t), fun t => ?_, ?_⟩
      · simp only [forStep, hi, if_true, hg1 t, Option.some_bind, hf1]
      · apply (hg2.comp hf2).congr
        intro p
        have shift : ∀ m, i + step + m * step = i + (m + 1) * step := fun m => by ring
        constructor
        · rintro (h | ⟨m, h1, h2⟩)
          · exact ⟨0, by simpa using hi, by simpa using h⟩
          · rw [shift] at h1 h2
            exact ⟨m + 1, h1, h2⟩
        · rintro ⟨m, h1, h2⟩
          cases m with
          | zero => left; simpa using h2
          | succ m =>
            right
            exact ⟨m, by rw [shift]; exact h1, by rw [shift]; exact h2⟩
    · exact hdone (k + 1) i (by omega)

theorem transposeTile_writes {α : Type} (matrix : Buf α) (n blockSize ii jj : Nat) :
    Writes (fun p => matrix ((p % n) * n + p / n))
      (fun p => ∃ i, ii ≤ i ∧ i < (if ii + blockSize > n then n else ii + blockSize) ∧
        ∃ j, jj ≤ j ∧ j < (if jj + blockSize > n then n else jj + blockSize) ∧ p = j * n + i)
      (fun transposed => transposeTile matrix n blockSize ii jj transposed) := by
  unfold transposeTile
  apply Writes.forLoop
  intro i _ hi
  apply Writes.forLoop
  intro j _ _
  apply Writes.set
  have hin : i < n := by
    have : (if ii + blockSize > n then n else ii + blockSize) ≤ n := by split <;> omega
    omega
  simp only [rm_div hin, rm_mod hin]

theorem matTransposeBlock_spec {α : Type} (fuel : Nat) (matrix transposed : Buf α)
    (n blockSize : Nat) (hbs : 1 ≤ blockSize) (hfuel : n ≤ fuel) :
    ∃ out, matTransposeBlock fuel matrix transposed n blockSize = some out ∧
      ∀ i j, i < n → j < n → out (j * n + i) = matrix (i * n + j) := by
  obtain ⟨f, hf1, hf2⟩ := Writes.stepLoop n blockSize hbs
    (fun ii transposed => forStep n blockSize (fun jj transposed =>
      some (transposeTile matrix n blockSize ii jj transposed)) fuel 0 transposed)
    (fun ii _ => Writes.stepLoop n blockSize hbs
      (fun jj transposed => some (transposeTile matrix n blockSize ii jj transposed))
      (fun jj _ => ⟨_, fun _ => rfl, transposeTile_writes matrix n blockSize ii jj⟩)
      fuel 0 (by omega))
    fuel 0 (by omega)
  refine ⟨f transposed, hf1 transposed, fun i j hi hj => ?_⟩
  have hti := tile_bounds i hbs
  have htj := tile_bounds j hbs
  have h := (hf2 transposed (j * n + i)).1
    ⟨i / blockSize, by omega, j / blockSize, by omega,
      i, by omega, by split <;> omega, j, by omega, by split <;> omega, rfl⟩
  rw [h]
  simp only [rm_div hi, rm_mod hi]

theorem matTransposeBlockMPI3_spec {α : Type} (q n : Nat) (matrix transposed junk : Buf α)
    (hq : 0 < q) (hdiv : n % q = 0) :
    ∃ out, matTransposeBlockMPI3 (q * q) n matrix transposed junk = .ok out ∧
      ∀ i j, i < n → j < n → out (i * n + j) = matrix (j * n + i) := by
  rw [← matTransposeBlockMPI1_eq_MPI3]
  exact matTransposeBlockMPI1_spec q n matrix transposed junk hq hdiv

/-- Every strategy run under its precondition returns the transposed matrix. -/
theorem Strategy.run_spec {α : Type} [Zero α] (s : Strategy) (size n : Nat)
    (matrix transposed junk : Buf α) (h : s.Pre size n) :
    ∃ out, s.run size n matrix transposed junk = .ok out ∧
      ∀ i j, i < n → j < n → out (i * n + j) = matrix (j * n + i) := by
  cases s with
  | broadcast =>
    exact ⟨_, rfl, fun i j hi hj => matTransposeMPI_spec size n matrix transposed junk h.2 hi hj⟩
  | columnGather =>
    exact ⟨_, rfl, fun i j hi hj => matTransposeMPI2_spec size n matrix transposed junk h.2 hi hj⟩
  | pairwise =>
    exact ⟨_, rfl, fun i j hi hj => matTransposeMPI3_spec size n matrix transposed junk h.2 hi hj⟩
  | grid1 =>
    obtain ⟨q, hq, rfl, hdiv⟩ := h
    exact matTransposeBlockMPI1_spec q n matrix transposed junk hq hdiv
  | grid3 =>
    obtain ⟨q, hq, rfl, hdiv⟩ := h
    exact matTransposeBlockMPI3_spec q n matrix transposed junk hq hdiv

/-! ## The transposition strategies are correct -/

/-- C1. Broadcast-Transpose: when `size` divides `n`, the buffer assembled on
the root by `matTransposeMPI` satisfies `transposed[i*n + j] = M[j*n + i]` for
all `i, j < n`; rank `r` computes rows `r*(n/size) .. (r+1)*(n/size) - 1` of
the result. -/
theorem matTransposeMPI_correct {α : Type} (n size : Nat) (hsize : 1 ≤ size)
    (hdiv : n % size = 0) (matrix transposed junk : Buf α) :
    (∀ i j, i < n → j < n →
      matTransposeMPI size n matrix transposed junk (i * n + j) = matrix (j * n + i)) ∧
    (∀ r a j, r < size → a < n / size → j < n →
      matTransposeMPI_local size n r (bcastMatrix n r matrix junk) junk (a * n + j)
        = matrix (j * n + (r * (n / size) + a))) := by
  have _ := hsize
  refine ⟨fun i j hi hj => matTransposeMPI_spec size n matrix transposed junk hdiv hi hj, ?_⟩
  intro r a j hr ha hj
  rw [matTransposeMPI_local_at _ _ _ _ _ ha hj,
    bcastMatrix_at _ _ _ _ hj (slice_lt hdiv hr ha)]

/-- Instance of C1: four rows on two processes. -/
theorem matTransposeMPI_correct_witness :
    matTransposeMPI 2 4 (fun k => k + 1) (fun _ => 0) (fun _ => 0) (1 * 4 + 2)
      = (fun k => k + 1) (2 * 4 + 1) :=
  (matTransposeMPI_correct 4 2 (by decide) (by decide) (fun k => k + 1) (fun _ => 0)
    (fun _ => 0)).1 1 2 (by decide) (by decide)

/-- C2. Scatter/Column-Gather-Transpose: when `size` divides `n`, after
`matTransposeMPI2` the root's output satisfies `transposed[c*n + k] = M[k*n + c]`
for all `c, k < n`, and the values gathered in iteration `c` are column `c` of
the matrix in row order. -/
theorem matTransposeMPI2_correct {α : Type} (n size : Nat) (hsize : 1 ≤ size)
    (hdiv : n % size = 0) (matrix transposed junk : Buf α) :
    (∀ c k, c < n → k < n →
      matTransposeMPI2 size n matrix transposed junk (c * n + k) = matrix (k * n + c)) ∧
    (∀ c k (st : ColState α), c < n → k < n →
      (columnStep size n (fun rank => MPI_Scatter matrix (n / size * n) rank junk) c st).recvCol k
        = matrix (k * n + c)) := by
  have _ := hsize
  exact ⟨fun c k hc hk => matTransposeMPI2_spec size n matrix transposed junk hdiv hc hk,
    fun c k st hc hk => columnStep_recvCol size n matrix junk c st hdiv hk hc⟩

/-- Instance of C2: four rows on two processes. -/
theorem matTransposeMPI2_correct_witness :
    matTransposeMPI2 2 4 (fun k => k + 1) (fun _ => 0) (fun _ => 0) (3 * 4 + 1)
      = (fun k => k + 1) (1 * 4 + 3) :=
  (matTransposeMPI2_correct 4 2 (by decide) (by decide) (fun k => k + 1) (fun _ => 0)
    (fun _ => 0)).1 3 1 (by decide) (by decide)

/-- C3. Pairwise-Block-Exchange-Transpose: for every process count `size` that
divides `n`, power of two or not, the matrix gathered on the root by
`matTransposeMPI3` satisfies `transposed[i*n + j] = M[j*n + i]`; on rank `p` the
diagonal step leaves `localT[r*n + p*L + c] = M[(p*L+c)*n + p*L + r]`, the block
of peer `k` is placed so that `localT[c*n + k*L + r] = M[(k*L+r)*n + p*L + c]`,
and every entry of `localT` is written: its final value does not depend on
what `localT` held at the start. -/
theorem matTransposeMPI3_correct {α : Type} [Zero α] (n size : Nat) (hsize : 1 ≤ size)
    (hdiv : n % size = 0) (matrix transposed junk : Buf α) :
    (∀ i j, i < n → j < n →
      matTransposeMPI3 size n matrix transposed junk (i * n + j) = matrix (j * n + i)) ∧
    (∀ p r c, p < size → r < n / size → c < n / size →
      matTransposeMPI3_localT size n p matrix (fun _ => 0) junk (r * n + p * (n / size) + c)
        = matrix ((p * (n / size) + c) * n + p * (n / size) + r)) ∧
    (∀ p k r c, p < size → k < size → k ≠ p → r < n / size → c < n / size →
      matTransposeMPI3_localT size n p matrix (fun _ => 0) junk (c * n + k * (n / size) + r)
        = matrix ((k * (n / size) + r) * n + p * (n / size) + c)) ∧
    (∀ p idx (localT0 localT1 : Buf α), p < size → idx < n / size * n →
      matTransposeMPI3_localT size n p matrix localT0 junk idx
        = matTransposeMPI3_localT size n p matrix localT1 junk idx) := by
  have _ := hsize
  have hcol : ∀ q x, q < size → x < n / size → q * (n / size) + x < n :=
    fun q x hq hx => slice_lt hdiv hq hx
  refine ⟨fun i j hi hj => matTransposeMPI3_spec size n matrix transposed junk hdiv hi hj,
    ?_, ?_, ?_⟩
  · intro p r c hp hr hc
    rw [Nat.add_assoc, Nat.add_assoc,
      matTransposeMPI3_localT_at _ _ _ _ _ _ hdiv hp hr (hcol p c hp hc)]
  · intro p k r c hp hk _ hr hc
    rw [Nat.add_assoc, Nat.add_assoc,
      matTransposeMPI3_localT_at _ _ _ _ _ _ hdiv hp hc (hcol k r hk hr)]
  · intro p idx localT0 localT1 hp hidx
    have hpos : 0 < n := by
      rcases Nat.eq_zero_or_pos n with h | h
      · subst h; omega
      · exact h
    have ha : idx / n < n / size := (Nat.div_lt_iff_lt_mul hpos).mpr hidx
    have hc : idx % n < n := Nat.mod_lt _ hpos
    have e : idx = idx / n * n + idx % n := by
      have := Nat.div_add_mod idx n
      rw [Nat.mul_comm] at this
      omega
    rw [e, matTransposeMPI3_localT_at _ _ _ _ localT0 _ hdiv hp ha hc,
      matTransposeMPI3_localT_at _ _ _ _ localT1 _ hdiv hp ha hc]

/-- Instance of C3: six rows on three processes, not a power of two. -/
theorem matTransposeMPI3_correct_witness :
    matTransposeMPI3 3 6 (fun k => k + 1) (fun _ => 0) (fun _ => 0) (5 * 6 + 2)
      = (fun k => k + 1) (2 * 6 + 5) :=
  (matTransposeMPI3_correct 6 3 (by decide) (by decide) (fun k => k + 1) (fun _ => 0)
    (fun _ => 0)).1 5 2 (by decide) (by decide)

/-- C4. Block-Grid-Transpose: for `size = q*q` processes with `q ≥ 1` and `q`
dividing `n`, `matTransposeBlockMPI1` returns and leaves on the root
`transposed[i*n + j] = M[j*n + i]` for all `i, j < n`; element `(r, c)` of the
block from grid cell `(i, j)` is written at row `j*B + r` and column `i*B + c`
with `B = n/q`, and every entry of the output belongs to exactly one element of
one of the `q*q` blocks. -/
theorem matTransposeBlockMPI1_correct {α : Type} (n q : Nat) (hq : 1 ≤ q) (hdiv : n % q = 0)
    (matrix transposed junk : Buf α) :
    (∃ out, matTransposeBlockMPI1 (q * q) n matrix transposed junk = .ok out ∧
      ∀ i j, i < n → j < n → out (i * n + j) = matrix (j * n + i)) ∧
    (∀ i j r c, storeIndex n (n / q) i j r c = (j * (n / q) + r) * n + (i * (n / q) + c)) ∧
    (∀ i j, i < n → j < n →
      ∃! t : Nat × Nat × Nat × Nat, t.1 < q ∧ t.2.1 < q ∧ t.2.2.1 < n / q ∧ t.2.2.2 < n / q ∧
        storeIndex n (n / q) t.1 t.2.1 t.2.2.1 t.2.2.2 = i * n + j) :=
  ⟨matTransposeBlockMPI1_spec q n matrix transposed junk hq hdiv, fun _ _ _ _ => rfl,
    fun _ _ hi hj => storeIndex_cover n q hdiv hi hj⟩

/-- Instance of C4: a 4×4 matrix on a 2×2 grid. -/
theorem matTransposeBlockMPI1_correct_witness :
    ∃ out, matTransposeBlockMPI1 (2 * 2) 4 (fun k => k + 1) (fun _ => 0) (fun _ => 0) = .ok out ∧
      ∀ i j, i < 4 → j < 4 → out (i * 4 + j) = (fun k => k + 1) (j * 4 + i) :=
  (matTransposeBlockMPI1_correct 4 2 (by decide) (by decide) (fun k => k + 1) (fun _ => 0)
    (fun _ => 0)).1

/-- C5. The two Block-Grid variants are functionally identical: for every `n`,
every process count and every matrix, `matTransposeBlockMPI1` and
`matTransposeBlockMPI3` abort alike or return equal output buffers. -/
theorem matTransposeBlockMPI1_eq_matTransposeBlockMPI3 {α : Type} (size n : Nat)
    (matrix transposed junk : Buf α) :
    matTransposeBlockMPI1 size n matrix transposed junk
      = matTransposeBlockMPI3 size n matrix transposed junk :=
  matTransposeBlockMPI1_eq_MPI3 size n matrix transposed junk

/-- C6. Cross-strategy equivalence of the transpose: for a fixed matrix, any
two of the distributed strategies, each run with a process count that meets its
precondition, return the same matrix on the root; the result depends neither on
the strategy nor on the process count. -/
theorem transpose_strategies_agree {α : Type} [Zero α] (n : Nat) (matrix : Buf α)
    (s s' : Strategy) (size size' : Nat) (transposed transposed' junk junk' : Buf α)
    (h : s.Pre size n) (h' : s'.Pre size' n) :
    ∃ out out', s.run size n matrix transposed junk = .ok out ∧
      s'.run size' n matrix transposed' junk' = .ok out' ∧
      ∀ i j, i < n → j < n → out (i * n + j) = out' (i * n + j) := by
  obtain ⟨out, h1, h2⟩ := s.run_spec size n matrix transposed junk h
  obtain ⟨out', h1', h2'⟩ := s'.run_spec size' n matrix transposed' junk' h'
  exact ⟨out, out', h1, h1', fun i j hi hj => by rw [h2 i j hi hj, h2' i j hi hj]⟩

/-- Instance of C6: broadcast on two processes against the `memcpy` grid
variant on a 2×2 grid, for a 4×4 matrix. -/
theorem transpose_strategies_agree_witness :
    ∃ out out', Strategy.broadcast.run 2 4 (fun k => k + 1) (fun _ => 0) (fun _ => 0) = .ok out ∧
      Strategy.grid3.run 4 4 (fun k => k + 1) (fun _ => 7) (fun _ => 9) = .ok out' ∧
      ∀ i j, i < 4 → j < 4 → out (i * 4 + j) = out' (i * 4 + j) :=
  transpose_strategies_agree 4 (fun k => k + 1) .broadcast .grid3 2 4
    (fun _ => 0) (fun _ => 7) (fun _ => 0) (fun _ => 9)
    (⟨by decide, by decide⟩ : 1 ≤ 2 ∧ 4 % 2 = 0)
    (⟨2, by decide, by decide, by decide⟩ : ∃ q, 1 ≤ q ∧ 4 = q * q ∧ 4 % q = 0)

/-- C7. Involution: for every distributed strategy run with a process count
that meets its precondition, and for the serial blocked transposition with
`blockSize ≥ 1` (given the `n` iterations its tile loops need at most),
transposing a matrix and then transposing the result gives the matrix back,
element for element. -/
theorem transpose_involution {α : Type} [Zero α] (n : Nat) (matrix : Buf α)
    (s : Strategy) (size blockSize fuel : Nat) (transposed transposed' junk junk' : Buf α)
    (h : s.Pre size n) (hbs : 1 ≤ blockSize) (hfuel : n ≤ fuel) :
    (∃ out out2, s.run size n matrix transposed junk = .ok out ∧
      s.run size n out transposed' junk' = .ok out2 ∧
      ∀ i j, i < n → j < n → out2 (i * n + j) = matrix (i * n + j)) ∧
    (∃ out out2, matTransposeBlock fuel matrix transposed n blockSize = some out ∧
      matTransposeBlock fuel out transposed' n blockSize = some out2 ∧
      ∀ i j, i < n → j < n → out2 (i * n + j) = matrix (i * n + j)) := by
  constructor
  · obtain ⟨out, h1, h2⟩ := s.run_spec size n matrix transposed junk h
    obtain ⟨out2, h3, h4⟩ := s.run_spec size n out transposed' junk' h
    exact ⟨out, out2, h1, h3, fun i j hi hj => by rw [h4 i j hi hj, h2 j i hj hi]⟩
  · obtain ⟨out, h1, h2⟩ := matTransposeBlock_spec fuel matrix transposed n blockSize hbs hfuel
    obtain ⟨out2, h3, h4⟩ := matTransposeBlock_spec fuel out transposed' n blockSize hbs hfuel
    exact ⟨out, out2, h1, h3, fun i j hi hj => by rw [h4 j i hj hi, h2 i j hi hj]⟩

/-- Instance of C7: pairwise exchange on three processes and tiles of width 4,
for a 6×6 matrix. -/
theorem transpose_involution_witness :
    (∃ out out2, Strategy.pairwise.run 3 6 (fun k => k + 1) (fun _ => 0) (fun _ => 0) = .ok out ∧
      Strategy.pairwise.run 3 6 out (fun _ => 0) (fun _ => 0) = .ok out2 ∧
      ∀ i j, i < 6 → j < 6 → out2 (i * 6 + j) = (fun k => k + 1) (i * 6 + j)) ∧
    (∃ out out2, matTransposeBlock 6 (fun k => k + 1) (fun _ => 0) 6 4 = some out ∧
      matTransposeBlock 6 out (fun _ => 0) 6 4 = some out2 ∧
      ∀ i j, i < 6 → j < 6 → out2 (i * 6 + j) = (fun k => k + 1) (i * 6 + j)) :=
  transpose_involution 6 (fun k => k + 1) .pairwise 3 4 6
    (fun _ => 0) (fun _ => 0) (fun _ => 0) (fun _ => 0)
    (⟨by decide, by decide⟩ : 1 ≤ 3 ∧ 6 % 3 = 0) (by decide) (by decide)

/-! ## The symmetry check -/

/-- C8. Symmetry-Check Engine: for every `n`, every process count `size ≥ 1`
(dividing `n` or not, larger than `n` or not) and every matrix, the value
`checkSymMPI` returns on every rank is 1 if `M[i*n+j] = M[j*n+i]` for all
`i, j < n` and 0 otherwise; every pair `i < j` with `M[i,j] ≠ M[j,i]` makes the
local result of the rank that owns row `i` zero. -/
theorem checkSymMPI_correct {α : Type} [DecidableEq α] (n size : Nat) (hsize : 1 ≤ size)
    (matrix junk : Buf α) :
    (∀ rank, rank < size →
      ((∀ i j, i < n → j < n → matrix (i * n + j) = matrix (j * n + i)) →
        checkSymMPI size n rank matrix junk = 1) ∧
      ((¬ ∀ i j, i < n → j < n → matrix (i * n + j) = matrix (j * n + i)) →
        checkSymMPI size n rank matrix junk = 0)) ∧
    (∀ i j, i < j → j < n → matrix (i * n + j) ≠ matrix (j * n + i) →
      ∃ r, r < size ∧ localStart n size r ≤ i ∧ i < localEnd n size r ∧
        checkSymMPI_local size n r matrix junk = 0) := by
  refine ⟨fun rank _ => checkSymMPI_spec size n rank matrix junk hsize, ?_⟩
  intro i j hij hj hne
  obtain ⟨r, hr, h1, h2⟩ := row_owner n size i hsize (by omega)
  refine ⟨r, hr, h1, h2, (checkSymMPI_local_spec size n r matrix junk hsize hr).2
    ⟨i, h1, h2, fun hrow => hne (hrow j hij hj)⟩⟩

/-- Instance of C8: a 3×3 matrix with `M[0,1] ≠ M[1,0]` on two processes. -/
theorem checkSymMPI_correct_witness :
    ∃ r, r < 2 ∧ localStart 3 2 r ≤ 0 ∧ 0 < localEnd 3 2 r ∧
      checkSymMPI_local 2 3 r (fun k => k) (fun _ => 0) = 0 :=
  (checkSymMPI_correct 3 2 (by decide) (fun k => k) (fun _ => 0)).2 0 1 (by decide)
    (by decide) (by decide)

/-- C10. Row-Partition Rule: for every `n` and `size ≥ 1` the ranges
`[localStart r, localEnd r)` of the ranks `r < size` are contiguous,
non-overlapping and gap-free: `localStart 0 = 0`, `localEnd r = localStart (r+1)`
for `r < size - 1`, `localStart r ≤ localEnd r`, `localEnd (size-1) = n`, and
every row below `n` belongs to exactly one rank. -/
theorem rowPartition_correct (n size : Nat) (hsize : 1 ≤ size) :
    localStart n size 0 = 0 ∧
    (∀ r, r < size - 1 → localEnd n size r = localStart n size (r + 1)) ∧
    (∀ r, r < size → localStart n size r ≤ localEnd n size r) ∧
    localEnd n size (size - 1) = n ∧
    (∀ i, i < n → ∃! r, r < size ∧ localStart n size r ≤ i ∧ i < localEnd n size r) := by
  refine ⟨localStart_zero n size, fun r _ => localEnd_eq n size r, fun r _ => ?_, ?_, ?_⟩
  · rw [localEnd_eq]
    exact localStart_mono n size (Nat.le_succ r)
  · rw [localEnd_eq, Nat.sub_add_cancel hsize, localStart_size n size hsize]
  · intro i hi
    obtain ⟨r, hr, h1, h2⟩ := row_owner n size i hsize hi
    exact ⟨r, ⟨hr, h1, h2⟩, fun r' ⟨_, h1', h2'⟩ =>
      row_owner_unique n size i r' r h1' h2' h1 h2⟩

/-- Instance of C10: seven rows on three processes. -/
theorem rowPartition_correct_witness :
    localStart 7 3 0 = 0 ∧
    (∀ r, r < 3 - 1 → localEnd 7 3 r = localStart 7 3 (r + 1)) ∧
    (∀ r, r < 3 → localStart 7 3 r ≤ localEnd 7 3 r) ∧
    localEnd 7 3 (3 - 1) = 7 ∧
    (∀ i, i < 7 → ∃! r, r < 3 ∧ localStart 7 3 r ≤ i ∧ i < localEnd 7 3 r) :=
  rowPartition_correct 7 3 (by decide)

/-- C9. Cross-strategy equivalence of the symmetry check: for a fixed matrix,
`checkSymMPI`, `checkSymMPI2`, `checkSymMPI3`, `checkSymBlockMPI1` and
`checkSymBlockMPI3`, run with any process counts `≥ 1` and on any rank, and the
serial `checkSymBlock` with any `blockSize ≥ 1` (given the `n` iterations its
tile loops need at most), all return the same value. -/
theorem checkSym_strategies_agree {α : Type} [DecidableEq α] (n : Nat) (matrix : Buf α)
    (s0 s1 s2 s3 s4 s5 r0 r1 r2 r3 r4 r5 blockSize fuel : Nat)
    (j0 j1 j2 j3 j4 j5 : Buf α)
    (h0 : 1 ≤ s0) (h1 : 1 ≤ s1) (h2 : 1 ≤ s2) (h3 : 1 ≤ s3) (h4 : 1 ≤ s4) (h5 : 1 ≤ s5)
    (hbs : 1 ≤ blockSize) (hfuel : n ≤ fuel) :
    checkSymMPI s1 n r1 matrix j1 = checkSymMPI s0 n r0 matrix j0 ∧
    checkSymMPI2 s2 n r2 matrix j2 = checkSymMPI s0 n r0 matrix j0 ∧
    checkSymMPI3 s3 n r3 matrix j3 = checkSymMPI s0 n r0 matrix j0 ∧
    checkSymBlockMPI1 s4 n r4 matrix j4 = checkSymMPI s0 n r0 matrix j0 ∧
    checkSymBlockMPI3 s5 n r5 matrix j5 = checkSymMPI s0 n r0 matrix j0 ∧
    checkSymBlock fuel matrix n blockSize = some (checkSymMPI s0 n r0 matrix j0) := by
  have e2 : checkSymMPI2 s2 n r2 matrix j2 = checkSymMPI s2 n r2 matrix j2 := rfl
  have e3 : checkSymMPI3 s3 n r3 matrix j3 = checkSymMPI s3 n r3 matrix j3 := rfl
  have e4 : checkSymBlockMPI1 s4 n r4 matrix j4 = checkSymMPI s4 n r4 matrix j4 := rfl
  have e5 : checkSymBlockMPI3 s5 n r5 matrix j5 = checkSymMPI s5 n r5 matrix j5 := rfl
  rw [e2, e3, e4, e5]
  by_cases hsym : Symmetric matrix n
  · rw [(checkSymMPI_spec s0 n r0 matrix j0 h0).1 hsym,
      (checkSymMPI_spec s1 n r1 matrix j1 h1).1 hsym,
      (checkSymMPI_spec s2 n r2 matrix j2 h2).1 hsym,
      (checkSymMPI_spec s3 n r3 matrix j3 h3).1 hsym,
      (checkSymMPI_spec s4 n r4 matrix j4 h4).1 hsym,
      (checkSymMPI_spec s5 n r5 matrix j5 h5).1 hsym,
      (checkSymBlock_spec fuel matrix n blockSize hbs hfuel).1 hsym]
    exact ⟨rfl, rfl, rfl, rfl, rfl, rfl⟩
  · rw [(checkSymMPI_spec s0 n r0 matrix j0 h0).2 hsym,
      (checkSymMPI_spec s1 n r1 matrix j1 h1).2 hsym,
      (checkSymMPI_spec s2 n r2 matrix j2 h2).2 hsym,
      (checkSymMPI_spec s3 n r3 matrix j3 h3).2 hsym,
      (checkSymMPI_spec s4 n r4 matrix j4 h4).2 hsym,
      (checkSymMPI_spec s5 n r5 matrix j5 h5).2 hsym,
      (checkSymBlock_spec fuel matrix n blockSize hbs hfuel).2 hsym]
    exact ⟨rfl, rfl, rfl, rfl, rfl, rfl⟩

/-- Instance of C9: a 5×5 matrix, process counts 1 to 7, tiles of width 2. -/
theorem checkSym_strategies_agree_witness :
    checkSymMPI 2 5 1 (fun k => k) (fun _ => 0) = checkSymMPI 1 5 0 (fun k => k) (fun _ => 0) ∧
    checkSymMPI2 3 5 0 (fun k => k) (fun _ => 0) = checkSymMPI 1 5 0 (fun k => k) (fun _ => 0) ∧
    checkSymMPI3 4 5 2 (fun k => k) (fun _ => 0) = checkSymMPI 1 5 0 (fun k => k) (fun _ => 0) ∧
    checkSymBlockMPI1 5 5 0 (fun k => k) (fun _ => 0)
      = checkSymMPI 1 5 0 (fun k => k) (fun _ => 0) ∧
    checkSymBlockMPI3 7 5 6 (fun k => k) (fun _ => 0)
      = checkSymMPI 1 5 0 (fun k => k) (fun _ => 0) ∧
    checkSymBlock 5 (fun k => k) 5 2 = some (checkSymMPI 1 5 0 (fun k => k) (fun _ => 0)) :=
  checkSym_strategies_agree 5 (fun k => k) 1 2 3 4 5 7 0 1 0 2 0 6 2 5
    (fun _ => 0) (fun _ => 0) (fun _ => 0) (fun _ => 0) (fun _ => 0) (fun _ => 0)
    (by decide) (by decide) (by decide) (by decide) (by decide) (by decide) (by decide)
    (by decide)

/-! ## The row-based strategies without divisibility -/

/-- Whatever `n % size` is, `matTransposeMPI` leaves rows below `size * (n/size)`
of the output transposed. -/
theorem matTransposeMPI_rows {α : Type} (size n : Nat) (matrix transposed junk : Buf α)
    {i j : Nat} (hi : i < size * (n / size)) (hj : j < n) :
    matTransposeMPI size n matrix transposed junk (i * n + j) = matrix (j * n + i) := by
  have hn : size * (n / size) ≤ n := Nat.mul_div_le n size
  obtain ⟨r, a, hr, ha, rfl⟩ := block_split hi
  unfold matTransposeMPI
  have e : (r * (n / size) + a) * n + j = r * (n / size * n) + (a * n + j) := by ring
  rw [e, MPI_Gather_at _ _ _ _ hr (block_lt ha hj), matTransposeMPI_local_at _ _ _ _ _ ha hj,
    bcastMatrix_at _ _ _ _ hj (by omega)]

/-- Whatever `n % size` is, the column gathered in iteration `c` holds column
`c` of the matrix in its first `size * (n/size)` entries. -/
theorem columnStep_recvCol_block {α : Type} (size n : Nat) (matrix junk : Buf α) (c : Nat)
    (st : ColState α) {k : Nat} (hk : k < size * (n / size)) (hc : c < n) :
    (columnStep size n (fun rank => MPI_Scatter matrix (n / size * n) rank junk) c st).recvCol k
      = matrix (k * n + c) := by
  obtain ⟨r, a, hr, ha, rfl⟩ := block_split hk
  unfold columnStep
  simp only []
  rw [MPI_Gather_at _ _ _ _ hr ha, extractColumn_at _ _ _ _ _ ha,
    MPI_Scatter_at _ _ _ _ (block_lt ha hc)]
  congr 1
  ring

/-- Whatever `n % size` is, `matTransposeMPI2` leaves columns below
`size * (n/size)` of every row of the output transposed. -/
theorem matTransposeMPI2_cols {α : Type} (size n : Nat) (matrix transposed junk : Buf α)
    {c k : Nat} (hc : c < n) (hk : k < size * (n / size)) :
    matTransposeMPI2 size n matrix transposed junk (c * n + k) = matrix (k * n + c) := by
  have hn : size * (n / size) ≤ n := Nat.mul_div_le n size
  unfold matTransposeMPI2 matTransposeMPI2_run
  have key := forLoop_inv
    (fun m (st : ColState α) => ∀ c' k', c' < m → k' < size * (n / size) →
      st.transposed (c' * n + k') = matrix (k' * n + c'))
    0 n (columnStep size n (fun rank => MPI_Scatter matrix (n / size * n) rank junk))
    { sendCol := fun _ => junk, recvCol := junk, transposed := transposed }
    (Nat.zero_le n) (fun c' k' h _ => absurd h (Nat.not_lt_zero c'))
    (by
      intro i st _ hi ih c' k' hc' hk'
      have hkn : k' < n := by omega
      have hw := columnStep_transposed size n
        (fun rank => MPI_Scatter matrix (n / size * n) rank junk) i st (c' * n + k')
      by_cases e : c' = i
      · subst e
        rw [hw.1 ⟨k', by omega, hkn, rfl⟩, rm_mod hkn,
          columnStep_recvCol_block size n matrix junk c' st hk' hi]
      · rw [hw.2 (by
          rintro ⟨k2, _, hk2, h2⟩
          exact e (rowmajor_inj hkn hk2 h2).1)]
        exact ih c' k' (by omega) hk')
  exact key c k hc hk

/-- Whatever `n % size` is, `matTransposeMPI3` leaves the leading square of
width `size * (n/size)` of the output transposed. -/
theorem matTransposeMPI3_block {α : Type} [Zero α] (size n : Nat)
    (matrix transposed junk : Buf α) {i j : Nat} (hi : i < size * (n / size))
    (hj : j < size * (n / size)) :
    matTransposeMPI3 size n matrix transposed junk (i * n + j) = matrix (j * n + i) := by
  have hn : size * (n / size) ≤ n := Nat.mul_div_le n size
  obtain ⟨r, a, hr, ha, rfl⟩ := block_split hi
  unfold matTransposeMPI3
  have e : (r * (n / size) + a) * n + j = r * (n / size * n) + (a * n + j) := by ring
  rw [e, MPI_Gather_at _ _ _ _ hr (block_lt ha (by omega)),
    matTransposeMPI3_localT_block _ _ _ _ _ _ hr ha hj]

/-! ## Row partition sizes, local predicate, serial baseline -/

theorem rowRange_size (n size r : Nat) :
    (r < n % size → localEnd n size r - localStart n size r = n / size + 1) ∧
    (¬ r < n % size → localEnd n size r - localStart n size r = n / size) := by
  unfold localEnd localStart rowRange
  constructor
  · intro h
    simp only [h, if_true, Nat.add_sub_cancel_left]
  · intro h
    simp only [h, if_false, Nat.add_sub_cancel_left]

/-- C11. Row-Partition Rule, remainder handling: for every `n`, `size ≥ 1` and
rank `r < size` the number of rows `localEnd r - localStart r` is `n/size + 1`
when `r < n % size` and `n/size` otherwise; the sizes of two ranks differ by at
most one, and when `size > n` exactly the ranks below `n` own one row and the
others none. -/
theorem rowPartition_sizes (n size r : Nat) (hsize : 1 ≤ size) (hr : r < size) :
    (r < n % size → localEnd n size r - localStart n size r = n / size + 1) ∧
    (¬ r < n % size → localEnd n size r - localStart n size r = n / size) ∧
    (∀ r', r' < size → localEnd n size r - localStart n size r
      ≤ localEnd n size r' - localStart n size r' + 1) ∧
    (n < size → (r < n → localEnd n size r - localStart n size r = 1) ∧
      (n ≤ r → localEnd n size r - localStart n size r = 0)) := by
  have _ := hsize
  have _ := hr
  refine ⟨(rowRange_size n size r).1, (rowRange_size n size r).2, fun r' _ => ?_, fun hlt => ?_⟩
  · have h1 := rowRange_size n size r
    have h2 := rowRange_size n size r'
    by_cases a : r < n % size <;> by_cases b : r' < n % size
    · rw [h1.1 a, h2.1 b]; omega
    · rw [h1.1 a, h2.2 b]
    · rw [h1.2 a, h2.1 b]; omega
    · rw [h1.2 a, h2.2 b]; omega
  · have hd : n / size = 0 := Nat.div_eq_of_lt hlt
    have hm : n % size = n := Nat.mod_eq_of_lt hlt
    constructor
    · intro h
      rw [(rowRange_size n size r).1 (by omega), hd]
    · intro h
      rw [(rowRange_size n size r).2 (by omega), hd]

/-- Instance of C11: seven rows on three processes, rank 0 owns three. -/
theorem rowPartition_sizes_witness :
    localEnd 7 3 0 - localStart 7 3 0 = 7 / 3 + 1 :=
  (rowPartition_sizes 7 3 0 (by decide) (by decide)).1 (by decide)

theorem fullScanRow_spec {α : Type} [DecidableEq α] (m : Buf α) (n i ls : Nat) :
    (RowSym m n i →
      forLoop (i + 1) n (fun j localSym =>
        if m (i * n + j) ≠ m (j * n + i) then 0 else localSym) ls = ls) ∧
    (¬ RowSym m n i →
      forLoop (i + 1) n (fun j localSym =>
        if m (i * n + j) ≠ m (j * n + i) then 0 else localSym) ls = 0) := by
  rcases Nat.lt_or_ge n (i + 1) with hlt | hle
  · rw [forLoop_ge _ _ (Nat.le_of_lt hlt)]
    refine ⟨fun _ => rfl, fun h => absurd (fun j h1 h2 => by omega) h⟩
  · have key := forLoop_inv
      (fun k (t : Nat) => ((∀ j, i < j → j < k → m (i * n + j) = m (j * n + i)) → t = ls) ∧
        ((∃ j, i < j ∧ j < k ∧ m (i * n + j) ≠ m (j * n + i)) → t = 0))
      (i + 1) n (fun j localSym => if m (i * n + j) ≠ m (j * n + i) then 0 else localSym) ls hle
      ⟨fun _ => rfl, by rintro ⟨j, h1, h2, _⟩; omega⟩
      (by
        intro j t hj1 _ ⟨ih1, ih2⟩
        by_cases hne : m (i * n + j) ≠ m (j * n + i)
        · simp only [hne, if_true]
          exact ⟨fun h => absurd (h j (by omega) (by omega)) hne, fun _ => if_pos hne⟩
        · simp only [hne, if_false]
          refine ⟨fun h => ih1 (fun j' h1 h2 => h j' h1 (by omega)), ?_⟩
          rintro ⟨j', h1, h2, h3⟩
          have : j' ≠ j := fun e => hne (e ▸ h3)
          exact ih2 ⟨j', h1, by omega, h3⟩)
    constructor
    · intro hr
      exact key.1 (fun j h1 h2 => hr j h1 h2)
    · intro hr
      unfold RowSym at hr
      push_neg at hr
      obtain ⟨j, h1, h2, h3⟩ := hr
      exact key.2 ⟨j, h1, h2, h3⟩

theorem localSymFullScan_spec {α : Type} [DecidableEq α] (m : Buf α) (n lo hi : Nat) :
    ((∀ i, lo ≤ i → i < hi → RowSym m n i) → localSymFullScan m n lo hi = 1) ∧
    ((∃ i, lo ≤ i ∧ i < hi ∧ ¬ RowSym m n i) → localSymFullScan m n lo hi = 0) := by
  unfold localSymFullScan
  rcases Nat.lt_or_ge hi lo with hlt | hle
  · rw [forLoop_ge _ _ (Nat.le_of_lt hlt)]
    exact ⟨fun _ => rfl, by rintro ⟨i, h1, h2, _⟩; omega⟩
  · have key := forLoop_inv
      (fun k (t : Nat) => ((∀ i, lo ≤ i → i < k → RowSym m n i) → t = 1) ∧
        ((∃ i, lo ≤ i ∧ i < k ∧ ¬ RowSym m n i) → t = 0))
      lo hi (fun i localSym => forLoop (i + 1) n (fun j localSym =>
        if m (i * n + j) ≠ m (j * n + i) then 0 else localSym) localSym) 1 hle
      ⟨fun _ => rfl, by rintro ⟨i, h1, h2, _⟩; omega⟩
      (by
        intro i t hi1 _ ⟨ih1, ih2⟩
        have hrow := fullScanRow_spec m n i t
        by_cases hr : RowSym m n i
        · simp only [hrow.1 hr]
          refine ⟨fun h => ih1 (fun i' h1 h2 => h i' h1 (by omega)), ?_⟩
          rintro ⟨i', h1, h2, h3⟩
          have : i' ≠ i := fun e => h3 (e ▸ hr)
          exact ih2 ⟨i', h1, by omega, h3⟩
        · simp only [hrow.2 hr]
          exact ⟨fun h => absurd (h i hi1 (Nat.lt_succ_self i)) hr, fun _ => trivial⟩)
    exact key

/-- The local predicate reads only the cells `(i, j)` and `(j, i)` with `i` in
the row range and `j > i`. -/
theorem localSymScan_congr {α : Type} [DecidableEq α] (m m' : Buf α) (n lo hi : Nat)
    (h : ∀ i j, lo ≤ i → i < hi → i < j → j < n →
      m' (i * n + j) = m (i * n + j) ∧ m' (j * n + i) = m (j * n + i)) :
    localSymScan m' n lo hi = localSymScan m n lo hi := by
  have hrow : ∀ i, lo ≤ i → i < hi → (RowSym m' n i ↔ RowSym m n i) := by
    intro i h1 h2
    constructor
    · intro hr j hj1 hj2
      have e := h i j h1 h2 hj1 hj2
      rw [← e.1, ← e.2]
      exact hr j hj1 hj2
    · intro hr j hj1 hj2
      have e := h i j h1 h2 hj1 hj2
      rw [e.1, e.2]
      exact hr j hj1 hj2
  by_cases hall : ∀ i, lo ≤ i → i < hi → RowSym m n i
  · rw [(localSymScan_spec m n lo hi).1 hall,
      (localSymScan_spec m' n lo hi).1 (fun i h1 h2 => (hrow i h1 h2).mpr (hall i h1 h2))]
  · push_neg at hall
    obtain ⟨i, h1, h2, h3⟩ := hall
    rw [(localSymScan_spec m n lo hi).2 ⟨i, h1, h2, h3⟩,
      (localSymScan_spec m' n lo hi).2 ⟨i, h1, h2, fun hr => h3 ((hrow i h1 h2).mp hr)⟩]

/-- C20. Local symmetry predicate with short-circuit: for every row range
`[start, end)` with `start ≤ end ≤ n` the early-exiting double loop of
`checkSymMPI` leaves `localSym = 1` exactly when `M[i*n+j] = M[j*n+i]` for every
`i` in the range and every `j` with `i < j < n`, and 0 otherwise; it equals the
full scan without early exit, and it depends on the matrix only through the
cells `(i, j)` and `(j, i)` with `i` in the range and `j > i`: no diagonal
entry and no row outside the range except in the column reads `M[j*n+i]`. -/
theorem localSymScan_correct {α : Type} [DecidableEq α] (n start stop : Nat) (matrix : Buf α)
    (h1 : start ≤ stop) (h2 : stop ≤ n) :
    (localSymScan matrix n start stop = 1 ↔
      ∀ i j, start ≤ i → i < stop → i < j → j < n → matrix (i * n + j) = matrix (j * n + i)) ∧
    (localSymScan matrix n start stop = 1 ∨ localSymScan matrix n start stop = 0) ∧
    localSymScan matrix n start stop = localSymFullScan matrix n start stop ∧
    (∀ m' : Buf α, (∀ i j, start ≤ i → i < stop → i < j → j < n →
        m' (i * n + j) = matrix (i * n + j) ∧ m' (j * n + i) = matrix (j * n + i)) →
      localSymScan m' n start stop = localSymScan matrix n start stop) := by
  have _ := h1
  have _ := h2
  have hs := localSymScan_spec matrix n start stop
  have hf := localSymFullScan_spec matrix n start stop
  refine ⟨?_, ?_, ?_, fun m' h => localSymScan_congr matrix m' n start stop h⟩
  · constructor
    · intro h i j hi1 hi2 hj1 hj2
      by_contra hne
      have := hs.2 ⟨i, hi1, hi2, fun hr => hne (hr j hj1 hj2)⟩
      omega
    · intro h
      exact hs.1 (fun i hi1 hi2 j hj1 hj2 => h i j hi1 hi2 hj1 hj2)
  · by_cases hall : ∀ i, start ≤ i → i < stop → RowSym matrix n i
    · exact Or.inl (hs.1 hall)
    · push_neg at hall
      exact Or.inr (hs.2 hall)
  · by_cases hall : ∀ i, start ≤ i → i < stop → RowSym matrix n i
    · rw [hs.1 hall, hf.1 hall]
    · push_neg at hall
      rw [hs.2 hall, hf.2 hall]

/-- Instance of C20: rows 1 and 2 of a 4×4 matrix. -/
theorem localSymScan_correct_witness :
    localSymScan (fun k => k) 4 1 3 = localSymFullScan (fun k => k) 4 1 3 :=
  (localSymScan_correct 4 1 3 (fun k => k) (by decide) (by decide)).2.2.1

/-- C18. Reference baseline: for every `n`, every `blockSize ≥ 1` (dividing `n`
or not, larger than `n` or not) and every matrix, `matTransposeBlock` returns
(within `n` iterations of each tile loop), leaves `transposed[j*n + i] = M[i*n + j]`
for all `i, j < n` and so writes every entry of the output, whatever the
buffer held before; the result does not depend on `blockSize` and equals that
of every distributed strategy run under its precondition. -/
theorem matTransposeBlock_correct {α : Type} [Zero α] (n blockSize fuel : Nat)
    (hbs : 1 ≤ blockSize) (hfuel : n ≤ fuel) (matrix transposed : Buf α) :
    ∃ out, matTransposeBlock fuel matrix transposed n blockSize = some out ∧
      (∀ i j, i < n → j < n → out (j * n + i) = matrix (i * n + j)) ∧
      (∀ transposed' : Buf α, ∃ out', matTransposeBlock fuel matrix transposed' n blockSize
          = some out' ∧ ∀ i j, i < n → j < n → out' (i * n + j) = out (i * n + j)) ∧
      (∀ blockSize' fuel' (transposed' : Buf α), 1 ≤ blockSize' → n ≤ fuel' →
        ∃ out', matTransposeBlock fuel' matrix transposed' n blockSize' = some out' ∧
          ∀ i j, i < n → j < n → out' (i * n + j) = out (i * n + j)) ∧
      (∀ (s : Strategy) size (transposed' junk : Buf α), s.Pre size n →
        ∃ out', s.run size n matrix transposed' junk = .ok out' ∧
          ∀ i j, i < n → j < n → out' (i * n + j) = out (i * n + j)) := by
  obtain ⟨out, h1, h2⟩ := matTransposeBlock_spec fuel matrix transposed n blockSize hbs hfuel
  refine ⟨out, h1, h2, fun t' => ?_, fun bs' f' t' hbs' hf' => ?_, fun s size t' junk hpre => ?_⟩
  · obtain ⟨out', h3, h4⟩ := matTransposeBlock_spec fuel matrix t' n blockSize hbs hfuel
    exact ⟨out', h3, fun i j hi hj => by rw [h4 j i hj hi, h2 j i hj hi]⟩
  · obtain ⟨out', h3, h4⟩ := matTransposeBlock_spec f' matrix t' n bs' hbs' hf'
    exact ⟨out', h3, fun i j hi hj => by rw [h4 j i hj hi, h2 j i hj hi]⟩
  · obtain ⟨out', h3, h4⟩ := s.run_spec size n matrix t' junk hpre
    exact ⟨out', h3, fun i j hi hj => by rw [h4 i j hi hj, h2 j i hj hi]⟩

/-- Instance of C18: a 5×5 matrix in tiles of width 2. -/
theorem matTransposeBlock_correct_witness :
    ∃ out, matTransposeBlock 5 (fun k => k + 1) (fun _ => 0) 5 2 = some out ∧
      ∀ i j, i < 5 → j < 5 → out (j * 5 + i) = (fun k => k + 1) (i * 5 + j) := by
  obtain ⟨out, h1, h2, _⟩ := matTransposeBlock_correct 5 2 5 (by decide) (by decide)
    (fun k => k + 1) (fun _ => 0)
  exact ⟨out, h1, h2⟩

/-! ## Concrete scenarios -/

/-- C15. Concrete scenario, 2 processes: for `n = 4`, `size = 2` and the matrix
`[[1,2,3,4],[5,6,7,8],[9,10,11,12],[13,14,15,16]]` each of `matTransposeMPI`,
`matTransposeMPI2` and `matTransposeMPI3` leaves on the root exactly
`[[1,5,9,13],[2,6,10,14],[3,7,11,15],[4,8,12,16]]`. -/
theorem scenario_two_processes (transposed junk : Buf Nat) :
    (List.range 16).map (matTransposeMPI 2 4 scenarioMatrix transposed junk)
      = scenarioTranspose ∧
    (List.range 16).map (matTransposeMPI2 2 4 scenarioMatrix transposed junk)
      = scenarioTranspose ∧
    (List.range 16).map (matTransposeMPI3 2 4 scenarioMatrix transposed junk)
      = scenarioTranspose :=
  ⟨rfl, rfl, rfl⟩

/-- C16. Concrete scenario, 4 processes: for `n = 4`, `size = 4` (a 2×2 grid of
blocks of width 2) and the same matrix, `matTransposeBlockMPI1` and
`matTransposeBlockMPI3` both return, with exactly
`[[1,5,9,13],[2,6,10,14],[3,7,11,15],[4,8,12,16]]` on the root. -/
theorem scenario_four_processes (transposed junk : Buf Nat) :
    (matTransposeBlockMPI1 4 4 scenarioMatrix transposed junk).map
        (fun out => (List.range 16).map out) = .ok scenarioTranspose ∧
    (matTransposeBlockMPI3 4 4 scenarioMatrix transposed junk).map
        (fun out => (List.range 16).map out) = .ok scenarioTranspose :=
  ⟨rfl, rfl⟩

/-! ## Preconditions -/

/-- Two counting loops whose bodies keep a relation between their states keep
it to the end. -/
theorem forLoop_rel {σ τ : Type} (R : σ → τ → Prop) (lo hi : Nat) (f : Nat → σ → σ)
    (g : Nat → τ → τ) (s : σ) (t : τ) (h0 : R s t)
    (hstep : ∀ i x y, R x y → R (f i x) (g i y)) :
    R (forLoop lo hi f s) (forLoop lo hi g t) := by
  unfold forLoop
  induction hi - lo with
  | zero => exact h0
  | succ k ih => exact hstep _ _ _ ih

/-- The collection loop that keeps the buffers ends as the collection loop
does. -/
theorem collectE_endsAs {α : Type} (store : Nat → Nat → Buf α → Buf α → Buf α)
    (sqrtP blockSize : Nat) (localBlock junk : Buf α) (st : CollectState α) :
    EndsAs (collect store sqrtP blockSize localBlock junk st)
      (collectE store sqrtP blockSize localBlock junk st) := by
  unfold collect collectE
  apply forLoop_rel EndsAs
  · rfl
  · intro i x y hxy
    apply forLoop_rel EndsAs
    · exact hxy
    · intro j x' y' h
      obtain ⟨st', e⟩ := y'
      unfold EndsAs at h ⊢
      cases e with
      | some err =>
        simp only at h
        subst h
        rfl
      | none =>
        simp only at h
        subst h
        show collectCell store sqrtP blockSize i j localBlock junk st' = _
        unfold collectCellE
        simp only
        cases collectCell store sqrtP blockSize i j localBlock junk st' <;> rfl

theorem collectE_outcome {α : Type} (store : Nat → Nat → Buf α → Buf α → Buf α)
    (sqrtP blockSize : Nat) (localBlock junk : Buf α) (st : CollectState α) :
    (collect store sqrtP blockSize localBlock junk st).map (fun st => st.transposed)
      = (match (collectE store sqrtP blockSize localBlock junk st).2 with
        | none => .ok (collectE store sqrtP blockSize localBlock junk st).1.transposed
        | some err => .error err) := by
  have h := collectE_endsAs store sqrtP blockSize localBlock junk st
  unfold EndsAs at h
  rw [h]
  cases (collectE store sqrtP blockSize localBlock junk st).2 <;> rfl

theorem matTransposeBlockMPI1_effects_outcome {α : Type} (size n : Nat)
    (matrix transposed junk : Buf α) :
    (matTransposeBlockMPI1_effects size n matrix transposed junk).outcome
      = matTransposeBlockMPI1 size n matrix transposed junk := by
  unfold matTransposeBlockMPI1_effects matTransposeBlockMPI1 GridEffects.outcome
  dsimp only
  by_cases h1 : intSqrt size * intSqrt size ≠ size
  · rw [if_pos h1, if_pos h1]
  · rw [if_neg h1, if_neg h1]
    by_cases h2 : n % intSqrt size ≠ 0
    · rw [if_pos h2, if_pos h2]
    · rw [if_neg h2, if_neg h2, collectE_outcome]

theorem matTransposeBlockMPI3_effects_outcome {α : Type} (size n : Nat)
    (matrix transposed junk : Buf α) :
    (matTransposeBlockMPI3_effects size n matrix transposed junk).outcome
      = matTransposeBlockMPI3 size n matrix transposed junk := by
  unfold matTransposeBlockMPI3_effects matTransposeBlockMPI3 GridEffects.outcome
  dsimp only
  by_cases h1 : intSqrt size * intSqrt size ≠ size
  · rw [if_pos h1, if_pos h1]
  · rw [if_neg h1, if_neg h1]
    by_cases h2 : n % intSqrt size ≠ 0
    · rw [if_pos h2, if_pos h2]
    · rw [if_neg h2, if_neg h2, collectE_outcome]

theorem intSqrt_pos {size : Nat} (hsize : 1 ≤ size) : 1 ≤ intSqrt size := by
  rw [intSqrt_eq_sqrt]
  exact Nat.sqrt_pos.mpr hsize

theorem intSqrt_floor (size : Nat) :
    intSqrt size * intSqrt size ≤ size ∧ size < (intSqrt size + 1) * (intSqrt size + 1) := by
  rw [intSqrt_eq_sqrt]
  exact ⟨Nat.sqrt_le size, Nat.lt_succ_sqrt size⟩

/-- How the two precondition tests decide a call of a grid variant. -/
theorem matTransposeBlockMPI1_cases {α : Type} (size n : Nat) (hsize : 1 ≤ size)
    (matrix transposed junk : Buf α) :
    (intSqrt size * intSqrt size ≠ size →
      matTransposeBlockMPI1 size n matrix transposed junk = .error .notPerfectSquare) ∧
    (intSqrt size * intSqrt size = size → n % intSqrt size ≠ 0 →
      matTransposeBlockMPI1 size n matrix transposed junk = .error .notDivisible) ∧
    (intSqrt size * intSqrt size = size → n % intSqrt size = 0 →
      ∃ out, matTransposeBlockMPI1 size n matrix transposed junk = .ok out) := by
  refine ⟨fun h1 => ?_, fun h1 h2 => ?_, fun h1 h2 => ?_⟩
  · unfold matTransposeBlockMPI1
    dsimp only
    rw [if_pos h1]
  · unfold matTransposeBlockMPI1
    dsimp only
    rw [if_neg (not_not.mpr h1), if_pos h2]
  · obtain ⟨out, h, _⟩ := matTransposeBlockMPI1_spec (intSqrt size) n matrix transposed junk
      (intSqrt_pos hsize) h2
    rw [h1] at h
    exact ⟨out, h⟩

/-- C12. Grid precondition enforcement: with `q = intSqrt size` the integer part
of the square root of the process count, `matTransposeBlockMPI1` and
`matTransposeBlockMPI3` abort if and only if `q*q ≠ size` or `n % q ≠ 0`, the
perfect-square test deciding first; on abort no message has been sent and
`transposed` holds what it held before the call; when neither condition holds
the call returns without error. -/
theorem grid_precondition_enforced {α : Type} (size n : Nat) (hsize : 1 ≤ size)
    (matrix transposed junk : Buf α) :
    (intSqrt size * intSqrt size ≤ size ∧ size < (intSqrt size + 1) * (intSqrt size + 1)) ∧
    (intSqrt size * intSqrt size ≠ size →
      matTransposeBlockMPI1 size n matrix transposed junk = .error .notPerfectSquare ∧
      matTransposeBlockMPI3 size n matrix transposed junk = .error .notPerfectSquare) ∧
    (intSqrt size * intSqrt size = size → n % intSqrt size ≠ 0 →
      matTransposeBlockMPI1 size n matrix transposed junk = .error .notDivisible ∧
      matTransposeBlockMPI3 size n matrix transposed junk = .error .notDivisible) ∧
    (intSqrt size * intSqrt size = size → n % intSqrt size = 0 →
      ∃ out, matTransposeBlockMPI1 size n matrix transposed junk = .ok out ∧
        matTransposeBlockMPI3 size n matrix transposed junk = .ok out) ∧
    ((∃ e, matTransposeBlockMPI1 size n matrix transposed junk = .error e) ↔
      (intSqrt size * intSqrt size ≠ size ∨ n % intSqrt size ≠ 0)) ∧
    ((matTransposeBlockMPI1_effects size n matrix transposed junk).outcome
        = matTransposeBlockMPI1 size n matrix transposed junk ∧
      (matTransposeBlockMPI3_effects size n matrix transposed junk).outcome
        = matTransposeBlockMPI3 size n matrix transposed junk) ∧
    ((intSqrt size * intSqrt size ≠ size ∨ n % intSqrt size ≠ 0) →
      ((matTransposeBlockMPI1_effects size n matrix transposed junk).transposed = transposed ∧
        (matTransposeBlockMPI1_effects size n matrix transposed junk).mail = fun _ => []) ∧
      ((matTransposeBlockMPI3_effects size n matrix transposed junk).transposed = transposed ∧
        (matTransposeBlockMPI3_effects size n matrix transposed junk).mail = fun _ => [])) := by
  have hc := matTransposeBlockMPI1_cases size n hsize matrix transposed junk
  have h13 := matTransposeBlockMPI1_eq_MPI3 size n matrix transposed junk
  refine ⟨intSqrt_floor size, fun h1 => ?_, fun h1 h2 => ?_, fun h1 h2 => ?_, ?_,
    ⟨matTransposeBlockMPI1_effects_outcome size n matrix transposed junk,
      matTransposeBlockMPI3_effects_outcome size n matrix transposed junk⟩, fun h => ?_⟩
  · exact ⟨hc.1 h1, by rw [← h13]; exact hc.1 h1⟩
  · exact ⟨hc.2.1 h1 h2, by rw [← h13]; exact hc.2.1 h1 h2⟩
  · obtain ⟨out, h⟩ := hc.2.2 h1 h2
    exact ⟨out, h, by rw [← h13]; exact h⟩
  · constructor
    · rintro ⟨e, he⟩
      by_contra hn
      push_neg at hn
      obtain ⟨out, h⟩ := hc.2.2 hn.1 hn.2
      rw [h] at he
      exact absurd he (by simp)
    · intro h
      by_cases h1 : intSqrt size * intSqrt size ≠ size
      · exact ⟨_, hc.1 h1⟩
      · rcases h with h | h
        · exact absurd h h1
        · exact ⟨_, hc.2.1 (not_not.mp h1) h⟩
  · unfold matTransposeBlockMPI1_effects matTransposeBlockMPI3_effects
    dsimp only
    by_cases h1 : intSqrt size * intSqrt size ≠ size
    · rw [if_pos h1, if_pos h1]
      exact ⟨⟨rfl, rfl⟩, rfl, rfl⟩
    · rcases h with h | h
      · exact absurd h h1
      · rw [if_neg h1, if_neg h1, if_pos h, if_pos h]
        exact ⟨⟨rfl, rfl⟩, rfl, rfl⟩

/-- Instance of C12: five processes are not a perfect square. -/
theorem grid_precondition_enforced_witness :
    matTransposeBlockMPI1 5 6 (fun k => k + 1) (fun _ => 0) (fun _ => 0)
        = .error .notPerfectSquare ∧
      matTransposeBlockMPI3 5 6 (fun k => k + 1) (fun _ => 0) (fun _ => 0)
        = .error .notPerfectSquare :=
  (grid_precondition_enforced 5 6 (by decide) (fun k => k + 1) (fun _ => 0)
    (fun _ => 0)).2.1 (by decide)

/-- Counterexample to C13 as stated: four rows on three processes, where
`4 % 3 ≠ 0`. Each of the three row-based strategies returns without an error
outcome, and cell 1 of the output, 0 before the call, holds 5 after it. -/
theorem rowStrategies_no_divisibility_check :
    4 % 3 ≠ 0 ∧
    (∃ out, Strategy.broadcast.run 3 4 scenarioMatrix (fun _ => 0) (fun _ => 0) = .ok out ∧
      out 1 = 5 ∧ out 1 ≠ (fun _ => 0) 1) ∧
    (∃ out, Strategy.columnGather.run 3 4 scenarioMatrix (fun _ => 0) (fun _ => 0) = .ok out ∧
      out 1 = 5 ∧ out 1 ≠ (fun _ => 0) 1) ∧
    (∃ out, Strategy.pairwise.run 3 4 scenarioMatrix (fun _ => 0) (fun _ => 0) = .ok out ∧
      out 1 = 5 ∧ out 1 ≠ (fun _ => 0) 1) :=
  ⟨by decide, ⟨_, rfl, by decide, by decide⟩, ⟨_, rfl, by decide, by decide⟩,
    ⟨_, rfl, by decide, by decide⟩⟩

/-- C13, amended. For every `n` and `size ≥ 1` with `n % size ≠ 0`, none of
`matTransposeMPI`, `matTransposeMPI2` and `matTransposeMPI3` checks
divisibility: each run completes without an error outcome, computing with
`L = n / size`, and leaves `transposed[i*n + j] = M[j*n + i]` for all
`i, j < size*L`. -/
theorem rowStrategies_without_divisibility {α : Type} [Zero α] (n size : Nat) (s : Strategy)
    (hsize : 1 ≤ size) (hnd : n % size ≠ 0)
    (hs : s = .broadcast ∨ s = .columnGather ∨ s = .pairwise)
    (matrix transposed junk : Buf α) :
    ∃ out, s.run size n matrix transposed junk = .ok out ∧
      ∀ i j, i < size * (n / size) → j < size * (n / size) →
        out (i * n + j) = matrix (j * n + i) := by
  have _ := hsize
  have _ := hnd
  have hn : size * (n / size) ≤ n := Nat.mul_div_le n size
  rcases hs with rfl | rfl | rfl
  · exact ⟨_, rfl, fun i j hi hj =>
      matTransposeMPI_rows size n matrix transposed junk hi (by omega)⟩
  · exact ⟨_, rfl, fun i j hi hj =>
      matTransposeMPI2_cols size n matrix transposed junk (by omega) hj⟩
  · exact ⟨_, rfl, fun i j hi hj =>
      matTransposeMPI3_block size n matrix transposed junk hi hj⟩

/-- Instance of C13, amended: five rows on two processes with the pairwise
exchange. -/
theorem rowStrategies_without_divisibility_witness :
    ∃ out, Strategy.pairwise.run 2 5 (fun k => k + 1) (fun _ => 0) (fun _ => 0) = .ok out ∧
      ∀ i j, i < 2 * (5 / 2) → j < 2 * (5 / 2) →
        out (i * 5 + j) = (fun k => k + 1) (j * 5 + i) :=
  rowStrategies_without_divisibility 5 2 .pairwise (by decide) (by decide)
    (Or.inr (Or.inr rfl)) (fun k => k + 1) (fun _ => 0) (fun _ => 0)

/-! ## The partial checksum -/

theorem forLoop_add_sum {α : Type} [AddCommMonoid α] (n : Nat) (f : Nat → α) (s0 : α) :
    forLoop 0 n (fun j s => s + f j) s0 = s0 + (Finset.range n).sum f := by
  induction n with
  | zero => simp [forLoop, iterate]
  | succ k ih => rw [forLoop_zero_succ, ih, Finset.sum_range_succ, add_assoc]

theorem forLoop_three {σ : Type} (body : Nat → σ → σ) (s : σ) :
    forLoop 0 3 body s = body 2 (body 1 (body 0 s)) := rfl

/-- The checksum is the sum of the weighted sums of the three selected rows and
of the three selected columns. -/
theorem partialChecksum_eq {α : Type} [Semiring α] (matrix : Buf α) (n : Nat) (hn : 1 ≤ n) :
    partialChecksum matrix n
      = rowPart matrix n 0 + rowPart matrix n (n / 2) + rowPart matrix n (n - 1)
        + colPart matrix n 0 + colPart matrix n (n / 2) + colPart matrix n (n - 1) := by
  have hrow : ∀ i (s : α), (if 0 ≤ i ∧ i < n then
      forLoop 0 n (fun j sum => sum + ((i + 1 : Nat) : α) * matrix (i * n + j)) s else s)
      = s + rowPart matrix n i := by
    intro i s
    unfold rowPart
    by_cases h : i < n
    · rw [if_pos ⟨Nat.zero_le i, h⟩, if_pos h, forLoop_add_sum]
    · rw [if_neg (fun hh => h hh.2), if_neg h, add_zero]
  have hcol : ∀ j (s : α), (if 0 ≤ j ∧ j < n then
      forLoop 0 n (fun i sum => sum + ((j + 1 : Nat) : α) * matrix (i * n + j)) s else s)
      = s + colPart matrix n j := by
    intro j s
    unfold colPart
    by_cases h : j < n
    · rw [if_pos ⟨Nat.zero_le j, h⟩, if_pos h, forLoop_add_sum]
    · rw [if_neg (fun hh => h hh.2), if_neg h, add_zero]
  unfold partialChecksum
  rw [if_neg (by omega)]
  dsimp only
  rw [forLoop_three, forLoop_three]
  simp only [List.getD_cons_zero, List.getD_cons_succ, hrow, hcol, zero_add]

theorem rowPart_transpose {α : Type} [Semiring α] (m t : Buf α) (n : Nat)
    (ht : ∀ i j, i < n → j < n → t (i * n + j) = m (j * n + i)) (i : Nat) :
    rowPart t n i = colPart m n i ∧ colPart t n i = rowPart m n i := by
  unfold rowPart colPart
  by_cases h : i < n
  · simp only [if_pos h]
    constructor
    · apply Finset.sum_congr rfl
      intro j hj
      rw [ht i j h (Finset.mem_range.mp hj)]
    · apply Finset.sum_congr rfl
      intro j hj
      rw [ht j i (Finset.mem_range.mp hj) h]
  · simp only [if_neg h]
    exact ⟨trivial, trivial⟩

theorem partialChecksum_transpose {α : Type} [Semiring α] (m t : Buf α) (n : Nat) (hn : 1 ≤ n)
    (ht : ∀ i j, i < n → j < n → t (i * n + j) = m (j * n + i)) :
    partialChecksum t n = partialChecksum m n := by
  rw [partialChecksum_eq t n hn, partialChecksum_eq m n hn,
    (rowPart_transpose m t n ht 0).1, (rowPart_transpose m t n ht (n / 2)).1,
    (rowPart_transpose m t n ht (n - 1)).1, (rowPart_transpose m t n ht 0).2,
    (rowPart_transpose m t n ht (n / 2)).2, (rowPart_transpose m t n ht (n - 1)).2]
  abel

/-- C17, evaluated where the code falls short of it. The 2×2 matrix
`[[0,1],[0,0]]` is not symmetric, yet the checksum of the matrix and the
checksum of its transpose, as `matTransposeMPI` computes it, are both 5. -/
theorem partialChecksum_blind :
    ¬ Symmetric (fun k => [(0 : Int), 1, 0, 0].getD k 0) 2 ∧
    partialChecksum (fun k => [(0 : Int), 1, 0, 0].getD k 0) 2 = 5 ∧
    partialChecksum (matTransposeMPI 1 2 (fun k => [(0 : Int), 1, 0, 0].getD k 0)
      (fun _ => 0) (fun _ => 0)) 2 = 5 := by
  refine ⟨fun h => ?_, by decide, by decide⟩
  have := h 0 1 (by decide) (by decide)
  revert this
  decide

/-- C26. Transpose-invariance of the checksum: for every `n ≥ 1` and every
matrix, symmetric or not, in exact arithmetic the checksum of the transposed
matrix equals the checksum of the matrix; the checksum is the sum of the
weighted sums of rows `0, n/2, n-1` and of columns `0, n/2, n-1`, with the
weight `index + 1` for both. -/
theorem partialChecksum_transpose_invariant {α : Type} [Semiring α] (n : Nat) (hn : 1 ≤ n)
    (matrix transposed : Buf α)
    (ht : ∀ i j, i < n → j < n → transposed (i * n + j) = matrix (j * n + i)) :
    partialChecksum transposed n = partialChecksum matrix n ∧
    partialChecksum matrix n
      = rowPart matrix n 0 + rowPart matrix n (n / 2) + rowPart matrix n (n - 1)
        + colPart matrix n 0 + colPart matrix n (n / 2) + colPart matrix n (n - 1) :=
  ⟨partialChecksum_transpose matrix transposed n hn ht, partialChecksum_eq matrix n hn⟩

/-- Instance of C26: a 3×3 integer matrix and its transpose by
`matTransposeMPI` on one process. -/
theorem partialChecksum_transpose_invariant_witness :
    partialChecksum (matTransposeMPI 1 3 (fun k => (k : Int)) (fun _ => 0) (fun _ => 0)) 3
      = partialChecksum (fun k => (k : Int)) 3 :=
  (partialChecksum_transpose_invariant 3 (by decide) (fun k => (k : Int))
    (matTransposeMPI 1 3 (fun k => (k : Int)) (fun _ => 0) (fun _ => 0))
    (fun i j hi hj => matTransposeMPI_spec 1 3 (fun k => (k : Int)) (fun _ => 0) (fun _ => 0)
      (by decide) hi hj)).1

/-! ## Reduction step -/

/-- C21. Reduction step of the symmetry check: for every `size ≥ 1` and every
vector of local predicates in `{0, 1}` the minimum computed by the all-reduce
is their logical AND, 1 if and only if every local predicate is 1 and 0
otherwise, and `checkSymMPI` returns that value on every rank. -/
theorem allreduce_min_is_and {α : Type} [DecidableEq α] (size : Nat) (vals : Nat → Nat)
    (hsize : 1 ≤ size) (hvals : ∀ r, r < size → vals r = 0 ∨ vals r = 1) :
    (MPI_Allreduce_min size vals = 1 ↔ ∀ r, r < size → vals r = 1) ∧
    (MPI_Allreduce_min size vals = 1 ∨ MPI_Allreduce_min size vals = 0) ∧
    (∀ (n rank rank' : Nat) (matrix junk : Buf α),
      checkSymMPI size n rank matrix junk
        = MPI_Allreduce_min size (fun r => checkSymMPI_local size n r matrix junk) ∧
      checkSymMPI size n rank matrix junk = checkSymMPI size n rank' matrix junk) := by
  have h := MPI_Allreduce_min_spec size vals hsize
  have hcase : (∀ r, r < size → vals r = 1) ∨ ∃ r, r < size ∧ vals r = 0 := by
    by_cases hall : ∀ r, r < size → vals r = 1
    · exact Or.inl hall
    · push_neg at hall
      obtain ⟨r, hr, hne⟩ := hall
      rcases hvals r hr with h0 | h1
      · exact Or.inr ⟨r, hr, h0⟩
      · exact absurd h1 hne
  refine ⟨⟨fun h1 => ?_, h.1⟩, ?_, fun n rank rank' matrix junk => ⟨rfl, rfl⟩⟩
  · rcases hcase with hall | hex
    · exact hall
    · rw [h.2 hex] at h1
      exact absurd h1 (by decide)
  · rcases hcase with hall | hex
    · exact Or.inl (h.1 hall)
    · exact Or.inr (h.2 hex)

/-- Instance of C21: three ranks, the middle one has found a mismatch. -/
theorem allreduce_min_is_and_witness :
    MPI_Allreduce_min 3 (fun r => if r = 1 then 0 else 1) = 1 ∨
      MPI_Allreduce_min 3 (fun r => if r = 1 then 0 else 1) = 0 :=
  (allreduce_min_is_and (α := Nat) 3 (fun r => if r = 1 then 0 else 1) (by decide)
    (by intro r _; by_cases h : r = 1 <;> simp [h])).2.1

/-! ## Behaviour without divisibility -/

theorem MPI_Gather_frame {α : Type} (size count : Nat) (sendbuf : Nat → Buf α)
    (recvbuf : Buf α) {k : Nat} (hk : size * count ≤ k) :
    MPI_Gather size count sendbuf recvbuf k = recvbuf k := by
  unfold MPI_Gather
  rw [if_neg (by omega)]

/-- C27. Broadcast-Transpose without divisibility: for every `n` and `size ≥ 1`
with `n % size ≠ 0`, `matTransposeMPI` signals no error; with `L = n / size` it
leaves `transposed[i*n + j] = M[j*n + i]` for `i < size*L` and all `j < n`, and
the last `n % size` rows of the output, all cells from `size*L*n` on, keep
their previous contents. -/
theorem matTransposeMPI_without_divisibility {α : Type} [Zero α] (n size : Nat)
    (hsize : 1 ≤ size) (hnd : n % size ≠ 0) (matrix transposed junk : Buf α) :
    Strategy.broadcast.run size n matrix transposed junk
      = .ok (matTransposeMPI size n matrix transposed junk) ∧
    (∀ i j, i < size * (n / size) → j < n →
      matTransposeMPI size n matrix transposed junk (i * n + j) = matrix (j * n + i)) ∧
    (∀ i j, size * (n / size) ≤ i → j < n →
      matTransposeMPI size n matrix transposed junk (i * n + j) = transposed (i * n + j)) ∧
    (∀ k, size * (n / size) * n ≤ k →
      matTransposeMPI size n matrix transposed junk k = transposed k) ∧
    n - size * (n / size) = n % size := by
  have _ := hsize
  have _ := hnd
  have hframe : ∀ k, size * (n / size) * n ≤ k →
      matTransposeMPI size n matrix transposed junk k = transposed k := by
    intro k hk
    unfold matTransposeMPI
    exact MPI_Gather_frame _ _ _ _ (by rw [← Nat.mul_assoc]; exact hk)
  refine ⟨rfl, fun i j hi hj => matTransposeMPI_rows size n matrix transposed junk hi hj,
    fun i j hi _ => hframe _ ?_, hframe, ?_⟩
  · have : size * (n / size) * n ≤ i * n := Nat.mul_le_mul_right n hi
    omega
  · have := Nat.div_add_mod n size
    omega

/-- Instance of C27: five rows on two processes, the last row keeps its
content. -/
theorem matTransposeMPI_without_divisibility_witness :
    matTransposeMPI 2 5 (fun k => k + 1) (fun _ => 7) (fun _ => 0) (4 * 5 + 2)
      = (fun _ => 7) (4 * 5 + 2) :=
  (matTransposeMPI_without_divisibility 5 2 (by decide) (by decide) (fun k => k + 1)
    (fun _ => 7) (fun _ => 0)).2.2.1 4 2 (by decide) (by decide)

/-- C28. Pairwise exchange without divisibility: for every `n` and `size ≥ 1`
with `n % size ≠ 0`, `matTransposeMPI3` signals no error; with `L = n / size` it
leaves `transposed[i*n + j] = M[j*n + i]` for `i, j < size*L`, the value 0 for
`i < size*L` and `size*L ≤ j < n`, the part of the zero-initialised `localT` no
block step writes, and the output rows from `size*L` on as they were. -/
theorem matTransposeMPI3_without_divisibility {α : Type} [Zero α] (n size : Nat)
    (hsize : 1 ≤ size) (hnd : n % size ≠ 0) (matrix transposed junk : Buf α) :
    Strategy.pairwise.run size n matrix transposed junk
      = .ok (matTransposeMPI3 size n matrix transposed junk) ∧
    (∀ i j, i < size * (n / size) → j < size * (n / size) →
      matTransposeMPI3 size n matrix transposed junk (i * n + j) = matrix (j * n + i)) ∧
    (∀ i j, i < size * (n / size) → size * (n / size) ≤ j → j < n →
      matTransposeMPI3 size n matrix transposed junk (i * n + j) = 0) ∧
    (∀ k, size * (n / size) * n ≤ k →
      matTransposeMPI3 size n matrix transposed junk k = transposed k) := by
  have _ := hsize
  have _ := hnd
  have hn : size * (n / size) ≤ n := Nat.mul_div_le n size
  refine ⟨rfl, fun i j hi hj => matTransposeMPI3_block size n matrix transposed junk hi hj,
    fun i j hi hj1 hj2 => ?_, fun k hk => ?_⟩
  · obtain ⟨r, a, hr, ha, rfl⟩ := block_split hi
    unfold matTransposeMPI3
    have e : (r * (n / size) + a) * n + j = r * (n / size * n) + (a * n + j) := by ring
    rw [e, MPI_Gather_at _ _ _ _ hr (block_lt ha hj2)]
    refine (matTransposeMPI3_localT_writes size n r matrix junk hr (fun _ => 0)
      (a * n + j)).2 ?_
    rintro ⟨k, hk, a', _, _, b, _, hb, he⟩
    have hlt : k * (n / size) + b < size * (n / size) := block_lt hk hb
    have := (rowmajor_inj hj2 (by omega) he).2
    omega
  · unfold matTransposeMPI3
    exact MPI_Gather_frame _ _ _ _ (by rw [← Nat.mul_assoc]; exact hk)

/-- Instance of C28: five rows on two processes, column 4 of row 0 is zero. -/
theorem matTransposeMPI3_without_divisibility_witness :
    matTransposeMPI3 2 5 (fun k => k + 1) (fun _ => 7) (fun _ => 9) (0 * 5 + 4) = 0 :=
  (matTransposeMPI3_without_divisibility 5 2 (by decide) (by decide) (fun k => k + 1)
    (fun _ => 7) (fun _ => 9)).2.2.1 0 4 (by decide) (by decide) (by decide)

/-! ## Grid distribution and pairing of the exchange -/

theorem receiveBlock_spec {α : Type} (q B : Nat) (tb : Nat → Nat → Buf α) (junk : Buf α)
    (hq : 0 < q) {r : Nat} (hr : r < q * q) :
    ∃ lb, receiveBlock B r (forLoop 0 q (fun i st => forLoop 0 q (fun j st =>
        distributeCell q B i j (tb i j) st) st)
          ({ localBlock := junk, mail := fun _ => [] } : DistState α)) junk = some lb ∧
      ∀ k, k < B * B → lb k = tb (r / q) (r % q) k := by
  obtain ⟨hmail, hlb⟩ := distribute_spec q B tb junk hq
  unfold receiveBlock
  by_cases h0 : r = 0
  · subst h0
    rw [if_pos rfl]
    refine ⟨_, rfl, fun k hk => ?_⟩
    rw [hlb k hk]
    simp
  · rw [if_neg h0, hmail r, if_pos ⟨by omega, hr⟩]
    refine ⟨_, rfl, fun k hk => ?_⟩
    simp only [MPI_Recv]
    rw [if_pos hk]

/-- C22. Grid distribution: for `size = q*q` with `q ≥ 1` and `q` dividing `n`,
the map `(i, j) ↦ i*q + j` the root uses is a bijection from the grid cells onto
the ranks below `size`, with inverse `rank ↦ (rank / q, rank % q)`, and after
the distribution the block held by rank `r` satisfies
`localBlock[a*B + b] = M[((r/q)*B + a)*n + (r%q)*B + b]` for all `a, b < B = n/q`,
in both variants; the root holds the self-copied block of cell `(0, 0)`. -/
theorem grid_distribution {α : Type} (n q : Nat) (hq : 1 ≤ q) (hdiv : n % q = 0)
    (matrix junk : Buf α) :
    (∀ i j, i < q → j < q → i * q + j < q * q ∧ (i * q + j) / q = i ∧ (i * q + j) % q = j) ∧
    (∀ r, r < q * q → r / q < q ∧ r % q < q ∧ (r / q) * q + r % q = r) ∧
    (∀ r, r < q * q →
      ∃ lb, receiveBlock (n / q) r (distribute1 n q (n / q) matrix junk) junk = some lb ∧
        ∀ a b, a < n / q → b < n / q →
          lb (a * (n / q) + b) = matrix (((r / q) * (n / q) + a) * n + (r % q) * (n / q) + b)) ∧
    (∀ r, r < q * q →
      ∃ lb, receiveBlock (n / q) r (distribute3 n q (n / q) matrix junk) junk = some lb ∧
        ∀ a b, a < n / q → b < n / q →
          lb (a * (n / q) + b) = matrix (((r / q) * (n / q) + a) * n + (r % q) * (n / q) + b)) ∧
    receiveBlock (n / q) 0 (distribute1 n q (n / q) matrix junk) junk
      = some (distribute1 n q (n / q) matrix junk).localBlock := by
  have _ := hdiv
  have h1 : ∀ r, r < q * q →
      ∃ lb, receiveBlock (n / q) r (distribute1 n q (n / q) matrix junk) junk = some lb ∧
        ∀ a b, a < n / q → b < n / q →
          lb (a * (n / q) + b)
            = matrix (((r / q) * (n / q) + a) * n + (r % q) * (n / q) + b) := by
    intro r hr
    obtain ⟨lb, h, hv⟩ := receiveBlock_spec q (n / q)
      (fun i j => extractBlock1 n (n / q) i j matrix junk) junk hq hr
    refine ⟨lb, h, fun a b ha hb => ?_⟩
    rw [hv _ (block_lt ha hb), extractBlock1_at _ _ _ _ _ _ ha hb, Nat.add_assoc]
  refine ⟨fun i j hi hj => ⟨block_lt hi hj, rm_div hj, rm_mod hj⟩, fun r hr => ?_, h1, ?_, rfl⟩
  · refine ⟨(Nat.div_lt_iff_lt_mul hq).mpr hr, Nat.mod_lt _ hq, ?_⟩
    have := Nat.div_add_mod r q
    rw [Nat.mul_comm] at this
    exact this
  · have e : distribute3 n q (n / q) matrix junk = distribute1 n q (n / q) matrix junk := by
      unfold distribute1 distribute3
      simp only [extractBlock1_eq_extractBlock3]
    rw [e]
    exact h1

/-- Instance of C22: a 4×4 matrix on a 2×2 grid, rank 3. -/
theorem grid_distribution_witness :
    ∃ lb, receiveBlock (4 / 2) 3 (distribute1 4 2 (4 / 2) (fun k => k + 1) (fun _ => 0))
        (fun _ => 0) = some lb ∧
      ∀ a b, a < 4 / 2 → b < 4 / 2 →
        lb (a * (4 / 2) + b)
          = (fun k => k + 1) (((3 / 2) * (4 / 2) + a) * 4 + (3 % 2) * (4 / 2) + b) :=
  (grid_distribution 4 2 (by decide) (by decide) (fun k => k + 1) (fun _ => 0)).2.2.1 3
    (by decide)

theorem exchangeOps_closed (size n p : Nat) :
    exchangeOps size n p
      = ((List.range size).filter (fun k => decide (k ≠ p))).flatMap (fun k =>
          [CommOp.isend k (n / size * (n / size)) 999,
            CommOp.irecv k (n / size * (n / size)) 999]) := by
  unfold exchangeOps
  dsimp only
  generalize n / size * (n / size) = cnt
  induction size with
  | zero => rfl
  | succ m ih =>
    rw [forLoop_zero_succ, ih, List.range_succ, List.filter_append, List.flatMap_append]
    by_cases e : m = p
    · simp [e]
    · simp [e]

theorem exchangeOps_counts (size n p : Nat) (d : Nat) :
    (exchangeOps size n p).countP (CommOp.isSendTo d) = (if d < size ∧ d ≠ p then 1 else 0) ∧
    (exchangeOps size n p).countP (CommOp.isRecvFrom d)
      = (if d < size ∧ d ≠ p then 1 else 0) := by
  unfold exchangeOps
  dsimp only
  generalize n / size * (n / size) = cnt
  induction size with
  | zero => simp [forLoop, iterate]
  | succ m ih =>
    rw [forLoop_zero_succ]
    by_cases e : m = p
    · rw [if_pos e, ih.1, ih.2]
      have hiff : (d < m + 1 ∧ d ≠ p) ↔ (d < m ∧ d ≠ p) := by
        constructor
        · rintro ⟨h1, h2⟩; exact ⟨by omega, h2⟩
        · rintro ⟨h1, h2⟩; exact ⟨by omega, h2⟩
      simp only [hiff, and_self]
    · rw [if_neg e, List.countP_append, List.countP_append, ih.1, ih.2]
      by_cases hd : d = m
      · subst hd
        simp [CommOp.isSendTo, CommOp.isRecvFrom, e]
      · have hiff : (d < m + 1 ∧ d ≠ p) ↔ (d < m ∧ d ≠ p) := by
          constructor
          · rintro ⟨h1, h2⟩; exact ⟨by omega, h2⟩
          · rintro ⟨h1, h2⟩; exact ⟨by omega, h2⟩
        have hne : ¬ m = d := fun h => hd h.symm
        simp [CommOp.isSendTo, CommOp.isRecvFrom, hiff, hne]

/-- The block rank `p` receives in iteration `k` is the one `k` extracted for
`p`. -/
theorem exchangeStep_recvBuf {α : Type} (size n p k : Nat) (matrix junk : Buf α)
    (hp : p < size) (hne : k ≠ p) (st : ExState α) {r c : Nat}
    (hr : r < n / size) (hc : c < n / size) :
    (exchangeStep n (n / size) p (fun q => MPI_Scatter matrix (n / size * n) q junk) junk k
        st).recvBuf (r * (n / size) + c)
      = matrix ((k * (n / size) + r) * n + p * (n / size) + c) := by
  have hn : size * (n / size) ≤ n := Nat.mul_div_le n size
  have hcol : p * (n / size) + c < n := Nat.lt_of_lt_of_le (block_lt hp hc) hn
  unfold exchangeStep
  rw [if_neg hne]
  simp only [MPI_Recv]
  rw [if_pos (block_lt hr hc), sendBufAfter_at _ _ _ _ _ _ (Ne.symm hne) hr hc,
    MPI_Scatter_at _ _ _ _ (block_lt hr hcol)]
  congr 1
  ring

/-- C23. Pairing of sends and receives in the pairwise exchange: every rank
posts its calls in the order of the peers `k = 0, 1, ..., size-1`; for every
ordered pair `(p, k)` with `p ≠ k` there is exactly one send from `p` to `k` and
exactly one receive posted by `k` from `p`, both of `(n/size)²` elements with tag
999; no rank sends to or receives from itself; and the block `p` receives from
`k` is the one `k` extracted for `p`:
`recvBuf[r*L + c] = M[(k*L + r)*n + p*L + c]` with `L = n/size`. -/
theorem exchange_pairing {α : Type} (n size : Nat) (hsize : 1 ≤ size) (matrix junk : Buf α) :
    (∀ p, exchangeOps size n p
      = ((List.range size).filter (fun k => decide (k ≠ p))).flatMap (fun k =>
          [CommOp.isend k (n / size * (n / size)) 999,
            CommOp.irecv k (n / size * (n / size)) 999])) ∧
    (∀ p k, p < size → k < size → p ≠ k →
      (exchangeOps size n p).countP (CommOp.isSendTo k) = 1 ∧
      (exchangeOps size n k).countP (CommOp.isRecvFrom p) = 1 ∧
      CommOp.isend k (n / size * (n / size)) 999 ∈ exchangeOps size n p ∧
      CommOp.irecv p (n / size * (n / size)) 999 ∈ exchangeOps size n k) ∧
    (∀ p, (exchangeOps size n p).countP (CommOp.isSendTo p) = 0 ∧
      (exchangeOps size n p).countP (CommOp.isRecvFrom p) = 0) ∧
    (∀ p op, op ∈ exchangeOps size n p → ∃ k, k < size ∧ k ≠ p ∧
      (op = CommOp.isend k (n / size * (n / size)) 999 ∨
        op = CommOp.irecv k (n / size * (n / size)) 999)) ∧
    (∀ p k r c (st : ExState α), p < size → k < size → k ≠ p → r < n / size → c < n / size →
      (exchangeStep n (n / size) p (fun q => MPI_Scatter matrix (n / size * n) q junk) junk k
          st).recvBuf (r * (n / size) + c)
        = matrix ((k * (n / size) + r) * n + p * (n / size) + c)) := by
  have _ := hsize
  have hmem : ∀ p op, op ∈ exchangeOps size n p ↔ ∃ k, k < size ∧ k ≠ p ∧
      (op = CommOp.isend k (n / size * (n / size)) 999 ∨
        op = CommOp.irecv k (n / size * (n / size)) 999) := by
    intro p op
    rw [exchangeOps_closed, List.mem_flatMap]
    constructor
    · rintro ⟨k, hk, hop⟩
      rw [List.mem_filter, List.mem_range] at hk
      refine ⟨k, hk.1, by simpa using hk.2, ?_⟩
      simpa using hop
    · rintro ⟨k, hk1, hk2, hop⟩
      refine ⟨k, ?_, by simpa using hop⟩
      rw [List.mem_filter, List.mem_range]
      exact ⟨hk1, by simpa using hk2⟩
  refine ⟨fun p => exchangeOps_closed size n p, fun p k hp hk hne => ?_, fun p => ?_,
    fun p op h => (hmem p op).mp h,
    fun p k r c st hp _ hne hr hc => exchangeStep_recvBuf size n p k matrix junk hp hne st hr hc⟩
  · refine ⟨?_, ?_, (hmem p _).mpr ⟨k, hk, fun e => hne e.symm, Or.inl rfl⟩,
      (hmem k _).mpr ⟨p, hp, hne, Or.inr rfl⟩⟩
    · rw [(exchangeOps_counts size n p k).1, if_pos ⟨hk, fun e => hne e.symm⟩]
    · rw [(exchangeOps_counts size n k p).2, if_pos ⟨hp, hne⟩]
  · rw [(exchangeOps_counts size n p p).1, (exchangeOps_counts size n p p).2,
      if_neg (fun h => h.2 rfl)]
    exact ⟨rfl, rfl⟩

/-- Instance of C23: three ranks, the send from rank 2 to rank 0. -/
theorem exchange_pairing_witness :
    (exchangeOps 3 6 2).countP (CommOp.isSendTo 0) = 1 ∧
      (exchangeOps 3 6 0).countP (CommOp.isRecvFrom 2) = 1 ∧
      CommOp.isend 0 (6 / 3 * (6 / 3)) 999 ∈ exchangeOps 3 6 2 ∧
      CommOp.irecv 2 (6 / 3 * (6 / 3)) 999 ∈ exchangeOps 3 6 0 :=
  (exchange_pairing 6 3 (by decide) (fun k => k + 1) (fun _ => 0)).2.1 2 0 (by decide)
    (by decide) (by decide)

/-! ## Loops with a stride -/

theorem strideFrom_ge {σ : Type} (hi step : Nat) (body : Nat → σ → σ) (fuel : Nat) {i : Nat}
    (s : σ) (h : hi ≤ i) : strideFrom hi step body fuel i s = s := by
  cases fuel with
  | zero => rfl
  | succ f => simp only [strideFrom, if_neg (Nat.not_lt.mpr h)]

/-- The trip count of `for (i = lo; i < hi; i += step)`. -/
theorem stride_count_lt {lo hi step : Nat} (hstep : 1 ≤ step) (m : Nat) :
    m < (hi - lo + step - 1) / step ↔ lo + m * step < hi := by
  rw [Nat.lt_iff_add_one_le, Nat.le_div_iff_mul_le hstep, Nat.add_mul]
  omega

theorem forLoop_front {σ : Type} (f : Nat → σ → σ) (s : σ) (k : Nat) :
    forLoop 0 (k + 1) f s = forLoop 0 k (fun m => f (m + 1)) (f 0 s) := by
  induction k with
  | zero => simp [forLoop, iterate]
  | succ k ih =>
    rw [forLoop_zero_succ, ih, forLoop_zero_succ]

theorem strideFrom_eq_forLoop {σ : Type} (hi step : Nat) (hstep : 1 ≤ step)
    (body : Nat → σ → σ) :
    ∀ fuel lo s, hi - lo ≤ fuel →
      strideFrom hi step body fuel lo s
        = forLoop 0 ((hi - lo + step - 1) / step) (fun m => body (lo + m * step)) s := by
  intro fuel
  induction fuel with
  | zero =>
    intro lo s h
    have e : (hi - lo + step - 1) / step = 0 := by
      apply Nat.div_eq_of_lt
      omega
    rw [e]
    rfl
  | succ f ih =>
    intro lo s h
    by_cases hlt : lo < hi
    · simp only [strideFrom, if_pos hlt]
      rw [ih (lo + step) (body lo s) (by omega)]
      have e : (hi - lo + step - 1) / step = (hi - (lo + step) + step - 1) / step + 1 := by
        by_cases h2 : lo + step ≤ hi
        · rw [← Nat.add_div_right _ hstep]
          congr 1
          omega
        · have e1 : (hi - (lo + step) + step - 1) / step = 0 := by
            apply Nat.div_eq_of_lt
            omega
          rw [e1]
          apply Nat.div_eq_of_lt_le
          · omega
          · omega
      rw [e, forLoop_front]
      have e2 : (fun m => body (lo + step + m * step)) = (fun m => body (lo + (m + 1) * step)) := by
        funext m
        rw [show lo + step + m * step = lo + (m + 1) * step by ring]
      rw [e2]
      simp
    · rw [strideFrom_ge _ _ _ _ _ (Nat.le_of_not_lt hlt)]
      have e : (hi - lo + step - 1) / step = 0 := by
        apply Nat.div_eq_of_lt
        omega
      rw [e]
      rfl

/-- A loop with a constant stride is a counting loop over its iteration
numbers. -/
theorem forStride_eq_forLoop {σ : Type} (lo hi step : Nat) (hstep : 1 ≤ step)
    (body : Nat → σ → σ) (s : σ) :
    forStride lo hi step body s
      = forLoop 0 ((hi - lo + step - 1) / step) (fun m => body (lo + m * step)) s :=
  strideFrom_eq_forLoop hi step hstep body (hi - lo) lo s (Nat.le_refl _)

/-- The loop with stride as run with fuel: with enough fuel the stepping loop
ends and yields the state that `forStride` computes. -/
theorem forStep_eq_forStride {σ : Type} (hi step : Nat) (hstep : 1 ≤ step)
    (body : Nat → σ → Option σ) (g : Nat → σ → σ) (hbody : ∀ i s, i < hi → body i s = some (g i s)) :
    ∀ fuel lo s, hi ≤ lo + fuel →
      forStep hi step body fuel lo s = some (forStride lo hi step g s) := by
  intro fuel
  induction fuel with
  | zero =>
    intro lo s h
    simp only [forStep, if_neg (show ¬ lo < hi by omega)]
    unfold forStride
    rw [strideFrom_ge _ _ _ _ _ (by omega)]
  | succ f ih =>
    intro lo s h
    by_cases hlt : lo < hi
    · simp only [forStep, if_pos hlt, hbody lo s hlt, Option.some_bind]
      rw [ih (lo + step) (g lo s) (by omega)]
      congr 1
      obtain ⟨k, hk⟩ : ∃ k, hi - lo = k + 1 := ⟨hi - lo - 1, by omega⟩
      unfold forStride
      rw [hk]
      simp only [strideFrom, if_pos hlt]
      rw [strideFrom_eq_forLoop hi step hstep g _ _ _ (Nat.le_refl _),
        strideFrom_eq_forLoop hi step hstep g k _ _ (by omega)]
    · simp only [forStep, if_neg hlt]
      unfold forStride
      rw [strideFrom_ge _ _ _ _ _ (by omega)]

theorem forLoop_succ_right {σ : Type} {lo hi : Nat} (body : Nat → σ → σ) (s : σ) (h : lo ≤ hi) :
    forLoop lo (hi + 1) body s = body hi (forLoop lo hi body s) := by
  obtain ⟨k, rfl⟩ := Nat.exists_eq_add_of_le h
  exact forLoop_succ lo k body s

theorem forLoop_split {σ : Type} {lo mid hi : Nat} (body : Nat → σ → σ) (s : σ)
    (h1 : lo ≤ mid) (h2 : mid ≤ hi) :
    forLoop lo hi body s = forLoop mid hi body (forLoop lo mid body s) := by
  obtain ⟨k, rfl⟩ := Nat.exists_eq_add_of_le h2
  induction k with
  | zero => rw [Nat.add_zero, forLoop_ge body _ (Nat.le_refl mid)]
  | succ k ih =>
    rw [forLoop_succ mid k, ← ih (by omega), ← Nat.add_assoc, forLoop_succ_right body s (by omega)]

/-- The loop unrolled four times over a range whose length is a multiple of 4
is the plain loop over that range. -/
theorem forStride_unrolled {σ : Type} (unrolled leftover : Nat → σ → σ)
    (hu : ∀ j s, unrolled j s = leftover (j + 3) (leftover (j + 2) (leftover (j + 1) (leftover j s))))
    (lo : Nat) (s : σ) (q : Nat) :
    forStride lo (lo + 4 * q) 4 unrolled s = forLoop lo (lo + 4 * q) leftover s := by
  rw [forStride_eq_forLoop _ _ _ (by decide)]
  have e : (lo + 4 * q - lo + 4 - 1) / 4 = q := by omega
  rw [e]
  induction q with
  | zero => simp [forLoop, iterate]
  | succ q ih =>
    rw [forLoop_zero_succ, ih (by omega), hu]
    have e1 : lo + 4 * (q + 1) = lo + 4 * q + 1 + 1 + 1 + 1 := by omega
    rw [e1, forLoop_succ_right leftover s (by omega), forLoop_succ_right leftover s (by omega),
      forLoop_succ_right leftover s (by omega), forLoop_succ_right leftover s (by omega)]
    have e2 : lo + q * 4 = lo + 4 * q := by omega
    rw [e2]

/-- The unrolled loop and the leftover loop together are the plain loop over
the columns `jStart ≤ j < jmax`. -/
theorem unrolledLoop_eq_forLoop {σ : Type} (unrolled leftover : Nat → σ → σ)
    (hu : ∀ j s, unrolled j s = leftover (j + 3) (leftover (j + 2) (leftover (j + 1) (leftover j s))))
    {jStart jmax : Nat} (h : jStart ≤ jmax) (s : σ) :
    unrolledLoop jStart jmax unrolled leftover s = forLoop jStart jmax leftover s := by
  unfold unrolledLoop
  dsimp only
  have e : jmax - (jmax - jStart) % 4 = jStart + 4 * ((jmax - jStart) / 4) := by omega
  rw [e, forStride_unrolled unrolled leftover hu,
    ← forLoop_split leftover s (by omega) (by omega)]

theorem forLoop_append_range {lo hi : Nat} (h : lo ≤ hi) (l : List Nat) :
    forLoop lo hi (fun j cols => cols ++ [j]) l = l ++ List.range' lo (hi - lo) := by
  obtain ⟨k, rfl⟩ := Nat.exists_eq_add_of_le h
  induction k with
  | zero => simp [forLoop, iterate]
  | succ k ih =>
    rw [forLoop_succ, ih (by omega)]
    simp only [Nat.add_sub_cancel_left, List.append_assoc]
    rw [List.range'_concat]
    simp

theorem visitedColumns_eq {jStart jmax : Nat} (h : jStart ≤ jmax) :
    visitedColumns jStart jmax = List.range' jStart (jmax - jStart) := by
  unfold visitedColumns
  rw [unrolledLoop_eq_forLoop _ _ (by intro j s; simp) h, forLoop_append_range h]
  simp

/-! ## The shared-memory symmetry check -/

theorem checks_congr {C C' : Prop} {f : Nat → Nat} (h : Checks C f) (hc : C ↔ C') :
    Checks C' f :=
  ⟨h.1, fun c => h.2.1 (hc.mpr c), fun c => h.2.2 (fun c' => c (hc.mp c'))⟩

theorem checks_comp {C1 C2 : Prop} {g f : Nat → Nat} (hg : Checks C1 g) (hf : Checks C2 f) :
    Checks (C1 ∧ C2) (fun s => f (g s)) := by
  refine ⟨?_, fun c => ?_, fun c => ?_⟩
  · show f (g 0) = 0
    rw [hg.1, hf.1]
  · show f (g 1) = 1
    rw [hg.2.1 c.1, hf.2.1 c.2]
  · show f (g 1) = 0
    by_cases c1 : C1
    · rw [hg.2.1 c1]
      exact hf.2.2 (fun c2 => c ⟨c1, c2⟩)
    · rw [hg.2.2 c1, hf.1]

theorem checks_forLoop {C : Nat → Prop} (lo hi : Nat) (body : Nat → Nat → Nat)
    (h : ∀ i, lo ≤ i → i < hi → Checks (C i) (body i)) :
    Checks (∀ i, lo ≤ i → i < hi → C i) (forLoop lo hi body) := by
  rcases Nat.lt_or_ge hi lo with hlt | hle
  · refine ⟨forLoop_ge body _ (Nat.le_of_lt hlt), fun _ => forLoop_ge body _ (Nat.le_of_lt hlt),
      fun c => absurd (fun i h1 h2 => by omega) c⟩
  · refine ⟨?_, ?_⟩
    · exact forLoop_inv (fun _ s => s = 0) lo hi body 0 hle rfl
        (fun i t h1 h2 ht => by rw [ht]; exact (h i h1 h2).1)
    · have key := forLoop_inv
        (fun k s => ((∀ i, lo ≤ i → i < k → C i) → s = 1) ∧
          ((¬ ∀ i, lo ≤ i → i < k → C i) → s = 0))
        lo hi body 1 hle
        ⟨fun _ => rfl, fun c => absurd (fun i h1 h2 => by omega) c⟩
        (by
          intro i t h1 h2 ⟨ih1, ih2⟩
          by_cases call : ∀ k, lo ≤ k → k < i → C k
          · rw [ih1 call]
            by_cases ci : C i
            · refine ⟨fun _ => (h i h1 h2).2.1 ci, fun c => absurd ?_ c⟩
              intro k hk1 hk2
              by_cases e : k = i
              · exact e ▸ ci
              · exact call k hk1 (by omega)
            · exact ⟨fun c => absurd (c i h1 (Nat.lt_succ_self i)) ci,
                fun _ => (h i h1 h2).2.2 ci⟩
          · rw [ih2 call]
            exact ⟨fun c => absurd (fun k hk1 hk2 => c k hk1 (by omega)) call,
              fun _ => (h i h1 h2).1⟩)
      exact key

theorem checks_foldl {τ : Type} {C : τ → Prop} (body : τ → Nat → Nat) (l : List τ)
    (h : ∀ t, t ∈ l → Checks (C t) (body t)) :
    Checks (∀ t, t ∈ l → C t) (fun s => l.foldl (fun s t => body t s) s) := by
  induction l with
  | nil => exact ⟨rfl, fun _ => rfl, fun c => absurd (fun t ht => by simp at ht) c⟩
  | cons a l ih =>
    have h1 := checks_comp (h a (List.mem_cons_self a l))
      (ih (fun t ht => h t (List.mem_cons_of_mem a ht)))
    refine checks_congr h1 ?_
    simp

theorem checks_skip {C : Prop} {f : Nat → Nat} (h : Checks C f) :
    Checks C (fun s => if (s == 0) = true then s else f s) :=
  ⟨by simp, fun c => by simpa using h.2.1 c, fun c => by simpa using h.2.2 c⟩

theorem checkSymOMP_row_checks {α : Type} [DecidableEq α] (m : Buf α) (n i : Nat)
    {jStart jmax : Nat} (h : jStart ≤ jmax) :
    Checks (∀ j, jStart ≤ j → j < jmax → m (i * n + j) = m (j * n + i))
      (checkSymOMP_row m n i jStart jmax) := by
  have e : checkSymOMP_row m n i jStart jmax
      = forLoop jStart jmax
          (fun j symmetric => if m (i * n + j) ≠ m (j * n + i) then 0 else symmetric) := by
    funext symmetric
    unfold checkSymOMP_row
    apply unrolledLoop_eq_forLoop _ _ _ h
    intro j s
    by_cases c0 : m (i * n + j) = m (j * n + i) <;>
    by_cases c1 : m (i * n + (j + 1)) = m ((j + 1) * n + i) <;>
    by_cases c2 : m (i * n + (j + 2)) = m ((j + 2) * n + i) <;>
    by_cases c3 : m (i * n + (j + 3)) = m ((j + 3) * n + i) <;>
    simp [c0, c1, c2, c3]
  rw [e]
  apply checks_forLoop
  intro j _ _
  by_cases c : m (i * n + j) = m (j * n + i)
  · exact ⟨by simp, fun _ => by simp [c], fun h => absurd c h⟩
  · exact ⟨by simp, fun h => absurd h c, fun _ => by simp [c]⟩

theorem checkSymOMP_iteration_checks {α : Type} [DecidableEq α] (m : Buf α) (n ii : Nat) :
    Checks (∀ i j, ii ≤ i → i < ii + 64 → i < n → (if i = ii then i + 1 else ii) ≤ j → j < n →
        m (i * n + j) = m (j * n + i))
      (checkSymOMP_iteration m n ii) := by
  have e : checkSymOMP_iteration m n ii
      = forLoop 0 ((n - ii + 64 - 1) / 64) (fun b s =>
          forLoop ii (if ii + 64 > n then n else ii + 64) (fun i s =>
            if (s == 0) = true then s
            else checkSymOMP_row m n i (if i = ii then i + 1 else ii + b * 64)
              (if ii + b * 64 + 64 > n then n else ii + b * 64 + 64) s) s) := by
    funext s
    unfold checkSymOMP_iteration checkSymOMP_tiles
    rw [forStride_eq_forLoop _ _ _ (by decide)]
  rw [e]
  have h1 : Checks (∀ b, 0 ≤ b → b < (n - ii + 64 - 1) / 64 →
      ∀ i, ii ≤ i → i < (if ii + 64 > n then n else ii + 64) →
      ∀ j, (if i = ii then i + 1 else ii + b * 64) ≤ j →
        j < (if ii + b * 64 + 64 > n then n else ii + b * 64 + 64) →
        m (i * n + j) = m (j * n + i)) _ := checks_forLoop
    0 ((n - ii + 64 - 1) / 64)
    (fun b s =>
      forLoop ii (if ii + 64 > n then n else ii + 64) (fun i s =>
        if (s == 0) = true then s
        else checkSymOMP_row m n i (if i = ii then i + 1 else ii + b * 64)
          (if ii + b * 64 + 64 > n then n else ii + b * 64 + 64) s) s)
    (by
      intro b _ hb
      have hb' : ii + b * 64 < n := (stride_count_lt (by decide) b).mp hb
      apply checks_forLoop
      intro i hi1 hi2
      apply checks_skip
      apply checkSymOMP_row_checks
      split_ifs <;> omega)
  refine checks_congr h1 ?_
  constructor
  · intro h i j hi1 hi2 hi3 hj1 hj2
    have hb : ii + ((j - ii) / 64) * 64 < n := by
      split_ifs at hj1 <;> omega
    refine h ((j - ii) / 64) (Nat.zero_le _) ((stride_count_lt (by decide) _).mpr hb) i hi1
      (by split_ifs <;> omega) j ?_ ?_
    · split_ifs at hj1 ⊢ <;> omega
    · split_ifs at hj1 ⊢ <;> omega
  · intro h b _ hb i hi1 hi2 j hj1 hj2
    have hb' : ii + b * 64 < n := (stride_count_lt (by decide) b).mp hb
    refine h i j hi1 ?_ ?_ ?_ ?_
    · split_ifs at hi2 <;> omega
    · split_ifs at hi2 <;> omega
    · split_ifs at hj1 ⊢ <;> omega
    · split_ifs at hj2 <;> omega

/-- The iterations of the outer loop of `checkSymOMP` together compare every
pair of mirrored entries. -/
theorem iterations_cover {α : Type} (m : Buf α) (n : Nat) :
    (∀ t, t < (n + 63) / 64 →
      ∀ i j, t * 64 ≤ i → i < t * 64 + 64 → i < n → (if i = t * 64 then i + 1 else t * 64) ≤ j →
        j < n → m (i * n + j) = m (j * n + i)) ↔ Symmetric m n := by
  constructor
  · intro h
    have hlt : ∀ i j, i < j → j < n → m (i * n + j) = m (j * n + i) := by
      intro i j hij hj
      refine h (i / 64) (by omega) i j (by omega) (by omega) (by omega) ?_ hj
      split_ifs <;> omega
    intro i j hi hj
    rcases Nat.lt_trichotomy i j with h1 | h1 | h1
    · exact hlt i j h1 hj
    · rw [h1]
    · exact (hlt j i h1 hi).symm
  · intro h t _ i j _ _ hi _ hj
    exact h i j hi hj

theorem checkSymOMP_checks {α : Type} [DecidableEq α] (m : Buf α) (n : Nat) :
    Checks (Symmetric m n) (fun s =>
      forStride 0 n 64 (fun ii symmetric => checkSymOMP_iteration m n ii symmetric) s) := by
  have e : (fun s => forStride 0 n 64
        (fun ii symmetric => checkSymOMP_iteration m n ii symmetric) s)
      = forLoop 0 ((n + 63) / 64) (fun t => checkSymOMP_iteration m n (t * 64)) := by
    funext s
    rw [forStride_eq_forLoop _ _ _ (by decide)]
    simp
  rw [e]
  refine checks_congr (checks_forLoop 0 ((n + 63) / 64) _
    (fun t _ _ => checkSymOMP_iteration_checks m n (t * 64))) ?_
  rw [← iterations_cover]
  exact ⟨fun h t ht => h t (Nat.zero_le _) ht, fun h t _ ht => h t ht⟩

theorem checkSymOMP_spec {α : Type} [DecidableEq α] (m : Buf α) (n : Nat) :
    (Symmetric m n → checkSymOMP m n = 1) ∧ (¬ Symmetric m n → checkSymOMP m n = 0) :=
  (checkSymOMP_checks m n).2

theorem checkSymOMP_thread_spec {α : Type} [DecidableEq α] (m : Buf α) (n : Nat)
    (chunk : List Nat) :
    ((∀ t, t ∈ chunk → ∀ i j, t * 64 ≤ i → i < t * 64 + 64 → i < n →
        (if i = t * 64 then i + 1 else t * 64) ≤ j → j < n → m (i * n + j) = m (j * n + i)) →
      checkSymOMP_thread m n chunk = 1) ∧
    ((¬ ∀ t, t ∈ chunk → ∀ i j, t * 64 ≤ i → i < t * 64 + 64 → i < n →
        (if i = t * 64 then i + 1 else t * 64) ≤ j → j < n → m (i * n + j) = m (j * n + i)) →
      checkSymOMP_thread m n chunk = 0) :=
  (checks_foldl (fun t => checkSymOMP_iteration m n (t * 64)) chunk
    (fun t _ => checkSymOMP_iteration_checks m n (t * 64))).2

theorem reduction_spec (C : List Nat → Prop) (thread : List Nat → Nat)
    (h : ∀ chunk, (C chunk → thread chunk = 1) ∧ (¬ C chunk → thread chunk = 0)) :
    ∀ (schedule : List (List Nat)) (acc : Nat),
      ((acc ≠ 0 ∧ ∀ chunk, chunk ∈ schedule → C chunk) →
        schedule.foldl (fun symmetric chunk => logicalAnd symmetric (thread chunk)) acc
          = (if schedule = [] then acc else 1)) ∧
      ((acc = 0 ∨ ¬ ∀ chunk, chunk ∈ schedule → C chunk) →
        schedule.foldl (fun symmetric chunk => logicalAnd symmetric (thread chunk)) acc = 0) := by
  intro schedule
  induction schedule with
  | nil =>
    intro acc
    refine ⟨fun _ => rfl, fun h0 => ?_⟩
    rcases h0 with h0 | h0
    · exact h0
    · exact absurd (fun c hc => by simp at hc) h0
  | cons c rest ih =>
    intro acc
    rw [List.foldl_cons]
    constructor
    · rintro ⟨hacc, hall⟩
      have hc : thread c = 1 := (h c).1 (hall c (List.mem_cons_self c rest))
      have e : logicalAnd acc (thread c) = 1 := by simp [logicalAnd, hacc, hc]
      rw [e, (ih 1).1 ⟨by decide, fun x hx => hall x (List.mem_cons_of_mem c hx)⟩]
      simp
    · intro h0
      apply (ih _).2
      by_cases hacc : acc = 0
      · exact Or.inl (by simp [logicalAnd, hacc])
      · by_cases hc : C c
        · right
          intro hrest
          rcases h0 with h0 | h0
          · exact hacc h0
          · apply h0
            intro x hx
            rcases List.mem_cons.mp hx with hx | hx
            · exact hx ▸ hc
            · exact hrest x hx
        · exact Or.inl (by simp [logicalAnd, (h c).2 hc])

/-- Whatever way the iterations of the outer loop are handed to threads, the
reduction returns what the single thread returns. -/
theorem checkSymOMP_parallel_eq {α : Type} [DecidableEq α] (m : Buf α) (n : Nat)
    (schedule : List (List Nat)) (h : schedule.flatten.Perm (List.range ((n + 63) / 64))) :
    checkSymOMP_parallel m n schedule = checkSymOMP m n := by
  have hcov : (∀ chunk, chunk ∈ schedule → ∀ t, t ∈ chunk →
      ∀ i j, t * 64 ≤ i → i < t * 64 + 64 → i < n →
        (if i = t * 64 then i + 1 else t * 64) ≤ j → j < n → m (i * n + j) = m (j * n + i))
      ↔ Symmetric m n := by
    rw [← iterations_cover]
    constructor
    · intro h1 t ht
      have ht' : t ∈ schedule.flatten := h.mem_iff.mpr (List.mem_range.mpr ht)
      obtain ⟨chunk, hc, htc⟩ := List.mem_flatten.mp ht'
      exact h1 chunk hc t htc
    · intro h1 chunk hc t htc
      exact h1 t (List.mem_range.mp (h.mem_iff.mp (List.mem_flatten.mpr ⟨chunk, hc, htc⟩)))
  have hred := reduction_spec _ _ (checkSymOMP_thread_spec m n) schedule 1
  unfold checkSymOMP_parallel
  by_cases hs : Symmetric m n
  · rw [(checkSymOMP_spec m n).1 hs, hred.1 ⟨by decide, hcov.mpr hs⟩]
    simp
  · rw [(checkSymOMP_spec m n).2 hs, hred.2 (Or.inr (fun hall => hs (hcov.mp hall)))]

/-! ## Rows and indices of the shared-memory loops -/

theorem forLoop_preserves {σ : Type} (Q : σ → Prop) (lo hi : Nat) (body : Nat → σ → σ) (s : σ)
    (h0 : Q s) (hstep : ∀ i t, lo ≤ i → i < hi → Q t → Q (body i t)) :
    Q (forLoop lo hi body s) := by
  rcases Nat.lt_or_ge hi lo with hlt | hle
  · rw [forLoop_ge body s (Nat.le_of_lt hlt)]
    exact h0
  · exact forLoop_inv (fun _ t => Q t) lo hi body s hle h0 hstep

theorem forStride_preserves {σ : Type} (Q : σ → Prop) (lo hi step : Nat) (hstep : 1 ≤ step)
    (body : Nat → σ → σ) (s : σ) (h0 : Q s)
    (hbody : ∀ i t, lo ≤ i → i < hi → Q t → Q (body i t)) :
    Q (forStride lo hi step body s) := by
  rw [forStride_eq_forLoop _ _ _ hstep]
  apply forLoop_preserves Q _ _ _ _ h0
  intro m t _ hm ht
  exact hbody _ t (Nat.le_add_right _ _) ((stride_count_lt hstep m).mp hm) ht

theorem forLoop_congr {σ : Type} (lo hi : Nat) (f g : Nat → σ → σ) (s : σ)
    (h : ∀ i t, lo ≤ i → i < hi → f i t = g i t) :
    forLoop lo hi f s = forLoop lo hi g s := by
  rcases Nat.lt_or_ge hi lo with hlt | hle
  · rw [forLoop_ge f s (Nat.le_of_lt hlt), forLoop_ge g s (Nat.le_of_lt hlt)]
  · exact forLoop_inv (fun k t => t = forLoop lo k g s) lo hi f s hle
      (forLoop_ge g s (Nat.le_refl lo)).symm
      (fun i t h1 h2 ht => by
        show f i t = forLoop lo (i + 1) g s
        rw [forLoop_succ_right g s h1, h i t h1 h2]
        exact congrArg (g i) ht)

theorem forStride_congr {σ : Type} (lo hi step : Nat) (hstep : 1 ≤ step) (f g : Nat → σ → σ)
    (s : σ) (h : ∀ i t, lo ≤ i → i < hi → f i t = g i t) :
    forStride lo hi step f s = forStride lo hi step g s := by
  rw [forStride_eq_forLoop _ _ _ hstep, forStride_eq_forLoop _ _ _ hstep]
  apply forLoop_congr
  intro m t _ hm
  exact h _ t (Nat.le_add_right _ _) ((stride_count_lt hstep m).mp hm)

/-- Every row that the loops of `checkSymOMP` reach has `i < n` and
`i < jStart + 1 ≤ jmax + 1 ≤ n + 1`: what holds before the loops and is kept by
such rows holds after them. -/
theorem checkSymOMP_rows_preserve {σ : Type} (Q : σ → Prop) (n : Nat) (skip : σ → Bool)
    (row : Nat → Nat → Nat → σ → σ)
    (hrow : ∀ i jStart jmax s, i < n → jStart ≤ jmax → jmax ≤ n → Q s → Q (row i jStart jmax s))
    (s : σ) (hs : Q s) :
    Q (forStride 0 n 64 (fun ii s => checkSymOMP_tiles n 64 ii skip row s) s) := by
  apply forStride_preserves Q _ _ _ (by decide) _ _ hs
  intro ii s _ hii hs
  unfold checkSymOMP_tiles
  apply forStride_preserves Q _ _ _ (by decide) _ _ hs
  intro jj s hjj1 hjj2 hs
  apply forLoop_preserves Q _ _ _ _ hs
  intro i s hi1 hi2 hs
  dsimp only
  split_ifs at hi2 ⊢
  all_goals first
    | exact hs
    | (apply hrow _ _ _ _ _ _ _ hs <;> omega)

/-- Every row that the loops of `matTransposeOMP` reach has `i < n` and
`jj ≤ jmax ≤ n`. -/
theorem matTransposeOMP_rows_preserve {σ : Type} (Q : σ → Prop) (n : Nat)
    (row : Nat → Nat → Nat → σ → σ)
    (hrow : ∀ i jj jmax s, i < n → jj ≤ jmax → jmax ≤ n → Q s → Q (row i jj jmax s))
    (s : σ) (hs : Q s) :
    Q (forStride 0 n 64 (fun ii s => matTransposeOMP_tiles n 64 ii row s) s) := by
  apply forStride_preserves Q _ _ _ (by decide) _ _ hs
  intro ii s _ hii hs
  unfold matTransposeOMP_tiles
  apply forStride_preserves Q _ _ _ (by decide) _ _ hs
  intro jj s hjj1 hjj2 hs
  apply forLoop_preserves Q _ _ _ _ hs
  intro i s hi1 hi2 hs
  dsimp only
  split_ifs at hi2 ⊢
  all_goals (apply hrow _ _ _ _ _ _ _ hs <;> omega)

theorem checkSymOMP_rows_bounds (n : Nat) :
    ∀ r, r ∈ checkSymOMP_rows n → r.1 < n ∧ r.2.1 ≤ r.2.2 ∧ r.2.2 ≤ n := by
  unfold checkSymOMP_rows
  refine checkSymOMP_rows_preserve
    (fun (rows : List (Nat × Nat × Nat)) =>
      ∀ r, r ∈ rows → r.1 < n ∧ r.2.1 ≤ r.2.2 ∧ r.2.2 ≤ n) n _ _ ?_ [] ?_
  · intro i jStart jmax rows h1 h2 h3 hrows r hr
    rcases List.mem_append.mp hr with hr | hr
    · exact hrows r hr
    · rw [List.mem_singleton] at hr
      subst hr
      exact ⟨h1, h2, h3⟩
  · intro r hr
    simp at hr

theorem matTransposeOMP_rows_bounds (n : Nat) :
    ∀ r, r ∈ matTransposeOMP_rows n → r.1 < n ∧ r.2.1 ≤ r.2.2 ∧ r.2.2 ≤ n := by
  unfold matTransposeOMP_rows
  refine matTransposeOMP_rows_preserve
    (fun (rows : List (Nat × Nat × Nat)) =>
      ∀ r, r ∈ rows → r.1 < n ∧ r.2.1 ≤ r.2.2 ∧ r.2.2 ≤ n) n _ ?_ [] ?_
  · intro i jStart jmax rows h1 h2 h3 hrows r hr
    rcases List.mem_append.mp hr with hr | hr
    · exact hrows r hr
    · rw [List.mem_singleton] at hr
      subst hr
      exact ⟨h1, h2, h3⟩
  · intro r hr
    simp at hr

theorem sq_index_lt {n i j : Nat} (hi : i < n) (hj : j < n) : i * n + j < n * n :=
  block_lt hi hj

/-- A row whose column loops record indices of cells of the rows and columns
below `n` keeps a list of indices below `n * n`. -/
theorem unrolledLoop_indices (n : Nat) (unrolled leftover : Nat → List Nat → List Nat)
    (hu : ∀ j s, unrolled j s = leftover (j + 3) (leftover (j + 2) (leftover (j + 1) (leftover j s))))
    (hl : ∀ j l, j < n → (∀ p, p ∈ l → p < n * n) → ∀ p, p ∈ leftover j l → p < n * n)
    {jStart jmax : Nat} (h1 : jStart ≤ jmax) (h2 : jmax ≤ n) (l : List Nat)
    (h : ∀ p, p ∈ l → p < n * n) :
    ∀ p, p ∈ unrolledLoop jStart jmax unrolled leftover l → p < n * n := by
  rw [unrolledLoop_eq_forLoop _ _ hu h1]
  apply forLoop_preserves (fun l => ∀ p, p ∈ l → p < n * n) _ _ _ _ h
  intro j l _ hj hl'
  exact hl j l (by omega) hl'

theorem checkSymOMP_reads_bounds (n : Nat) : ∀ p, p ∈ checkSymOMP_reads n → p < n * n := by
  unfold checkSymOMP_reads
  refine checkSymOMP_rows_preserve (fun reads => ∀ p, p ∈ reads → p < n * n) n _ _ ?_ [] ?_
  · intro i jStart jmax reads h1 h2 h3 hreads
    apply unrolledLoop_indices n _ _ _ _ h2 h3 reads hreads
    · intro j s
      simp
    · intro j l hj hl p hp
      rcases List.mem_append.mp hp with hp | hp
      · exact hl p hp
      · simp only [List.mem_cons, List.mem_singleton, List.not_mem_nil, or_false] at hp
        rcases hp with hp | hp
        · rw [hp]; exact sq_index_lt h1 hj
        · rw [hp]; exact sq_index_lt hj h1
  · intro p hp
    simp at hp

theorem matTransposeOMP_reads_bounds (n : Nat) :
    ∀ p, p ∈ matTransposeOMP_reads n → p < n * n := by
  unfold matTransposeOMP_reads
  refine matTransposeOMP_rows_preserve (fun reads => ∀ p, p ∈ reads → p < n * n) n _ ?_ [] ?_
  · intro i jStart jmax reads h1 h2 h3 hreads
    apply unrolledLoop_indices n _ _ _ _ h2 h3 reads hreads
    · intro j s
      simp
    · intro j l hj hl p hp
      rcases List.mem_append.mp hp with hp | hp
      · exact hl p hp
      · rw [List.mem_singleton] at hp
        rw [hp]; exact sq_index_lt h1 hj
  · intro p hp
    simp at hp

theorem matTransposeOMP_writes_bounds (n : Nat) :
    ∀ p, p ∈ matTransposeOMP_writes n → p < n * n := by
  unfold matTransposeOMP_writes
  refine matTransposeOMP_rows_preserve (fun writes => ∀ p, p ∈ writes → p < n * n) n _ ?_ [] ?_
  · intro i jStart jmax writes h1 h2 h3 hwrites
    apply unrolledLoop_indices n _ _ _ _ h2 h3 writes hwrites
    · intro j s
      simp
    · intro j l hj hl p hp
      rcases List.mem_append.mp hp with hp | hp
      · exact hl p hp
      · rw [List.mem_singleton] at hp
        rw [hp]; exact sq_index_lt hj h1
  · intro p hp
    simp at hp

/-! ## The shared-memory transposition -/

/-- A tile row of `matTransposeOMP` is a tile row of `matTransposeBlock`. -/
theorem matTransposeOMP_row_eq {α : Type} (matrix : Buf α) (n i : Nat) {jj jmax : Nat}
    (h : jj ≤ jmax) (transposed : Buf α) :
    matTransposeOMP_row matrix n i jj jmax transposed
      = forLoop jj jmax (fun j transposed =>
          transposed.set (j * n + i) (matrix (i * n + j))) transposed := by
  unfold matTransposeOMP_row
  exact unrolledLoop_eq_forLoop _ _ (fun j s => rfl) h transposed

/-- One iteration of the outer loop of `matTransposeOMP` is the row of tiles of
`matTransposeBlock` with block size 64. -/
theorem matTransposeOMP_tiles_eq {α : Type} (matrix : Buf α) (n ii : Nat) (transposed : Buf α) :
    matTransposeOMP_tiles n 64 ii (matTransposeOMP_row matrix n) transposed
      = forStride 0 n 64 (fun jj transposed => transposeTile matrix n 64 ii jj transposed)
          transposed := by
  unfold matTransposeOMP_tiles
  apply forStride_congr _ _ _ (by decide)
  intro jj t _ hjj
  unfold transposeTile
  dsimp only
  apply forLoop_congr
  intro i t _ _
  apply matTransposeOMP_row_eq
  split_ifs <;> omega

theorem matTransposeOMP_eq_block {α : Type} (fuel : Nat) (matrix transposed : Buf α) (n : Nat)
    (hfuel : n ≤ fuel) :
    matTransposeBlock fuel matrix transposed n 64 = some (matTransposeOMP matrix transposed n) := by
  unfold matTransposeBlock matTransposeOMP
  rw [forStep_eq_forStride n 64 (by decide) _
    (fun ii transposed =>
      matTransposeOMP_tiles n 64 ii (matTransposeOMP_row matrix n) transposed) ?_ fuel 0
    transposed (by omega)]
  intro ii t _
  show _ = some (matTransposeOMP_tiles n 64 ii (matTransposeOMP_row matrix n) t)
  rw [matTransposeOMP_tiles_eq]
  exact forStep_eq_forStride n 64 (by decide) _ _ (fun _ _ _ => rfl) fuel 0 t (by omega)

theorem Writes.foldl {α τ : Type} {E : Buf α} {hit : τ → Nat → Prop}
    (body : τ → Buf α → Buf α) (l : List τ) (h : ∀ t, t ∈ l → Writes E (hit t) (body t)) :
    Writes E (fun p => ∃ t, t ∈ l ∧ hit t p) (fun b => l.foldl (fun b t => body t b) b) := by
  induction l with
  | nil =>
    intro b p
    exact ⟨fun ⟨t, ht, _⟩ => by simp at ht, fun _ => rfl⟩
  | cons a l ih =>
    have h1 := Writes.comp (h a (List.mem_cons_self a l))
      (ih (fun t ht => h t (List.mem_cons_of_mem a ht)))
    refine Writes.congr h1 (fun p => ?_)
    simp

theorem Writes.ext {α : Type} {E : Buf α} {hit hit' : Nat → Prop} {f g : Buf α → Buf α}
    (hf : Writes E hit f) (hg : Writes E hit' g) (h : ∀ p, hit p ↔ hit' p) (b : Buf α) :
    f b = g b := by
  funext p
  by_cases hp : hit p
  · rw [(hf b p).1 hp, (hg b p).1 ((h p).mp hp)]
  · rw [(hf b p).2 hp, (hg b p).2 (fun c => hp ((h p).mpr c))]

/-- One iteration `ii` of the outer loop of `matTransposeOMP` writes the
columns `ii ≤ i < min(ii + 64, n)` of the output, each cell with the mirrored
entry of the matrix. -/
theorem matTransposeOMP_tiles_writes {α : Type} (matrix : Buf α) (n ii : Nat) :
    Writes (fun p => matrix ((p % n) * n + p / n))
      (fun p => p < n * n ∧ ii ≤ p % n ∧ p % n < ii + 64)
      (fun transposed => matTransposeOMP_tiles n 64 ii (matTransposeOMP_row matrix n)
        transposed) := by
  have e : (fun transposed => matTransposeOMP_tiles n 64 ii (matTransposeOMP_row matrix n)
        transposed)
      = forLoop 0 ((n - 0 + 64 - 1) / 64)
          (fun b transposed => transposeTile matrix n 64 ii (0 + b * 64) transposed) := by
    funext t
    rw [matTransposeOMP_tiles_eq, forStride_eq_forLoop _ _ _ (by decide)]
  rw [e]
  refine Writes.congr (Writes.forLoop 0 _
    (fun b _ _ => transposeTile_writes matrix n 64 ii (0 + b * 64))) (fun p => ?_)
  constructor
  · rintro ⟨b, _, hb, i, hi1, hi2, j, hj1, hj2, rfl⟩
    have hb' := (stride_count_lt (by decide) b).mp hb
    have hi : i < n := by split_ifs at hi2 <;> omega
    have hj : j < n := by split_ifs at hj2 <;> omega
    rw [rm_mod hi]
    exact ⟨sq_index_lt hj hi, hi1, by split_ifs at hi2 <;> omega⟩
  · rintro ⟨hp, h1, h2⟩
    have hn : 0 < n := by
      rcases Nat.eq_zero_or_pos n with h0 | h0
      · subst h0; simp at hp
      · exact h0
    have hj : p / n < n := (Nat.div_lt_iff_lt_mul hn).mpr hp
    have hi : p % n < n := Nat.mod_lt _ hn
    refine ⟨p / n / 64, Nat.zero_le _, (stride_count_lt (by decide) _).mpr (by omega), p % n, h1,
      by split_ifs <;> omega, p / n, by omega, by split_ifs <;> omega, ?_⟩
    have := Nat.div_add_mod p n
    rw [Nat.mul_comm] at this
    exact this.symm

/-- The iterations of the outer loop of `matTransposeOMP`, run in any order
that has each of them once, write the transposed matrix into the first `n * n`
cells and nothing else. -/
theorem matTransposeOMP_ordered_writes {α : Type} (matrix : Buf α) (n : Nat) (order : List Nat)
    (h : ∀ t, t ∈ order ↔ t < (n + 63) / 64) :
    Writes (fun p => matrix ((p % n) * n + p / n)) (fun p => p < n * n)
      (fun transposed => matTransposeOMP_ordered matrix transposed n order) := by
  unfold matTransposeOMP_ordered
  refine Writes.congr (Writes.foldl
    (fun t transposed =>
      matTransposeOMP_tiles n 64 (t * 64) (matTransposeOMP_row matrix n) transposed) order
    (fun t _ => matTransposeOMP_tiles_writes matrix n (t * 64))) (fun p => ?_)
  constructor
  · rintro ⟨t, _, hp, _, _⟩
    exact hp
  · intro hp
    have hn : 0 < n := by
      rcases Nat.eq_zero_or_pos n with h0 | h0
      · subst h0; simp at hp
      · exact h0
    have hi : p % n < n := Nat.mod_lt _ hn
    exact ⟨p % n / 64, (h _).mpr (by omega), hp, by omega, by omega⟩

theorem matTransposeOMP_eq_ordered {α : Type} (matrix transposed : Buf α) (n : Nat) :
    matTransposeOMP matrix transposed n
      = matTransposeOMP_ordered matrix transposed n (List.range ((n + 63) / 64)) := by
  unfold matTransposeOMP matTransposeOMP_ordered
  rw [forStride_eq_forLoop _ _ _ (by decide)]
  have e : (n - 0 + 64 - 1) / 64 = (n + 63) / 64 := by simp
  rw [e]
  generalize (n + 63) / 64 = k
  induction k with
  | zero => rfl
  | succ k ih =>
    rw [forLoop_zero_succ, ih, List.range_succ, List.foldl_append]
    simp

theorem matTransposeOMP_writes_spec {α : Type} (matrix : Buf α) (n : Nat) :
    Writes (fun p => matrix ((p % n) * n + p / n)) (fun p => p < n * n)
      (fun transposed => matTransposeOMP matrix transposed n) := by
  have e : (fun transposed => matTransposeOMP matrix transposed n)
      = (fun transposed =>
          matTransposeOMP_ordered matrix transposed n (List.range ((n + 63) / 64))) := by
    funext t
    exact matTransposeOMP_eq_ordered matrix t n
  rw [e]
  exact matTransposeOMP_ordered_writes matrix n _ (fun t => List.mem_range)

/-! ## Every output cell is written once -/

theorem appends_single (x : Nat) : Appends (fun p => p = x) (fun l => l ++ [x]) := by
  intro l p
  constructor
  · intro h
    rw [h, List.count_append, List.count_singleton_self]
  · intro h
    rw [List.count_append, List.count_singleton]
    simp [Ne.symm h]

theorem appends_congr {S S' : Nat → Prop} {f : List Nat → List Nat} (h : Appends S f)
    (hs : ∀ p, S p ↔ S' p) : Appends S' f := by
  intro l p
  rw [← hs p]
  exact h l p

theorem appends_forLoop {S : Nat → Nat → Prop} (lo hi : Nat) {body : Nat → List Nat → List Nat}
    (h : ∀ i, lo ≤ i → i < hi → Appends (S i) (body i))
    (hdis : ∀ i k p, lo ≤ i → i < hi → lo ≤ k → k < hi → S i p → S k p → i = k) :
    Appends (fun p => ∃ i, lo ≤ i ∧ i < hi ∧ S i p) (forLoop lo hi body) := by
  intro l p
  rcases Nat.lt_or_ge hi lo with hlt | hle
  · rw [forLoop_ge body l (Nat.le_of_lt hlt)]
    constructor
    · rintro ⟨i, h1, h2, _⟩; omega
    · intro _; rfl
  · have key := forLoop_inv
      (fun k t => k ≤ hi ∧ ((∃ i, lo ≤ i ∧ i < k ∧ S i p) → t.count p = l.count p + 1) ∧
        ((¬ ∃ i, lo ≤ i ∧ i < k ∧ S i p) → t.count p = l.count p))
      lo hi body l hle
      ⟨hle, by rintro ⟨i, h1, h2, _⟩; omega, fun _ => rfl⟩
      (by
        intro i t h1 h2 ⟨_, ih1, ih2⟩
        have hb := h i h1 h2 t p
        refine ⟨h2, ?_, ?_⟩
        · rintro ⟨k, hk1, hk2, hk3⟩
          by_cases hi' : S i p
          · rw [hb.1 hi', ih2]
            rintro ⟨k', hk1', hk2', hk3'⟩
            have := hdis k' i p hk1' (by omega) h1 h2 hk3' hi'
            omega
          · rw [hb.2 hi']
            have hne : k ≠ i := fun e => hi' (e ▸ hk3)
            exact ih1 ⟨k, hk1, by omega, hk3⟩
        · intro hn
          have hi' : ¬ S i p := fun c => hn ⟨i, h1, Nat.lt_succ_self i, c⟩
          rw [hb.2 hi']
          exact ih2 (fun ⟨k, hk1, hk2, hk3⟩ => hn ⟨k, hk1, by omega, hk3⟩))
    exact key.2

/-- The cells of the tiles of one iteration `ii` are the cells of the columns
`ii ≤ i < ii + 64` of the output. -/
theorem tiles_cover (n ii p : Nat) :
    (∃ b, 0 ≤ b ∧ b < (n - 0 + 64 - 1) / 64 ∧
      ∃ i, ii ≤ i ∧ i < (if ii + 64 > n then n else ii + 64) ∧
        ∃ j, 0 + b * 64 ≤ j ∧ j < (if 0 + b * 64 + 64 > n then n else 0 + b * 64 + 64) ∧
          p = j * n + i)
      ↔ (p < n * n ∧ ii ≤ p % n ∧ p % n < ii + 64) := by
  constructor
  · rintro ⟨b, _, hb, i, hi1, hi2, j, hj1, hj2, rfl⟩
    have hb' := (stride_count_lt (by decide) b).mp hb
    have hi : i < n := by split_ifs at hi2 <;> omega
    have hj : j < n := by split_ifs at hj2 <;> omega
    rw [rm_mod hi]
    exact ⟨sq_index_lt hj hi, hi1, by split_ifs at hi2 <;> omega⟩
  · rintro ⟨hp, h1, h2⟩
    have hn : 0 < n := by
      rcases Nat.eq_zero_or_pos n with h0 | h0
      · subst h0; simp at hp
      · exact h0
    have hj : p / n < n := (Nat.div_lt_iff_lt_mul hn).mpr hp
    have hi : p % n < n := Nat.mod_lt _ hn
    refine ⟨p / n / 64, Nat.zero_le _, (stride_count_lt (by decide) _).mpr (by omega), p % n, h1,
      by split_ifs <;> omega, p / n, by omega, by split_ifs <;> omega, ?_⟩
    have := Nat.div_add_mod p n
    rw [Nat.mul_comm] at this
    exact this.symm

theorem matTransposeOMP_row_appends (n i : Nat) (hi : i < n) {jj jmax : Nat} (h : jj ≤ jmax) :
    Appends (fun p => ∃ j, jj ≤ j ∧ j < jmax ∧ p = j * n + i)
      (fun writes => unrolledLoop jj jmax
        (fun j writes => writes ++ [j * n + i, (j + 1) * n + i, (j + 2) * n + i, (j + 3) * n + i])
        (fun j writes => writes ++ [j * n + i]) writes) := by
  have e : (fun writes => unrolledLoop jj jmax
        (fun j writes => writes ++ [j * n + i, (j + 1) * n + i, (j + 2) * n + i, (j + 3) * n + i])
        (fun j writes => writes ++ [j * n + i]) writes)
      = forLoop jj jmax (fun j writes => writes ++ [j * n + i]) := by
    funext w
    exact unrolledLoop_eq_forLoop _ _ (fun j s => by simp) h w
  rw [e]
  apply appends_forLoop jj jmax (fun j _ _ => appends_single (j * n + i))
  intro j k p _ _ _ _ h1 h2
  rw [h1] at h2
  exact (rowmajor_inj hi hi h2).1

theorem matTransposeOMP_tiles_appends (n ii : Nat) :
    Appends (fun p => p < n * n ∧ ii ≤ p % n ∧ p % n < ii + 64)
      (fun writes => matTransposeOMP_tiles n 64 ii (fun i jj jmax writes =>
        unrolledLoop jj jmax
          (fun j writes =>
            writes ++ [j * n + i, (j + 1) * n + i, (j + 2) * n + i, (j + 3) * n + i])
          (fun j writes => writes ++ [j * n + i]) writes) writes) := by
  have e : (fun writes => matTransposeOMP_tiles n 64 ii (fun i jj jmax writes =>
        unrolledLoop jj jmax
          (fun j writes =>
            writes ++ [j * n + i, (j + 1) * n + i, (j + 2) * n + i, (j + 3) * n + i])
          (fun j writes => writes ++ [j * n + i]) writes) writes)
      = forLoop 0 ((n - 0 + 64 - 1) / 64) (fun b writes =>
          forLoop ii (if ii + 64 > n then n else ii + 64) (fun i writes =>
            unrolledLoop (0 + b * 64) (if 0 + b * 64 + 64 > n then n else 0 + b * 64 + 64)
              (fun j writes =>
                writes ++ [j * n + i, (j + 1) * n + i, (j + 2) * n + i, (j + 3) * n + i])
              (fun j writes => writes ++ [j * n + i]) writes) writes) := by
    funext w
    unfold matTransposeOMP_tiles
    rw [forStride_eq_forLoop _ _ _ (by decide)]
  rw [e]
  refine appends_congr (appends_forLoop 0 _
    (S := fun b p => ∃ i, ii ≤ i ∧ i < (if ii + 64 > n then n else ii + 64) ∧
        ∃ j, 0 + b * 64 ≤ j ∧ j < (if 0 + b * 64 + 64 > n then n else 0 + b * 64 + 64) ∧
          p = j * n + i)
    (fun b _ hb => ?_) ?_) (tiles_cover n ii)
  · have hb' := (stride_count_lt (by decide) b).mp hb
    apply appends_forLoop ii _
      (S := fun i p => ∃ j, 0 + b * 64 ≤ j ∧
        j < (if 0 + b * 64 + 64 > n then n else 0 + b * 64 + 64) ∧ p = j * n + i)
    · intro i hi1 hi2
      apply matTransposeOMP_row_appends
      · split_ifs at hi2 <;> omega
      · split_ifs <;> omega
    · rintro i k p _ hi2 _ hk2 ⟨j, _, _, e1⟩ ⟨j', _, _, e2⟩
      rw [e1] at e2
      exact (rowmajor_inj (by split_ifs at hi2 <;> omega) (by split_ifs at hk2 <;> omega) e2).2
  · rintro b b' p _ _ _ _ ⟨i, _, hi2, j, hj1, hj2, e1⟩ ⟨i', _, hi2', j', hj1', hj2', e2⟩
    rw [e1] at e2
    have := (rowmajor_inj (by split_ifs at hi2 <;> omega) (by split_ifs at hi2' <;> omega) e2).1
    split_ifs at hj2 hj2' <;> omega

/-- The write trace of `matTransposeOMP` has every index below `n * n` once
and no other index. -/
theorem matTransposeOMP_writes_count (n p : Nat) :
    (p < n * n → (matTransposeOMP_writes n).count p = 1) ∧
    (n * n ≤ p → (matTransposeOMP_writes n).count p = 0) := by
  have h : Appends (fun p => p < n * n) (fun writes =>
      forLoop 0 ((n - 0 + 64 - 1) / 64) (fun a writes =>
        matTransposeOMP_tiles n 64 (0 + a * 64) (fun i jj jmax writes =>
          unrolledLoop jj jmax
            (fun j writes =>
              writes ++ [j * n + i, (j + 1) * n + i, (j + 2) * n + i, (j + 3) * n + i])
            (fun j writes => writes ++ [j * n + i]) writes) writes) writes) := by
    refine appends_congr (appends_forLoop 0 _
      (S := fun a p => p < n * n ∧ 0 + a * 64 ≤ p % n ∧ p % n < 0 + a * 64 + 64)
      (fun a _ _ => matTransposeOMP_tiles_appends n (0 + a * 64)) ?_) ?_
    · rintro a a' p _ _ _ _ ⟨_, h1, h2⟩ ⟨_, h3, h4⟩
      omega
    · intro p
      constructor
      · rintro ⟨a, _, _, hp, _⟩
        exact hp
      · intro hp
        have hn : 0 < n := by
          rcases Nat.eq_zero_or_pos n with h0 | h0
          · subst h0; simp at hp
          · exact h0
        have hi : p % n < n := Nat.mod_lt _ hn
        exact ⟨p % n / 64, Nat.zero_le _, (stride_count_lt (by decide) _).mpr (by omega), hp,
          by omega, by omega⟩
  have e : matTransposeOMP_writes n = (fun writes =>
      forLoop 0 ((n - 0 + 64 - 1) / 64) (fun a writes =>
        matTransposeOMP_tiles n 64 (0 + a * 64) (fun i jj jmax writes =>
          unrolledLoop jj jmax
            (fun j writes =>
              writes ++ [j * n + i, (j + 1) * n + i, (j + 2) * n + i, (j + 3) * n + i])
            (fun j writes => writes ++ [j * n + i]) writes) writes) writes) [] := by
    unfold matTransposeOMP_writes
    rw [forStride_eq_forLoop _ _ _ (by decide)]
  rw [e]
  constructor
  · intro hp
    rw [(h [] p).1 hp]
    rfl
  · intro hp
    rw [(h [] p).2 (by omega)]
    rfl

/-! ## The shared-memory routines against the blocked baseline -/

/-- C24. The shared-memory symmetry check equals the baseline: for every `n`
and every matrix, `checkSymOMP(M, n)` returns what `checkSymBlock(M, n, 64)`
returns, whether one thread runs the iterations of the outer loop in order or
the iterations are handed to threads in any way that runs each of the
`(n + 63) / 64` iterations once; and in every row that the loops reach, the
unrolled loop and the leftover loop together visit exactly the columns
`jStart ≤ j < jmax`, in order. -/
theorem checkSymOMP_eq_checkSymBlock {α : Type} [DecidableEq α] (n fuel : Nat)
    (hfuel : n ≤ fuel) (matrix : Buf α) :
    checkSymBlock fuel matrix n 64 = some (checkSymOMP matrix n) ∧
    (∀ schedule : List (List Nat), schedule.flatten.Perm (List.range ((n + 63) / 64)) →
      checkSymOMP_parallel matrix n schedule = checkSymOMP matrix n) ∧
    checkSymOMP_parallel matrix n [List.range ((n + 63) / 64)] = checkSymOMP matrix n ∧
    (∀ i jStart jmax, (i, jStart, jmax) ∈ checkSymOMP_rows n →
      jStart ≤ jmax ∧ visitedColumns jStart jmax = List.range' jStart (jmax - jStart)) := by
  refine ⟨?_, fun schedule h => checkSymOMP_parallel_eq matrix n schedule h,
    checkSymOMP_parallel_eq matrix n _ (by simp), fun i jStart jmax h => ?_⟩
  · by_cases hs : Symmetric matrix n
    · rw [(checkSymBlock_spec fuel matrix n 64 (by decide) hfuel).1 hs,
        (checkSymOMP_spec matrix n).1 hs]
    · rw [(checkSymBlock_spec fuel matrix n 64 (by decide) hfuel).2 hs,
        (checkSymOMP_spec matrix n).2 hs]
  · have hb := (checkSymOMP_rows_bounds n _ h).2.1
    exact ⟨hb, visitedColumns_eq hb⟩

/-- Instance of C24: a 70×70 matrix, two tiles per side, the last of 6 columns,
the iterations on two threads in reverse order. -/
theorem checkSymOMP_eq_checkSymBlock_witness :
    checkSymBlock 70 (fun k => k % 7) 70 64 = some (checkSymOMP (fun k => k % 7) 70) ∧
      checkSymOMP_parallel (fun k => k % 7) 70 [[1], [0]] = checkSymOMP (fun k => k % 7) 70 :=
  ⟨(checkSymOMP_eq_checkSymBlock 70 70 (by decide) (fun k => k % 7)).1,
    (checkSymOMP_eq_checkSymBlock 70 70 (by decide) (fun k => k % 7)).2.1 [[1], [0]]
      (by decide)⟩

/-- C25. The shared-memory transposition equals the baseline: for every `n`,
multiple of 64 or of 4 or not, `matTransposeOMP` leaves the buffer that
`matTransposeBlock(M, ., n, 64)` leaves, with `transposed[j*n + i] = M[i*n + j]`
for all `i, j < n` and the cells from `n * n` on untouched; its unrolled loop and
leftover loop write every output index below `n * n` exactly once and no other
index; and the order in which the iterations of the outer loop run does not
change the result. -/
theorem matTransposeOMP_eq_matTransposeBlock {α : Type} (n fuel : Nat) (hfuel : n ≤ fuel)
    (matrix transposed : Buf α) :
    matTransposeBlock fuel matrix transposed n 64
      = some (matTransposeOMP matrix transposed n) ∧
    (∀ i j, i < n → j < n → matTransposeOMP matrix transposed n (j * n + i) = matrix (i * n + j)) ∧
    (∀ p, n * n ≤ p → matTransposeOMP matrix transposed n p = transposed p) ∧
    (∀ p, p < n * n → (matTransposeOMP_writes n).count p = 1) ∧
    (∀ p, n * n ≤ p → (matTransposeOMP_writes n).count p = 0) ∧
    (∀ order : List Nat, order.Perm (List.range ((n + 63) / 64)) →
      matTransposeOMP_ordered matrix transposed n order
        = matTransposeOMP matrix transposed n) := by
  refine ⟨matTransposeOMP_eq_block fuel matrix transposed n hfuel, fun i j hi hj => ?_,
    fun p hp => ?_, fun p hp => (matTransposeOMP_writes_count n p).1 hp,
    fun p hp => (matTransposeOMP_writes_count n p).2 hp, fun order h => ?_⟩
  · have h := (matTransposeOMP_writes_spec matrix n transposed (j * n + i)).1
      (sq_index_lt hj hi)
    simp only [rm_mod hi, rm_div hi] at h
    exact h
  · exact (matTransposeOMP_writes_spec matrix n transposed p).2 (by omega)
  · exact Writes.ext
      (matTransposeOMP_ordered_writes matrix n order
        (fun t => by rw [h.mem_iff, List.mem_range]))
      (matTransposeOMP_writes_spec matrix n) (fun _ => Iff.rfl) transposed

/-- Instance of C25: a 70×70 matrix, with tiles of 64 and of 6 columns. -/
theorem matTransposeOMP_eq_matTransposeBlock_witness :
    matTransposeBlock 70 (fun k => k) (fun _ => 0) 70 64
      = some (matTransposeOMP (fun k => k) (fun _ => 0) 70) :=
  (matTransposeOMP_eq_matTransposeBlock 70 70 (by decide) (fun k => k) (fun _ => 0)).1

/-- C30. Index safety of the unrolled loops: for every `n`, every index that
`checkSymOMP` can read and every index that `matTransposeOMP` reads or writes,
the unrolled accesses at `j+1`, `j+2`, `j+3` among them, is below `n * n`; in
every row that the loops reach `jStart ≤ jmax`, so `jmax - jStart` is not
negative, and `limit = jmax - ((jmax - jStart) % 4)` satisfies
`jStart ≤ limit ≤ jmax ≤ n`; every column visited is below `n`. -/
theorem unrolledLoops_index_safety (n : Nat) :
    (∀ p, p ∈ checkSymOMP_reads n → p < n * n) ∧
    (∀ p, p ∈ matTransposeOMP_reads n → p < n * n) ∧
    (∀ p, p ∈ matTransposeOMP_writes n → p < n * n) ∧
    (∀ i jStart jmax, (i, jStart, jmax) ∈ checkSymOMP_rows n →
      i < n ∧ jStart ≤ jmax ∧ jStart ≤ jmax - ((jmax - jStart) % 4) ∧
      jmax - ((jmax - jStart) % 4) ≤ jmax ∧ jmax ≤ n ∧
      ∀ c, c ∈ visitedColumns jStart jmax → c < n) ∧
    (∀ i jj jmax, (i, jj, jmax) ∈ matTransposeOMP_rows n →
      i < n ∧ jj ≤ jmax ∧ jj ≤ jmax - ((jmax - jj) % 4) ∧
      jmax - ((jmax - jj) % 4) ≤ jmax ∧ jmax ≤ n ∧
      ∀ c, c ∈ visitedColumns jj jmax → c < n) := by
  have hcols : ∀ {a b : Nat}, a ≤ b → b ≤ n → ∀ c, c ∈ visitedColumns a b → c < n := by
    intro a b hab hb c hc
    rw [visitedColumns_eq hab, List.mem_range'_1] at hc
    omega
  refine ⟨checkSymOMP_reads_bounds n, matTransposeOMP_reads_bounds n,
    matTransposeOMP_writes_bounds n, fun i jStart jmax h => ?_, fun i jj jmax h => ?_⟩
  · have hb := checkSymOMP_rows_bounds n _ h
    dsimp only at hb
    obtain ⟨h1, h2, h3⟩ := hb
    exact ⟨h1, h2, by omega, by omega, h3, hcols h2 h3⟩
  · have hb := matTransposeOMP_rows_bounds n _ h
    dsimp only at hb
    obtain ⟨h1, h2, h3⟩ := hb
    exact ⟨h1, h2, by omega, by omega, h3, hcols h2 h3⟩

/-! ## The orchestrating layer -/

theorem forStepReturn_returned {ρ : Type} (n step : Nat) (body : Nat → Flow ρ) (v : ρ) :
    ∀ fuel i, forStepReturn n step body fuel i = .returned v → ∃ k, body k = .returned v := by
  intro fuel
  induction fuel with
  | zero =>
    intro i h
    unfold forStepReturn at h
    split_ifs at h
  | succ f ih =>
    intro i h
    unfold forStepReturn at h
    split_ifs at h
    cases hb : body i with
    | fallthrough =>
      rw [hb] at h
      exact ih _ h
    | returned w =>
      rw [hb] at h
      exact ⟨i, by rw [hb]; exact h⟩
    | outOfFuel =>
      rw [hb] at h
      cases h

/-- When `checkSymBlock` returns, it returns 1 for a symmetric matrix. -/
theorem checkSymBlock_symmetric {α : Type} [DecidableEq α] (fuel : Nat) (m : Buf α)
    (n blockSize v : Nat) (h : checkSymBlock fuel m n blockSize = some v) (hs : Symmetric m n) :
    v = 1 := by
  unfold checkSymBlock at h
  split at h
  · exact (Option.some.inj h).symm
  · rename_i w hw
    obtain ⟨ii, hii⟩ := forStepReturn_returned _ _ _ _ _ _ hw
    obtain ⟨jj, hjj⟩ := forStepReturn_returned _ _ _ _ _ _ hii
    rcases checkSymTile_spec m n blockSize ii jj with ⟨_, i, j, hi, hj, hne⟩ | ⟨hf, _⟩
    · exact absurd (hs i j hi hj) hne
    · rw [hf] at hjj
      cases hjj
  · cases h

theorem main_isSymBefore_symmetric {α : Type} [DecidableEq α] (size rank : Nat)
    (method : String) (n blockSize fuel : Nat) (matrix junk : Buf α) (hsize : 1 ≤ size)
    (hs : Symmetric matrix n) (v : Int)
    (h : main_isSymBefore size rank method n blockSize fuel matrix junk = some v) : v ≠ 0 := by
  have hmpi : ∀ r, ((checkSymMPI size n r matrix junk : Nat) : Int) ≠ 0 := by
    intro r
    rw [(checkSymMPI_spec size n r matrix junk hsize).1 hs]
    decide
  unfold main_isSymBefore at h
  dsimp only at h
  split_ifs at h
  · cases hc : checkSymBlock fuel matrix n blockSize with
    | none => rw [hc] at h; cases h
    | some w =>
      rw [hc] at h
      have := checkSymBlock_symmetric fuel matrix n blockSize w hc hs
      subst this
      rw [← Option.some.inj h]
      decide
  · rw [← Option.some.inj h, (checkSymOMP_spec matrix n).1 hs]
    decide
  · rw [← Option.some.inj h]; exact hmpi rank
  · rw [← Option.some.inj h]; exact hmpi rank
  · rw [← Option.some.inj h]; exact hmpi rank
  · rw [← Option.some.inj h]; exact hmpi rank
  · rw [← Option.some.inj h]; exact hmpi rank
  · rw [← Option.some.inj h]; decide

/-- When control is in the dispatch with `isSymBefore == 0`, the method is one
of the seven, and for the two serial methods the rank is 0. -/
theorem main_isSymBefore_zero {α : Type} [DecidableEq α] (size rank : Nat)
    (method : String) (n blockSize fuel : Nat) (matrix junk : Buf α)
    (h : main_isSymBefore size rank method n blockSize fuel matrix junk = some 0) :
    (method = "serialblock" ∧ rank = 0) ∨ (method = "omp" ∧ rank = 0) ∨ method = "mpi" ∨
      method = "mpi2" ∨ method = "mpi3" ∨ method = "mpi_blocks1" ∨ method = "mpi_blocks3" := by
  unfold main_isSymBefore at h
  dsimp only at h
  split_ifs at h with h1 h2 h3 h4 h5 h6 h7
  · exact Or.inl h1
  · exact Or.inr (Or.inl h2)
  · exact Or.inr (Or.inr (Or.inl h3))
  · exact Or.inr (Or.inr (Or.inr (Or.inl h4)))
  · exact Or.inr (Or.inr (Or.inr (Or.inr (Or.inl h5))))
  · exact Or.inr (Or.inr (Or.inr (Or.inr (Or.inr (Or.inl h6)))))
  · exact Or.inr (Or.inr (Or.inr (Or.inr (Or.inr (Or.inr h7)))))
  · exact absurd (Option.some.inj h) (by decide)

/-- What a run of `main` that ends leaves behind: the routine of the method
called once when `isSymBefore` is 0, and nothing called, nothing written and
only the line about symmetry printed by rank 0 otherwise; the last `else` of
the dispatch is never reached. -/
theorem main_cases {α : Type} [DecidableEq α] [Zero α] (size rank : Nat) (method : String)
    (n blockSize fuel : Nat) (matrix transposed junk : Buf α) (st : MainState α)
    (h : main size rank method n blockSize fuel matrix transposed junk = some st) :
    main_isSymBefore size rank method n blockSize fuel matrix junk = some st.isSymBefore ∧
    st.unknownBranch = false ∧ st.stderr = [] ∧
    ((st.isSymBefore = 0 ∧ ∃ r, Routine.ofMethod method = some r ∧ st.called = [r] ∧
        st.stdout = []) ∨
      (st.isSymBefore ≠ 0 ∧ st.called = [] ∧ st.transposed = transposed ∧ st.aborted = none ∧
        st.stdout = if rank = 0 then [.alreadySymmetric] else [])) := by
  unfold main at h
  cases hv : main_isSymBefore size rank method n blockSize fuel matrix junk with
  | none => rw [hv] at h; cases h
  | some v =>
    rw [hv, Option.some_bind] at h
    dsimp only at h
    by_cases h0 : v = 0
    · subst h0
      rw [if_pos rfl] at h
      rcases main_isSymBefore_zero size rank method n blockSize fuel matrix junk hv with
        ⟨hm, hr⟩ | ⟨hm, hr⟩ | hm | hm | hm | hm | hm
      · subst hm hr
        simp only [if_true] at h
        cases ht : matTransposeBlock fuel matrix transposed n blockSize with
        | none => rw [ht] at h; cases h
        | some t =>
          rw [ht] at h
          cases h
          exact ⟨rfl, rfl, rfl, Or.inl ⟨rfl, _, rfl, rfl, rfl⟩⟩
      all_goals
        subst hm
        try subst hr
        simp +decide only [if_true, if_false] at h
        cases h
        exact ⟨rfl, rfl, rfl, Or.inl ⟨rfl, _, rfl, rfl, rfl⟩⟩
    · rw [if_neg h0] at h
      cases h
      exact ⟨rfl, rfl, rfl, Or.inr ⟨h0, rfl, rfl, rfl, rfl⟩⟩

theorem main_isSymBefore_returns {α : Type} [DecidableEq α] (size rank : Nat) (method : String)
    (n blockSize fuel : Nat) (matrix junk : Buf α)
    (h : method = "serialblock" → rank = 0 → 1 ≤ blockSize ∧ n ≤ fuel) :
    ∃ v, main_isSymBefore size rank method n blockSize fuel matrix junk = some v := by
  unfold main_isSymBefore
  dsimp only
  split_ifs with h1
  · obtain ⟨hbs, hfuel⟩ := h h1.1 h1.2
    by_cases hs : Symmetric matrix n
    · rw [(checkSymBlock_spec fuel matrix n blockSize hbs hfuel).1 hs]
      exact ⟨_, rfl⟩
    · rw [(checkSymBlock_spec fuel matrix n blockSize hbs hfuel).2 hs]
      exact ⟨_, rfl⟩
  all_goals exact ⟨_, rfl⟩

/-- With a block size of at least 1 and enough iterations for the tile loops,
or with any method other than the blocked one, `main` gets through the check
and the dispatch. -/
theorem main_returns {α : Type} [DecidableEq α] [Zero α] (size rank : Nat) (method : String)
    (n blockSize fuel : Nat) (matrix transposed junk : Buf α)
    (h : method = "serialblock" → rank = 0 → 1 ≤ blockSize ∧ n ≤ fuel) :
    ∃ st, main size rank method n blockSize fuel matrix transposed junk = some st := by
  obtain ⟨v, hv⟩ := main_isSymBefore_returns size rank method n blockSize fuel matrix junk h
  unfold main
  rw [hv, Option.some_bind]
  dsimp only
  by_cases h0 : v = 0
  · rw [if_pos h0]
    by_cases h1 : method = "serialblock"
    · rw [if_pos h1]
      by_cases h2 : rank = 0
      · rw [if_pos h2]
        obtain ⟨hbs, hfuel⟩ := h h1 h2
        obtain ⟨out, hout, _⟩ := matTransposeBlock_spec fuel matrix transposed n blockSize hbs hfuel
        rw [hout]
        exact ⟨_, rfl⟩
      · rw [if_neg h2]
        exact ⟨_, rfl⟩
    · rw [if_neg h1]
      split_ifs <;> exact ⟨_, rfl⟩
  · rw [if_neg h0]
    exact ⟨_, rfl⟩

/-- C14. Symmetric short-circuit in `main`: for each of the methods mpi, mpi2,
mpi3, mpi_blocks1, mpi_blocks3, serialblock and omp, on every rank of a run that
gets through the dispatch, the transposition routine of the method is called,
once, if and only if `isSymBefore`, the value the symmetry check returned, is
0, and no routine is called otherwise; when the matrix is symmetric no routine
is called and the output buffer is as it was. With a block size of at least 1
and enough iterations for the tile loops the run does get through. -/
theorem main_symmetric_short_circuit {α : Type} [DecidableEq α] [Zero α]
    (size rank n blockSize fuel : Nat) (method : String) (matrix transposed junk : Buf α)
    (hsize : 1 ≤ size)
    (hm : method ∈ ["mpi", "mpi2", "mpi3", "mpi_blocks1", "mpi_blocks3", "serialblock", "omp"]) :
    (∀ st, main size rank method n blockSize fuel matrix transposed junk = some st →
      main_isSymBefore size rank method n blockSize fuel matrix junk = some st.isSymBefore ∧
      (∃ r, Routine.ofMethod method = some r ∧ (st.called = [r] ↔ st.isSymBefore = 0) ∧
        (st.called = [] ↔ st.isSymBefore ≠ 0)) ∧
      (Symmetric matrix n →
        st.called = [] ∧ st.transposed = transposed ∧ st.aborted = none)) ∧
    (1 ≤ blockSize → n ≤ fuel →
      ∃ st, main size rank method n blockSize fuel matrix transposed junk = some st) ∧
    (method = "serialblock" → rank = 0 →
      main_isSymBefore size rank method n blockSize fuel matrix junk
        = Option.map Int.ofNat (checkSymBlock fuel matrix n blockSize)) ∧
    (method = "omp" → rank = 0 →
      main_isSymBefore size rank method n blockSize fuel matrix junk
        = some (checkSymOMP matrix n : Int)) ∧
    ((method = "serialblock" ∨ method = "omp") → rank ≠ 0 →
      main_isSymBefore size rank method n blockSize fuel matrix junk = some (-1)) ∧
    (method = "mpi" → main_isSymBefore size rank method n blockSize fuel matrix junk
        = some (checkSymMPI size n rank matrix junk : Int)) ∧
    (method = "mpi2" → main_isSymBefore size rank method n blockSize fuel matrix junk
        = some (checkSymMPI2 size n rank matrix junk : Int)) ∧
    (method = "mpi3" → main_isSymBefore size rank method n blockSize fuel matrix junk
        = some (checkSymMPI3 size n rank matrix junk : Int)) ∧
    (method = "mpi_blocks1" → main_isSymBefore size rank method n blockSize fuel matrix junk
        = some (checkSymBlockMPI1 size n rank matrix junk : Int)) ∧
    (method = "mpi_blocks3" → main_isSymBefore size rank method n blockSize fuel matrix junk
        = some (checkSymBlockMPI3 size n rank matrix junk : Int)) := by
  have hr : ∃ r, Routine.ofMethod method = some r := by
    simp only [List.mem_cons, List.mem_singleton, List.not_mem_nil, or_false] at hm
    rcases hm with rfl | rfl | rfl | rfl | rfl | rfl | rfl <;> exact ⟨_, rfl⟩
  refine ⟨fun st h => ?_, fun hbs hfuel => main_returns size rank method n blockSize fuel matrix
    transposed junk (fun _ _ => ⟨hbs, hfuel⟩), ?_, ?_, ?_, ?_, ?_, ?_, ?_, ?_⟩
  · obtain ⟨h1, _, _, h2⟩ := main_cases size rank method n blockSize fuel matrix transposed junk
      st h
    refine ⟨h1, ?_, fun hs => ?_⟩
    · rcases h2 with ⟨h0, r, hr1, hr2, _⟩ | ⟨h0, hc, _⟩
      · exact ⟨r, hr1, ⟨fun _ => h0, fun _ => hr2⟩,
          ⟨fun c => (by rw [hr2] at c; cases c), fun c => absurd h0 c⟩⟩
      · obtain ⟨r, hr⟩ := hr
        exact ⟨r, hr, ⟨fun c => (by rw [hc] at c; cases c), fun c => absurd c h0⟩,
          ⟨fun _ => h0, fun _ => hc⟩⟩
    · have hne := main_isSymBefore_symmetric size rank method n blockSize fuel matrix junk hsize
        hs st.isSymBefore h1
      rcases h2 with ⟨h0, _⟩ | ⟨_, hc, ht, ha, _⟩
      · exact absurd h0 hne
      · exact ⟨hc, ht, ha⟩
  · rintro rfl rfl
    rfl
  · rintro rfl rfl
    rfl
  · rintro (rfl | rfl) hrank
    · simp +decide [main_isSymBefore, hrank]
    · simp +decide [main_isSymBefore, hrank]
  · rintro rfl
    rfl
  · rintro rfl
    rfl
  · rintro rfl
    rfl
  · rintro rfl
    rfl
  · rintro rfl
    rfl

/-- Instance of C14: method mpi3 on rank 1 of 2 with a 2×2 matrix. -/
theorem main_symmetric_short_circuit_witness :
    ∃ st, main 2 1 "mpi3" 2 64 2 (fun k => k) (fun _ => (0 : Nat)) (fun _ => 0) = some st :=
  (main_symmetric_short_circuit 2 1 2 64 2 "mpi3" (fun k => k) (fun _ => (0 : Nat))
    (fun _ => 0) (by decide) (by decide)).2.1 (by decide) (by decide)

/-- C29. A method that is none of the seven: `main` runs no symmetry check, so
`isSymBefore` stays -1; it calls no transposition routine and leaves the output
buffer as it was; it does not reach the last `else` of the dispatch, the one
with the `Unknown method` diagnostic, which no run reaches whatever the method
is, since only a recognised method makes `isSymBefore` 0; rank 0, and no other
rank, prints that the matrix is already symmetric and the transposition is
skipped. -/
theorem main_unknown_method {α : Type} [DecidableEq α] [Zero α]
    (size rank n blockSize fuel : Nat) (method : String) (matrix transposed junk : Buf α)
    (hm : method ∉ ["serialblock", "omp", "mpi", "mpi2", "mpi3", "mpi_blocks1", "mpi_blocks3"]) :
    main_isSymBefore size rank method n blockSize fuel matrix junk = some (-1) ∧
    main size rank method n blockSize fuel matrix transposed junk
      = some { isSymBefore := -1, called := [], transposed := transposed, aborted := none,
               unknownBranch := false, stderr := [],
               stdout := if rank = 0 then [.alreadySymmetric] else [] } ∧
    (∀ (size' rank' n' blockSize' fuel' : Nat) (method' : String)
        (matrix' transposed' junk' : Buf α) (st : MainState α),
      main size' rank' method' n' blockSize' fuel' matrix' transposed' junk' = some st →
      st.unknownBranch = false ∧ st.stderr = []) := by
  simp only [List.mem_cons, List.mem_singleton, List.not_mem_nil, or_false, not_or] at hm
  obtain ⟨h1, h2, h3, h4, h5, h6, h7⟩ := hm
  have e : main_isSymBefore size rank method n blockSize fuel matrix junk = some (-1) := by
    unfold main_isSymBefore
    simp only [h1, h2, h3, h4, h5, h6, h7, false_and, if_false]
  refine ⟨e, ?_, fun size' rank' n' blockSize' fuel' method' matrix' transposed' junk' st h => ?_⟩
  · unfold main
    rw [e, Option.some_bind]
    rfl
  · obtain ⟨_, hu, he, _⟩ := main_cases size' rank' method' n' blockSize' fuel' matrix'
      transposed' junk' st h
    exact ⟨hu, he⟩

/-- Instance of C29: the method name `serial` on rank 0. -/
theorem main_unknown_method_witness :
    main_isSymBefore 4 0 "serial" 2 64 2 (fun k => k) (fun _ => (0 : Nat)) = some (-1) :=
  (main_unknown_method 4 0 2 64 2 "serial" (fun k => k) (fun _ => (0 : Nat)) (fun _ => 0)
    (by decide)).1

/-! ## Deadlock freedom of the pairwise exchange -/

theorem stepRank_isSome (size : Nat) (eager : Bool) (cfg : Config) (p : Nat) :
    (stepRank size eager cfg p).isSome ↔
      (cfg p).k < size ∧ ((cfg p).k = p ∨ (cfg p).phase ≠ .waiting ∨
        matched eager (cfg (cfg p).k) p = true) := by
  unfold stepRank
  dsimp only
  by_cases h1 : (cfg p).k < size
  · rw [if_pos h1]
    by_cases h2 : (cfg p).k = p
    · rw [if_pos h2]
      exact ⟨fun _ => ⟨h1, Or.inl h2⟩, fun _ => rfl⟩
    · rw [if_neg h2]
      cases hph : (cfg p).phase with
      | start => simp [h1]
      | sent => simp [h1]
      | waiting =>
        by_cases h3 : matched eager (cfg (cfg p).k) p = true
        · simp [h1, h3]
        · simp [h1, h2, h3]
  · rw [if_neg h1]
    simp [h1]

theorem matched_of_lt (eager : Bool) (peer : RankState) {p : Nat} (h : p < peer.k) :
    matched eager peer p = true := by
  simp [matched, h]

theorem matched_of_waiting (eager : Bool) (peer : RankState) {p : Nat} (h : peer.k = p)
    (hw : peer.phase = .waiting) : matched eager peer p = true := by
  simp [matched, h, hw]

/-- In every configuration either every rank has left the loop or some rank
can take a step. -/
theorem exchange_progress (size : Nat) (eager : Bool) (cfg : Config) :
    (∀ p, p < size → size ≤ (cfg p).k) ∨
      ∃ p, p < size ∧ (stepRank size eager cfg p).isSome := by
  by_cases hall : ∀ p, p < size → size ≤ (cfg p).k
  · exact Or.inl hall
  right
  push_neg at hall
  -- a rank that is least advanced among those still in the loop
  have hex : ∃ m, ∃ p, p < size ∧ (cfg p).k = m ∧ m < size := by
    obtain ⟨p, hp, hk⟩ := hall
    exact ⟨_, p, hp, rfl, hk⟩
  classical
  obtain ⟨p, hp, hkp, hks⟩ := Nat.find_spec hex
  have hmin : ∀ q, q < size → (cfg q).k < size → (cfg p).k ≤ (cfg q).k := by
    intro q hq hqk
    rw [hkp]
    exact Nat.find_min' hex ⟨q, hq, rfl, hqk⟩
  rw [← hkp] at hks
  have en : ∀ q, q < size → (cfg q).k < size → ((cfg q).k = q ∨ (cfg q).phase ≠ .waiting ∨
      matched eager (cfg (cfg q).k) q = true) → ∃ r, r < size ∧ (stepRank size eager cfg r).isSome :=
    fun q hq h1 h2 => ⟨q, hq, (stepRank_isSome size eager cfg q).mpr ⟨h1, h2⟩⟩
  by_cases h1 : (cfg p).k = p
  · exact en p hp hks (Or.inl h1)
  by_cases h2 : (cfg p).phase = .waiting
  swap
  · exact en p hp hks (Or.inr (Or.inl h2))
  -- rank `p` waits for the rank `k`
  generalize hk : (cfg p).k = k at *
  by_cases h3 : p < (cfg k).k
  · exact en p hp (by rw [hk]; exact hks) (Or.inr (Or.inr (by rw [hk]; exact matched_of_lt _ _ h3)))
  have hjs : (cfg k).k < size := by omega
  have hkj : k ≤ (cfg k).k := hmin k hks hjs
  by_cases h4 : (cfg k).k = p
  · by_cases h5 : (cfg k).phase = .waiting
    · exact en p hp (by rw [hk]; exact hks)
        (Or.inr (Or.inr (by rw [hk]; exact matched_of_waiting _ _ h4 h5)))
    · exact en k hks hjs (Or.inr (Or.inl h5))
  by_cases h6 : (cfg k).k = k
  · exact en k hks hjs (Or.inl h6)
  by_cases h7 : (cfg k).phase = .waiting
  swap
  · exact en k hks hjs (Or.inr (Or.inl h7))
  -- rank `k` waits for the rank `j`, which is not behind `k`
  generalize hj : (cfg k).k = j at *
  by_cases h8 : k < (cfg j).k
  · exact en k hks (by rw [hj]; exact hjs)
      (Or.inr (Or.inr (by rw [hj]; exact matched_of_lt _ _ h8)))
  have hjlt : j < size := hjs
  have his : (cfg j).k < size := by omega
  have hki : k ≤ (cfg j).k := hmin j hjlt his
  have h9 : (cfg j).k = k := by omega
  by_cases h10 : (cfg j).phase = .waiting
  · exact en k hks (by rw [hj]; exact hjs)
      (Or.inr (Or.inr (by rw [hj]; exact matched_of_waiting _ _ h9 h10)))
  · exact en j hjlt his (Or.inr (Or.inl h10))

theorem remaining_step (size : Nat) (eager : Bool) (cfg cfg' : Config) (p : Nat)
    (h : stepRank size eager cfg p = some cfg') :
    ∃ st, cfg' = Function.update cfg p st ∧ remaining size st < remaining size (cfg p) ∧
      ((cfg p).k ≤ size → st.k ≤ size) := by
  unfold stepRank at h
  dsimp only at h
  by_cases h1 : (cfg p).k < size
  swap
  · rw [if_neg h1] at h
    cases h
  rw [if_pos h1] at h
  by_cases h2 : (cfg p).k = p
  · rw [if_pos h2] at h
    refine ⟨_, (Option.some.inj h).symm, ?_, fun _ => h1⟩
    unfold remaining
    dsimp only
    cases (cfg p).phase <;> dsimp only <;> omega
  · rw [if_neg h2] at h
    cases hph : (cfg p).phase with
    | start =>
      rw [hph] at h
      refine ⟨_, (Option.some.inj h).symm, ?_, fun hk => hk⟩
      unfold remaining
      rw [hph]
      dsimp only
      omega
    | sent =>
      rw [hph] at h
      refine ⟨_, (Option.some.inj h).symm, ?_, fun hk => hk⟩
      unfold remaining
      rw [hph]
      dsimp only
      omega
    | waiting =>
      rw [hph] at h
      dsimp only at h
      split_ifs at h
      refine ⟨_, (Option.some.inj h).symm, ?_, fun _ => h1⟩
      unfold remaining
      rw [hph]
      dsimp only
      omega

/-- Every step takes away from the steps left. -/
theorem workLeft_step (size : Nat) (eager : Bool) (cfg cfg' : Config) (p : Nat) (hp : p < size)
    (h : stepRank size eager cfg p = some cfg') : workLeft size cfg' < workLeft size cfg := by
  obtain ⟨st, rfl, hlt, _⟩ := remaining_step size eager cfg cfg' p h
  unfold workLeft
  apply Finset.sum_lt_sum
  · intro q _
    by_cases e : q = p
    · subst e
      rw [Function.update_same]
      exact Nat.le_of_lt hlt
    · rw [Function.update_noteq e]
  · exact ⟨p, Finset.mem_range.mpr hp, by rw [Function.update_same]; exact hlt⟩

theorem stepRank_bounded (size : Nat) (eager : Bool) (cfg cfg' : Config) (p : Nat)
    (h : stepRank size eager cfg p = some cfg') (hinv : ∀ q, (cfg q).k ≤ size) :
    ∀ q, (cfg' q).k ≤ size := by
  obtain ⟨st, rfl, _, hk⟩ := remaining_step size eager cfg cfg' p h
  intro q
  by_cases e : q = p
  · subst e
    rw [Function.update_same]
    exact hk (hinv q)
  · rw [Function.update_noteq e]
    exact hinv q

theorem runSchedule_workLeft (size : Nat) (eager : Bool) :
    ∀ (schedule : List Nat) (cfg cfg' : Config),
      runSchedule size eager schedule cfg = some cfg' →
      schedule.length + workLeft size cfg' ≤ workLeft size cfg ∧
      ((∀ q, (cfg q).k ≤ size) → ∀ q, (cfg' q).k ≤ size) := by
  intro schedule
  induction schedule with
  | nil =>
    intro cfg cfg' h
    cases h
    exact ⟨by simp, fun h => h⟩
  | cons p rest ih =>
    intro cfg cfg' h
    unfold runSchedule at h
    split_ifs at h with hp
    cases hs : stepRank size eager cfg p with
    | none => rw [hs] at h; cases h
    | some mid =>
      rw [hs, Option.some_bind] at h
      have h1 := workLeft_step size eager cfg mid p hp hs
      obtain ⟨h2, h3⟩ := ih mid cfg' h
      refine ⟨?_, fun hinv => h3 (stepRank_bounded size eager cfg mid p hs hinv)⟩
      rw [List.length_cons]
      omega

theorem workLeft_initial (size : Nat) : workLeft size Config.initial = size * (3 * size + 2) := by
  unfold workLeft Config.initial remaining
  simp

/-- From every configuration the ranks can go on, one step at a time, until
all of them have left the loop. -/
theorem exchange_completes (size : Nat) (eager : Bool) :
    ∀ (w : Nat) (cfg : Config), workLeft size cfg ≤ w →
      ∃ rest final, runSchedule size eager rest cfg = some final ∧
        ∀ p, p < size → size ≤ (final p).k := by
  intro w
  induction w with
  | zero =>
    intro cfg hw
    rcases exchange_progress size eager cfg with hfin | ⟨p, hp, hsome⟩
    · exact ⟨[], cfg, rfl, hfin⟩
    · obtain ⟨cfg', hc⟩ := Option.isSome_iff_exists.mp hsome
      have := workLeft_step size eager cfg cfg' p hp hc
      omega
  | succ w ih =>
    intro cfg hw
    rcases exchange_progress size eager cfg with hfin | ⟨p, hp, hsome⟩
    · exact ⟨[], cfg, rfl, hfin⟩
    · obtain ⟨cfg', hc⟩ := Option.isSome_iff_exists.mp hsome
      have hlt := workLeft_step size eager cfg cfg' p hp hc
      obtain ⟨rest, final, hr, hf⟩ := ih cfg' (by omega)
      refine ⟨p :: rest, final, ?_, hf⟩
      unfold runSchedule
      rw [if_pos hp, hc, Option.some_bind]
      exact hr

/-- C19. Deadlock freedom of the pairwise exchange: for every `size ≥ 1`, with
every rank running the loop `k = 0 .. size-1` of `matTransposeMPI3`, whether
sends complete eagerly or only against a posted receive, in every configuration
either all ranks have left the loop or some rank can take a step, so no set of
ranks is blocked with nobody able to move; every execution from the start has at
most `size * (3*size + 2)` steps; an execution that cannot be continued has
every rank out of the loop with `k = size`; and every execution can be continued
to such an end. -/
theorem exchange_deadlock_free (size : Nat) (hsize : 1 ≤ size) (eager : Bool) :
    (∀ cfg : Config, (∀ p, p < size → size ≤ (cfg p).k) ∨
      ∃ p, p < size ∧ (stepRank size eager cfg p).isSome) ∧
    (∀ schedule cfg, runSchedule size eager schedule Config.initial = some cfg →
      schedule.length ≤ size * (3 * size + 2) ∧
      ((∀ p, p < size → stepRank size eager cfg p = none) → ∀ p, p < size → (cfg p).k = size) ∧
      ∃ rest final, runSchedule size eager rest cfg = some final ∧
        ∀ p, p < size → (final p).k = size) := by
  have _ := hsize
  refine ⟨exchange_progress size eager, fun schedule cfg h => ?_⟩
  obtain ⟨h1, h2⟩ := runSchedule_workLeft size eager schedule Config.initial cfg h
  have hinv : ∀ q, (cfg q).k ≤ size := h2 (fun q => Nat.zero_le _)
  refine ⟨?_, fun hstuck p hp => ?_, ?_⟩
  · rw [workLeft_initial] at h1
    omega
  · rcases exchange_progress size eager cfg with hfin | ⟨q, hq, hsome⟩
    · exact Nat.le_antisymm (hinv p) (hfin p hp)
    · rw [hstuck q hq] at hsome
      cases hsome
  · obtain ⟨rest, final, hr, hf⟩ := exchange_completes size eager _ cfg (Nat.le_refl _)
    refine ⟨rest, final, hr, fun p hp => ?_⟩
    exact Nat.le_antisymm
      ((runSchedule_workLeft size eager rest cfg final hr).2 hinv p) (hf p hp)

/-- Instance of C19: three ranks, sends that wait for the receive, after the
first two steps of rank 1. -/
theorem exchange_deadlock_free_witness :
    ∃ rest final, runSchedule 3 false rest
        (Function.update Config.initial 1 { k := 0, phase := .waiting }) = some final ∧
      ∀ p, p < 3 → (final p).k = 3 :=
  ((exchange_deadlock_free 3 (by decide) false).2 [1, 1]
    (Function.update Config.initial 1 { k := 0, phase := .waiting })
    (by
      simp only [runSchedule, stepRank, Config.initial]
      simp)).2.2

/-! ## Index safety of the pairwise exchange -/

theorem wholeBuffer_bound (n localRows : Nat) (buf : BufName) :
    ∀ a, a ∈ wholeBuffer buf (buf.length n localRows) → a.2 < a.1.length n localRows := by
  intro a ha
  unfold wholeBuffer at ha
  rw [List.mem_map] at ha
  obtain ⟨e, he, rfl⟩ := ha
  exact List.mem_range.mp he

theorem append_bound (n localRows : Nat) (acc more : List (BufName × Nat))
    (h1 : ∀ a, a ∈ acc → a.2 < a.1.length n localRows)
    (h2 : ∀ a, a ∈ more → a.2 < a.1.length n localRows) :
    ∀ a, a ∈ acc ++ more → a.2 < a.1.length n localRows := by
  intro a ha
  rcases List.mem_append.mp ha with h | h
  · exact h1 a h
  · exact h2 a h

/-- A loop nest over `r, c < localRows` that records accesses within bounds keeps
a list of accesses within bounds. -/
theorem blockLoop_bound (n localRows : Nat) (cell : Nat → Nat → List (BufName × Nat))
    (hcell : ∀ r c, r < localRows → c < localRows →
      ∀ a, a ∈ cell r c → a.2 < a.1.length n localRows)
    (acc : List (BufName × Nat)) (h : ∀ a, a ∈ acc → a.2 < a.1.length n localRows) :
    ∀ a, a ∈ forLoop 0 localRows (fun r acc =>
        forLoop 0 localRows (fun c acc => acc ++ cell r c) acc) acc →
      a.2 < a.1.length n localRows := by
  refine forLoop_preserves
    (fun (acc : List (BufName × Nat)) => ∀ a, a ∈ acc → a.2 < a.1.length n localRows)
    _ _ _ _ h ?_
  intro r acc _ hr hacc
  refine forLoop_preserves
    (fun (acc : List (BufName × Nat)) => ∀ a, a ∈ acc → a.2 < a.1.length n localRows)
    _ _ _ _ hacc ?_
  intro c acc _ hc hacc
  exact append_bound n localRows acc _ hacc (hcell r c hr hc)

theorem exchangeStepAccesses_bound (n size rank k : Nat) (hrank : rank < size) (hk : k < size)
    (acc : List (BufName × Nat)) (h : ∀ a, a ∈ acc → a.2 < a.1.length n (n / size)) :
    ∀ a, a ∈ exchangeStepAccesses n (n / size) rank k acc → a.2 < a.1.length n (n / size) := by
  have hn : size * (n / size) ≤ n := Nat.mul_div_le n size
  have hcol : ∀ {q c : Nat}, q < size → c < n / size → q * (n / size) + c < n :=
    fun hq hc => Nat.lt_of_lt_of_le (block_lt hq hc) hn
  unfold exchangeStepAccesses
  by_cases e : k = rank
  · rw [if_pos e]
    apply blockLoop_bound n (n / size)
      (fun r c => [(BufName.localM, r * n + (rank * (n / size) + c)),
        (BufName.localM, c * n + (rank * (n / size) + r)),
        (BufName.localT, r * n + (rank * (n / size) + c))]) _ acc h
    intro r c hr hc a ha
    simp only [List.mem_cons, List.mem_singleton, List.not_mem_nil, or_false] at ha
    rcases ha with rfl | rfl | rfl
    · exact block_lt hr (hcol hrank hc)
    · exact block_lt hc (hcol hrank hr)
    · exact block_lt hr (hcol hrank hc)
  · rw [if_neg e]
    dsimp only
    apply blockLoop_bound n (n / size)
      (fun r c => [(BufName.recvBuf, r * (n / size) + c),
        (BufName.localT, c * n + (k * (n / size) + r))])
    · intro r c hr hc a ha
      simp only [List.mem_cons, List.mem_singleton, List.not_mem_nil, or_false] at ha
      rcases ha with rfl | rfl
      · exact block_lt hr hc
      · exact block_lt hc (hcol hk hr)
    · apply append_bound
      · apply append_bound
        · apply blockLoop_bound n (n / size)
            (fun r c => [(BufName.localM, r * n + (k * (n / size) + c)),
              (BufName.sendBuf, r * (n / size) + c)]) _ acc h
          intro r c hr hc a ha
          simp only [List.mem_cons, List.mem_singleton, List.not_mem_nil, or_false] at ha
          rcases ha with rfl | rfl
          · exact block_lt hr (hcol hk hc)
          · exact block_lt hr hc
        · exact wholeBuffer_bound n (n / size) .sendBuf
      · exact wholeBuffer_bound n (n / size) .recvBuf

theorem matTransposeMPI3_accesses_bound (n size rank : Nat) (hrank : rank < size) :
    ∀ a, a ∈ matTransposeMPI3_accesses size n rank → a.2 < a.1.length n (n / size) := by
  unfold matTransposeMPI3_accesses
  dsimp only
  apply append_bound
  · refine forLoop_preserves
      (fun (acc : List (BufName × Nat)) => ∀ a, a ∈ acc → a.2 < a.1.length n (n / size))
      _ _ _ _ ?_ ?_
    · apply append_bound
      · exact wholeBuffer_bound n (n / size) .localM
      · exact wholeBuffer_bound n (n / size) .localT
    · intro k acc _ hk hacc
      exact exchangeStepAccesses_bound n size rank k hrank hk acc hacc
  · exact wholeBuffer_bound n (n / size) .localT

/-- C31. Index safety of the pairwise exchange: for every `n`, every
`size ≥ 1`, whether it divides `n` or not, and every rank `p < size`, with
`L = n / size` every index that `matTransposeMPI3` uses into `localM` and `localT`
is below `L * n` and every index into `sendBuf` and `recvBuf` is below `L * L`,
the sizes these buffers are allocated with. -/
theorem matTransposeMPI3_index_safety (n size rank : Nat) (hsize : 1 ≤ size)
    (hrank : rank < size) :
    (∀ idx, (BufName.localM, idx) ∈ matTransposeMPI3_accesses size n rank →
      idx < n / size * n) ∧
    (∀ idx, (BufName.localT, idx) ∈ matTransposeMPI3_accesses size n rank →
      idx < n / size * n) ∧
    (∀ idx, (BufName.sendBuf, idx) ∈ matTransposeMPI3_accesses size n rank →
      idx < n / size * (n / size)) ∧
    (∀ idx, (BufName.recvBuf, idx) ∈ matTransposeMPI3_accesses size n rank →
      idx < n / size * (n / size)) ∧
    (∀ a, a ∈ matTransposeMPI3_accesses size n rank → a.2 < a.1.length n (n / size)) := by
  have _ := hsize
  have h := matTransposeMPI3_accesses_bound n size rank hrank
  exact ⟨fun idx hi => h _ hi, fun idx hi => h _ hi, fun idx hi => h _ hi, fun idx hi => h _ hi, h⟩

/-- Instance of C31: five rows on two processes, rank 1 writing the last cell
of its `localT` that a block step reaches. -/
theorem matTransposeMPI3_index_safety_witness : 1 * 5 + (1 * 2 + 1) < 5 / 2 * 5 :=
  (matTransposeMPI3_index_safety 5 2 1 (by decide) (by decide)).2.1 (1 * 5 + (1 * 2 + 1))
    (by decide)

/-! ## The symmetric initialiser -/

theorem triangle_succ (i : Nat) : (i + 1) * (i + 1 + 1) / 2 = i * (i + 1) / 2 + (i + 1) := by
  have e : (i + 1) * (i + 1 + 1) = i * (i + 1) + 2 * (i + 1) := by ring
  rw [e, Nat.add_mul_div_left _ _ (by decide)]

/-- A loop that carries a counter of calls is the loop on the data alone, with
the counter read off the iteration number. -/
theorem forLoop_counter {σ : Type} (f : Nat → Nat → σ → σ) (s : σ) (c k : Nat) :
    forLoop 0 k (fun j (st : σ × Nat) => (f j st.2 st.1, st.2 + 1)) (s, c)
      = (forLoop 0 k (fun j s => f j (c + j) s) s, c + k) := by
  induction k with
  | zero => rfl
  | succ k ih =>
    rw [forLoop_zero_succ, ih, forLoop_zero_succ]
    rfl

/-- The two loops of `initializeSymmetricMatrix` without the count of calls:
iteration `(i, j)` uses the call number `i*(i+1)/2 + j`. -/
theorem initializeSymmetricMatrix_eq {α : Type} (rand : Int → Nat → Nat) (scale : Nat → α)
    (matrix : Buf α) (n : Nat) (seed : Int) :
    initializeSymmetricMatrix rand scale matrix n seed
      = forLoop 0 n (fun i m => forLoop 0 (i + 1) (fun j m =>
          (m.set (i * n + j) (scale (rand seed (i * (i + 1) / 2 + j)))).set (j * n + i)
            (scale (rand seed (i * (i + 1) / 2 + j)))) m) matrix := by
  unfold initializeSymmetricMatrix
  have key := forLoop_inv
    (fun k (st : Buf α × Nat) => st = (forLoop 0 k (fun i m => forLoop 0 (i + 1) (fun j m =>
          (m.set (i * n + j) (scale (rand seed (i * (i + 1) / 2 + j)))).set (j * n + i)
            (scale (rand seed (i * (i + 1) / 2 + j)))) m) matrix, k * (k + 1) / 2))
    0 n (fun i st =>
      forLoop 0 (i + 1) (fun j (st : Buf α × Nat) =>
        let value := scale (rand seed st.2)
        let matrix := st.1.set (i * n + j) value
        let matrix := matrix.set (j * n + i) value
        (matrix, st.2 + 1)) st) (matrix, 0) (Nat.zero_le n) rfl
    (by
      intro i st _ _ hst
      dsimp only at hst ⊢
      rw [hst]
      have h := forLoop_counter
        (fun j c (m : Buf α) => (m.set (i * n + j) (scale (rand seed c))).set (j * n + i)
          (scale (rand seed c)))
        (forLoop 0 i (fun i m => forLoop 0 (i + 1) (fun j m =>
          (m.set (i * n + j) (scale (rand seed (i * (i + 1) / 2 + j)))).set (j * n + i)
            (scale (rand seed (i * (i + 1) / 2 + j)))) m) matrix)
        (i * (i + 1) / 2) (i + 1)
      rw [h, triangle_succ]
      refine Prod.ext ?_ rfl
      dsimp only
      rw [forLoop_zero_succ i (fun i m => forLoop 0 (i + 1) (fun j m =>
          (m.set (i * n + j) (scale (rand seed (i * (i + 1) / 2 + j)))).set (j * n + i)
            (scale (rand seed (i * (i + 1) / 2 + j)))) m) matrix])
  dsimp only at key
  rw [key]

theorem initializeSymmetricMatrix_writes {α : Type} (rand : Int → Nat → Nat) (scale : Nat → α)
    (n : Nat) (seed : Int) :
    Writes
      (fun p => scale (rand seed (max (p / n) (p % n) * (max (p / n) (p % n) + 1) / 2
        + min (p / n) (p % n))))
      (fun p => p < n * n)
      (fun matrix => initializeSymmetricMatrix rand scale matrix n seed) := by
  have e : (fun matrix => initializeSymmetricMatrix rand scale matrix n seed)
      = forLoop 0 n (fun i m => forLoop 0 (i + 1) (fun j m =>
          (m.set (i * n + j) (scale (rand seed (i * (i + 1) / 2 + j)))).set (j * n + i)
            (scale (rand seed (i * (i + 1) / 2 + j)))) m) := by
    funext matrix
    exact initializeSymmetricMatrix_eq rand scale matrix n seed
  rw [e]
  refine Writes.congr (Writes.forLoop 0 n (fun i _ hi => Writes.forLoop 0 (i + 1)
    (fun j _ hj => Writes.comp
      (Writes.set _ (i * n + j) _ ?_) (Writes.set _ (j * n + i) _ ?_)))) (fun p => ?_)
  · have hj' : j < n := by omega
    simp only [rm_div hj', rm_mod hj']
    rw [Nat.max_eq_left (by omega), Nat.min_eq_right (by omega)]
  · simp only [rm_div hi, rm_mod hi]
    rw [Nat.max_eq_right (by omega), Nat.min_eq_left (by omega)]
  · constructor
    · rintro ⟨i, _, hi, j, _, hj, h | h⟩
      · rw [h]; exact sq_index_lt hi (by omega)
      · rw [h]; exact sq_index_lt (by omega) hi
    · intro hp
      have hn : 0 < n := by
        rcases Nat.eq_zero_or_pos n with h0 | h0
        · subst h0; simp at hp
        · exact h0
      have ha : p / n < n := (Nat.div_lt_iff_lt_mul hn).mpr hp
      have hb : p % n < n := Nat.mod_lt _ hn
      have hpe : p = p / n * n + p % n := by
        have := Nat.div_add_mod p n
        rw [Nat.mul_comm] at this
        exact this.symm
      rcases Nat.le_total (p % n) (p / n) with h | h
      · exact ⟨p / n, Nat.zero_le _, ha, p % n, Nat.zero_le _, by omega, Or.inl hpe⟩
      · exact ⟨p % n, Nat.zero_le _, hb, p / n, Nat.zero_le _, by omega, Or.inr hpe⟩

theorem initializeSymmetricMatrix_at {α : Type} (rand : Int → Nat → Nat) (scale : Nat → α)
    (matrix : Buf α) (n : Nat) (seed : Int) {i j : Nat} (hi : i < n) (hj : j < n) :
    initializeSymmetricMatrix rand scale matrix n seed (i * n + j)
      = scale (rand seed (max i j * (max i j + 1) / 2 + min i j)) := by
  have h := (initializeSymmetricMatrix_writes rand scale n seed matrix (i * n + j)).1
    (sq_index_lt hi hj)
  simp only [rm_div hj, rm_mod hj] at h
  exact h

theorem initializeSymmetricMatrix_symm {α : Type} (rand : Int → Nat → Nat) (scale : Nat → α)
    (matrix : Buf α) (n : Nat) (seed : Int) :
    Symmetric (initializeSymmetricMatrix rand scale matrix n seed) n := by
  intro i j hi hj
  rw [initializeSymmetricMatrix_at rand scale matrix n seed hi hj,
    initializeSymmetricMatrix_at rand scale matrix n seed hj hi, Nat.max_comm, Nat.min_comm]

/-- C33. The symmetric initialiser: for every `n`, every seed and every
sequence of values of the random generator, `initializeSymmetricMatrix` writes
every entry of the `n × n` matrix, entry `(i, j)` with the scaled value of call
number `m*(m+1)/2 + min i j` of `rand()`, `m = max i j`, whatever the buffer held
before, and nothing beyond `n * n`; it leaves `M[i*n + j] = M[j*n + i]` for all
`i, j < n`; and every symmetry check returns 1 on its output. -/
theorem initializeSymmetricMatrix_correct {α : Type} [DecidableEq α]
    (n size rank blockSize fuel : Nat) (seed : Int) (rand : Int → Nat → Nat) (scale : Nat → α)
    (matrix junk : Buf α) (hsize : 1 ≤ size) (hbs : 1 ≤ blockSize) (hfuel : n ≤ fuel) :
    (∀ i j, i < n → j < n →
      initializeSymmetricMatrix rand scale matrix n seed (i * n + j)
        = scale (rand seed (max i j * (max i j + 1) / 2 + min i j))) ∧
    (∀ (previous : Buf α) i j, i < n → j < n →
      initializeSymmetricMatrix rand scale previous n seed (i * n + j)
        = initializeSymmetricMatrix rand scale matrix n seed (i * n + j)) ∧
    (∀ p, n * n ≤ p → initializeSymmetricMatrix rand scale matrix n seed p = matrix p) ∧
    (∀ i j, i < n → j < n →
      initializeSymmetricMatrix rand scale matrix n seed (i * n + j)
        = initializeSymmetricMatrix rand scale matrix n seed (j * n + i)) ∧
    checkSymMPI size n rank (initializeSymmetricMatrix rand scale matrix n seed) junk = 1 ∧
    checkSymMPI2 size n rank (initializeSymmetricMatrix rand scale matrix n seed) junk = 1 ∧
    checkSymMPI3 size n rank (initializeSymmetricMatrix rand scale matrix n seed) junk = 1 ∧
    checkSymBlockMPI1 size n rank (initializeSymmetricMatrix rand scale matrix n seed) junk = 1 ∧
    checkSymBlockMPI3 size n rank (initializeSymmetricMatrix rand scale matrix n seed) junk = 1 ∧
    checkSymBlock fuel (initializeSymmetricMatrix rand scale matrix n seed) n blockSize
      = some 1 ∧
    checkSymOMP (initializeSymmetricMatrix rand scale matrix n seed) n = 1 := by
  have hs := initializeSymmetricMatrix_symm rand scale matrix n seed
  have hmpi := (checkSymMPI_spec size n rank
    (initializeSymmetricMatrix rand scale matrix n seed) junk hsize).1 hs
  refine ⟨fun i j hi hj => initializeSymmetricMatrix_at rand scale matrix n seed hi hj,
    fun previous i j hi hj => ?_, fun p hp => ?_, hs, hmpi, hmpi, hmpi, hmpi, hmpi,
    (checkSymBlock_spec fuel _ n blockSize hbs hfuel).1 hs, (checkSymOMP_spec _ n).1 hs⟩
  · rw [initializeSymmetricMatrix_at rand scale previous n seed hi hj,
      initializeSymmetricMatrix_at rand scale matrix n seed hi hj]
  · exact (initializeSymmetricMatrix_writes rand scale n seed matrix p).2 (by omega)

/-- Instance of C33: a 3×3 matrix from the generator that counts its calls,
checked on rank 1 of 2. -/
theorem initializeSymmetricMatrix_correct_witness :
    checkSymMPI 2 3 1
      (initializeSymmetricMatrix (fun _ c => c) (fun v => v) (fun _ => 0) 3 7) (fun _ => 0) = 1 :=
  (initializeSymmetricMatrix_correct 3 2 1 2 3 7 (fun _ c => c) (fun v => v) (fun _ => 0)
    (fun _ => 0) (by decide) (by decide) (by decide)).2.2.2.2.1

/-! ## Termination of the blocked baseline -/

/-- The stepping loop with `return` gives the same outcome with any two
numbers of iterations that let the counter reach `n`. -/
theorem forStepReturn_fuel {ρ : Type} (n step : Nat) (body body' : Nat → Flow ρ)
    (hb : ∀ k, k < n → body k = body' k) :
    ∀ f f' i, n ≤ i + f * step → n ≤ i + f' * step →
      forStepReturn n step body f i = forStepReturn n step body' f' i := by
  intro f
  induction f with
  | zero =>
    intro f' i h _
    have hi : ¬ i < n := by omega
    cases f' with
    | zero => simp only [forStepReturn, if_neg hi]
    | succ g => simp only [forStepReturn, if_neg hi]
  | succ f ih =>
    intro f' i h h'
    by_cases hi : i < n
    · cases f' with
      | zero => omega
      | succ g =>
        simp only [forStepReturn, if_pos hi]
        rw [← hb i hi]
        have hrec := ih g (i + step) (by rw [Nat.succ_mul] at h; omega)
          (by rw [Nat.succ_mul] at h'; omega)
        cases body i with
        | fallthrough => exact hrec
        | returned v => rfl
        | outOfFuel => rfl
    · cases f' with
      | zero => simp only [forStepReturn, if_neg hi]
      | succ g => simp only [forStepReturn, if_neg hi]

/-- The stepping loop on a state gives the same outcome with any two numbers
of iterations that let the counter reach `n`. -/
theorem forStep_fuel {σ : Type} (n step : Nat) (body body' : Nat → σ → Option σ)
    (hb : ∀ k s, k < n → body k s = body' k s) :
    ∀ f f' i s, n ≤ i + f * step → n ≤ i + f' * step →
      forStep n step body f i s = forStep n step body' f' i s := by
  intro f
  induction f with
  | zero =>
    intro f' i s h _
    have hi : ¬ i < n := by omega
    cases f' with
    | zero => simp only [forStep, if_neg hi]
    | succ g => simp only [forStep, if_neg hi]
  | succ f ih =>
    intro f' i s h h'
    by_cases hi : i < n
    · cases f' with
      | zero => omega
      | succ g =>
        simp only [forStep, if_pos hi]
        rw [← hb i s hi]
        cases body i s with
        | none => rfl
        | some s' =>
          exact ih g (i + step) s' (by rw [Nat.succ_mul] at h; omega)
            (by rw [Nat.succ_mul] at h'; omega)
    · cases f' with
      | zero => simp only [forStep, if_neg hi]
      | succ g => simp only [forStep, if_neg hi]

theorem checkSymBlock_fuel {α : Type} [DecidableEq α] (m : Buf α) (n blockSize f f' : Nat)
    (h : n ≤ f * blockSize) (h' : n ≤ f' * blockSize) :
    checkSymBlock f m n blockSize = checkSymBlock f' m n blockSize := by
  unfold checkSymBlock
  rw [forStepReturn_fuel n blockSize _
    (fun ii => forStepReturn n blockSize (fun jj => checkSymTile m n blockSize ii jj) f' ii)
    (fun ii _ => forStepReturn_fuel n blockSize _ _ (fun _ _ => rfl) f f' ii (by omega) (by omega))
    f f' 0 (by omega) (by omega)]

theorem matTransposeBlock_fuel {α : Type} (m t : Buf α) (n blockSize f f' : Nat)
    (h : n ≤ f * blockSize) (h' : n ≤ f' * blockSize) :
    matTransposeBlock f m t n blockSize = matTransposeBlock f' m t n blockSize := by
  unfold matTransposeBlock
  exact forStep_fuel n blockSize _ _
    (fun ii s _ => forStep_fuel n blockSize _ _ (fun _ _ _ => rfl) f f' 0 s (by omega) (by omega))
    f f' 0 t (by omega) (by omega)

/-- With `blockSize ≥ 1` the tile loops of `matTransposeBlock` run the tiles
`(a * blockSize, b * blockSize)` for `a, b` below the number of tiles per side
and end. -/
theorem matTransposeBlock_tiles {α : Type} (m t : Buf α) (n blockSize fuel : Nat)
    (hbs : 1 ≤ blockSize) (hfuel : n ≤ fuel * blockSize) :
    matTransposeBlock fuel m t n blockSize
      = some (forLoop 0 ((n + blockSize - 1) / blockSize) (fun a t =>
          forLoop 0 ((n + blockSize - 1) / blockSize) (fun b t =>
            transposeTile m n blockSize (a * blockSize) (b * blockSize) t) t) t) := by
  have hmax : n ≤ max fuel n * blockSize :=
    Nat.le_trans (Nat.le_max_right fuel n) (Nat.le_mul_of_pos_right _ hbs)
  rw [matTransposeBlock_fuel m t n blockSize fuel (max fuel n) hfuel hmax]
  unfold matTransposeBlock
  rw [forStep_eq_forStride n blockSize hbs _
    (fun ii t => forStride 0 n blockSize (fun jj t => transposeTile m n blockSize ii jj t) t)
    (fun ii s _ => forStep_eq_forStride n blockSize hbs _ _ (fun _ _ _ => rfl) (max fuel n) 0 s
      (by have := Nat.le_max_right fuel n; omega))
    (max fuel n) 0 t (by have := Nat.le_max_right fuel n; omega)]
  rw [forStride_eq_forLoop _ _ _ hbs]
  simp only [Nat.sub_zero, Nat.zero_add]
  congr 1
  apply forLoop_congr
  intro a s _ _
  rw [forStride_eq_forLoop _ _ _ hbs]
  simp only [Nat.sub_zero, Nat.zero_add]

theorem checkSymBlock_tight {α : Type} [DecidableEq α] (m : Buf α) (n blockSize fuel : Nat)
    (hbs : 1 ≤ blockSize) (hfuel : n ≤ fuel * blockSize) :
    (Symmetric m n → checkSymBlock fuel m n blockSize = some 1) ∧
    (¬ Symmetric m n → checkSymBlock fuel m n blockSize = some 0) := by
  have hmax : n ≤ max fuel n * blockSize :=
    Nat.le_trans (Nat.le_max_right fuel n) (Nat.le_mul_of_pos_right _ hbs)
  rw [checkSymBlock_fuel m n blockSize fuel (max fuel n) hfuel hmax]
  exact checkSymBlock_spec (max fuel n) m n blockSize hbs (Nat.le_max_right fuel n)

/-- With `blockSize = 0` the counter `jj` of the first row of tiles stays at 0:
`checkSymBlock` uses up any number of iterations. -/
theorem checkSymBlock_zero_blockSize {α : Type} [DecidableEq α] (m : Buf α) (n fuel : Nat)
    (hn : 1 ≤ n) : checkSymBlock fuel m n 0 = none := by
  have htile : checkSymTile m n 0 0 0 = .fallthrough := by
    unfold checkSymTile
    simp [forReturn]
  have hinner : ∀ f, forStepReturn n 0 (fun jj => checkSymTile m n 0 0 jj) f 0 = .outOfFuel := by
    intro f
    induction f with
    | zero => simp only [forStepReturn, if_pos (show 0 < n by omega)]
    | succ f ih =>
      simp only [forStepReturn, if_pos (show 0 < n by omega), htile]
      exact ih
  have houter : forStepReturn n 0 (fun ii =>
      forStepReturn n 0 (fun jj => checkSymTile m n 0 ii jj) fuel ii) fuel 0 = .outOfFuel := by
    cases fuel with
    | zero => simp only [forStepReturn, if_pos (show 0 < n by omega)]
    | succ f =>
      rw [forStepReturn, if_pos (show 0 < n by omega), hinner (f + 1)]
  unfold checkSymBlock
  rw [houter]

/-- With `blockSize = 0` the counter `jj` of the first row of tiles stays at 0:
`matTransposeBlock` uses up any number of iterations. -/
theorem matTransposeBlock_zero_blockSize {α : Type} (m t : Buf α) (n fuel : Nat) (hn : 1 ≤ n) :
    matTransposeBlock fuel m t n 0 = none := by
  have hinner : ∀ f s, forStep n 0 (fun jj t => some (transposeTile m n 0 0 jj t)) f 0 s
      = none := by
    intro f
    induction f with
    | zero =>
      intro s
      simp only [forStep, if_pos (show 0 < n by omega)]
    | succ f ih =>
      intro s
      simp only [forStep, if_pos (show 0 < n by omega), Option.some_bind]
      exact ih _
  unfold matTransposeBlock
  cases fuel with
  | zero => simp only [forStep, if_pos (show 0 < n by omega)]
  | succ f =>
    rw [forStep, if_pos (show 0 < n by omega), hinner (f + 1)]
    rfl

/-- C32. Termination of the blocked baseline: for every `n`, every
`blockSize ≥ 1` and every matrix, `checkSymBlock` and `matTransposeBlock` end, as
soon as each tile loop is given the `fuel` iterations that take a counter
growing by `blockSize` from 0 to `n`: the check returns 1 or 0, and the
transposition has run the tiles at `(a * blockSize, b * blockSize)`. With
`blockSize = 0` and `n ≥ 1` neither ends, whatever the number of iterations, and
`main` hands a block size 0 to them unchecked. -/
theorem blocked_baseline_terminates {α : Type} [DecidableEq α] [Zero α]
    (n blockSize fuel : Nat) (hbs : 1 ≤ blockSize) (hfuel : n ≤ fuel * blockSize)
    (matrix transposed : Buf α) :
    (checkSymBlock fuel matrix n blockSize = some 1 ∨
      checkSymBlock fuel matrix n blockSize = some 0) ∧
    (checkSymBlock fuel matrix n blockSize = some 1 ↔ Symmetric matrix n) ∧
    matTransposeBlock fuel matrix transposed n blockSize
      = some (forLoop 0 ((n + blockSize - 1) / blockSize) (fun a t =>
          forLoop 0 ((n + blockSize - 1) / blockSize) (fun b t =>
            transposeTile matrix n blockSize (a * blockSize) (b * blockSize) t) t)
          transposed) ∧
    (∀ more, fuel ≤ more →
      checkSymBlock more matrix n blockSize = checkSymBlock fuel matrix n blockSize ∧
      matTransposeBlock more matrix transposed n blockSize
        = matTransposeBlock fuel matrix transposed n blockSize) ∧
    (∀ big any, 1 ≤ big →
      checkSymBlock any matrix big 0 = none ∧
      matTransposeBlock any matrix transposed big 0 = none ∧
      ∀ (size : Nat) (junk : Buf α),
        main size 0 "serialblock" big 0 any matrix transposed junk = none) := by
  have hc := checkSymBlock_tight matrix n blockSize fuel hbs hfuel
  refine ⟨?_, ⟨fun h => ?_, hc.1⟩, matTransposeBlock_tiles matrix transposed n blockSize fuel
    hbs hfuel, fun more hmore => ?_, fun big any hbig => ?_⟩
  · by_cases hs : Symmetric matrix n
    · exact Or.inl (hc.1 hs)
    · exact Or.inr (hc.2 hs)
  · by_contra hs
    rw [hc.2 hs] at h
    cases h
  · have hm : n ≤ more * blockSize :=
      Nat.le_trans hfuel (Nat.mul_le_mul_right blockSize hmore)
    exact ⟨checkSymBlock_fuel matrix n blockSize more fuel hm hfuel,
      matTransposeBlock_fuel matrix transposed n blockSize more fuel hm hfuel⟩
  · refine ⟨checkSymBlock_zero_blockSize matrix big any hbig,
      matTransposeBlock_zero_blockSize matrix transposed big any hbig, fun size junk => ?_⟩
    unfold main main_isSymBefore
    simp only [and_self, if_true, checkSymBlock_zero_blockSize matrix big any hbig,
      Option.map_none', Option.none_bind]

/-- Instance of C32: five rows in tiles of two, three iterations per tile
loop. -/
theorem blocked_baseline_terminates_witness :
    checkSymBlock 3 (fun k => k) 5 2 = some 1 ∨ checkSymBlock 3 (fun k => k) 5 2 = some 0 :=
  (blocked_baseline_terminates 5 2 3 (by decide) (by decide) (fun k => k) (fun _ => 0)).1

end MatT
